import Mathlib

/-!
# Eigensolver core of QUDA (`lib/eigensolve_quda.cpp`)

A shallow embedding of the thick-restart Lanczos eigensolver, of the
utilities it shares with the other solver families, of the Jacobi-Davidson
solver and of the solution update of the GCR solver (`lib/inv_gcr_quda.cpp`),
followed by the properties proved of them.

Conventions of the embedding.

* `int` is an unbounded integer (`Int`): the source performs no arithmetic on
  counters that is meant to wrap, and signed overflow is undefined in C++.
  Failures of `new` are not modelled.
* `double` is an element of a linearly ordered field `R` and `Complex` an
  element of a field `K`; arithmetic is exact.  Theorems about quotients carry
  the hypothesis that the denominator is not zero.
* `errorQuda` aborts the computation: a function that may call it returns
  `Except String _`, the string being the message.
* The arrays the solver owns (`alpha`, `beta`, `residua`, `ritz_mat`) and the
  basis `kSpace` it grows and prunes are total maps from the index to the value
  stored there, the basis with its `size()` beside it: an access outside the
  allocated range reads or writes a cell of its own instead of being
  undefined.  Which indices are accessed is a matter for separate statements.
* The sets of vectors and eigenvalues a caller hands to `deflate` are lists,
  and indexing one past its end yields no result (`Option`).
-/

namespace quda

/-! ## Configuration -/

/-- Values of the enumeration `QudaEigSpectrumType`; `other` stands for any
value that is none of the six named targets. -/
inductive QudaEigSpectrumType where
  | QUDA_SPECTRUM_SR_EIG
  | QUDA_SPECTRUM_LR_EIG
  | QUDA_SPECTRUM_SM_EIG
  | QUDA_SPECTRUM_LM_EIG
  | QUDA_SPECTRUM_SI_EIG
  | QUDA_SPECTRUM_LI_EIG
  | other (code : Int)
  deriving DecidableEq

/-- Values of the enumeration `QudaEigType`; `other` stands for any value that
is none of the three named solver families. -/
inductive QudaEigType where
  | QUDA_EIG_ARNOLDI
  | QUDA_EIG_LANCZOS
  | QUDA_EIG_JD
  | other (code : Int)
  deriving DecidableEq

open QudaEigSpectrumType QudaEigType

/-- The fields of `QudaEigParam` read by the eigensolver. -/
structure QudaEigParam (R : Type) where
  nEv : Int
  nKr : Int
  nConv : Int
  tol : R
  max_restarts : Int
  check_interval : Int
  use_poly_acc : Bool
  poly_deg : Int
  a_min : R
  a_max : R
  spectrum : QudaEigSpectrumType
  eig_type : QudaEigType
  compute_svd : Bool
  vec_infile : String
  vec_outfile : String

/-- Data members of the class `EigenSolver` (the timers, the profile and the
scratch matrix `Qmat`, which no function modelled here reads, are left out;
the residual vector `r` is part of the state of a solve). -/
structure EigenSolver (R : Type) where
  eig_param : QudaEigParam R
  nEv : Int
  nKr : Int
  nConv : Int
  tol : R
  reverse : Bool
  converged : Bool
  restart_iter : Int
  max_restarts : Int
  check_interval : Int
  iter : Int
  iter_converged : Int
  iter_locked : Int
  iter_keep : Int
  num_converged : Int
  num_locked : Int
  num_keep : Int
  residua : Int → R
  spectrum : String

/-- The two-letter code the constructor stores in `spectrum`
(lines 74-102): the configured target, with the ends exchanged when polynomial
acceleration is on; it stays at the initial "SR" for an unnamed target. -/
def spectrumCode (use_poly_acc : Bool) (s : QudaEigSpectrumType) : String :=
  if use_poly_acc then
    match s with
    | QUDA_SPECTRUM_SR_EIG => "LR"
    | QUDA_SPECTRUM_LR_EIG => "SR"
    | QUDA_SPECTRUM_SM_EIG => "LM"
    | QUDA_SPECTRUM_LM_EIG => "SM"
    | QUDA_SPECTRUM_SI_EIG => "LI"
    | QUDA_SPECTRUM_LI_EIG => "SI"
    | .other _ => "SR"
  else
    match s with
    | QUDA_SPECTRUM_SR_EIG => "SR"
    | QUDA_SPECTRUM_LR_EIG => "LR"
    | QUDA_SPECTRUM_SM_EIG => "SM"
    | QUDA_SPECTRUM_LM_EIG => "LM"
    | QUDA_SPECTRUM_SI_EIG => "SI"
    | QUDA_SPECTRUM_LI_EIG => "LI"
    | .other _ => "SR"

/-- The test `strncmp(c, spectrum, 1) == 0` for a one-letter string `c`. -/
def strncmp1 (c : Char) (spectrum : String) : Bool :=
  spectrum.toList.head? == some c

/-- The sorting direction deduced at lines 104-113. -/
def deduceReverse (use_poly_acc : Bool) (spectrum : String) : Bool :=
  if strncmp1 'L' spectrum && !use_poly_acc then true
  else if strncmp1 'S' spectrum && use_poly_acc then true
  else if strncmp1 'L' spectrum && use_poly_acc then true
  else false

/-- The loop `for (i = 0; i < nKr; i++) residua[nKr] = 0.0;` of line 68: every
iteration writes the one cell of index `nKr`. -/
def initResidua {R : Type} [Zero R] (nKr : Int) (fresh : Int → R) : Int → R :=
  if 0 < nKr then Function.update fresh nKr 0 else fresh

/-- The constructor `EigenSolver::EigenSolver`.  `fresh` is the content of the
memory handed out by `new double[nKr]`, which the language leaves
unspecified. -/
def EigenSolver.EigenSolver {R : Type} [Zero R] (eig_param : QudaEigParam R)
    (fresh : Int → R) : Except String (EigenSolver R) :=
  let nEv := eig_param.nEv
  let nKr := eig_param.nKr
  let nConv := eig_param.nConv
  if nKr ≤ nEv then .error "nKr is less than or equal to nEv"
  else if nEv < nConv then .error "nConv is greater than nEv"
  else if nEv = 0 then .error "nEv=0 passed to Eigensolver"
  else if nKr = 0 then .error "nKr=0 passed to Eigensolver"
  else if nConv = 0 then .error "nConv=0 passed to Eigensolver"
  else
    let spectrum := spectrumCode eig_param.use_poly_acc eig_param.spectrum
    .ok {
      eig_param := eig_param
      nEv := nEv
      nKr := nKr
      nConv := nConv
      tol := eig_param.tol
      reverse := deduceReverse eig_param.use_poly_acc spectrum
      converged := false
      restart_iter := 0
      max_restarts := eig_param.max_restarts
      check_interval := eig_param.check_interval
      iter := 0
      iter_converged := 0
      iter_locked := 0
      iter_keep := 0
      num_converged := 0
      num_locked := 0
      num_keep := 0
      residua := initResidua nKr fresh
      spectrum := spectrum }

/-- Data members of the class `TRLM`: those of the base class and the arrays
of the arrow matrix, with the matrix of Ritz vectors. -/
structure TRLM (R : Type) extends EigenSolver R where
  alpha : Int → R
  beta : Int → R
  ritz_mat : Int → R

/-- The constructor `TRLM::TRLM`: the base constructor, then the arrays set to
zero on `[0, nKr)`, then the two checks specific to thick restart.
`freshAlpha` and `freshBeta` are the unspecified contents of the memory handed
out by `new double[nKr]`. -/
def TRLM.TRLM {R : Type} [Zero R] (eig_param : QudaEigParam R)
    (fresh freshAlpha freshBeta : Int → R) : Except String (TRLM R) :=
  match EigenSolver.EigenSolver eig_param fresh with
  | .error e => .error e
  | .ok base =>
    let alpha : Int → R := fun i => if 0 ≤ i ∧ i < base.nKr then 0 else freshAlpha i
    let beta : Int → R := fun i => if 0 ≤ i ∧ i < base.nKr then 0 else freshBeta i
    if base.nKr < base.nEv + 6 then .error "nKr must be greater than nEv+6"
    else if eig_param.eig_type = QUDA_EIG_LANCZOS
        ∧ ¬ (eig_param.spectrum = QUDA_SPECTRUM_LR_EIG ∨ eig_param.spectrum = QUDA_SPECTRUM_SR_EIG) then
      .error "Only real spectrum type (LR or SR) can be passed to the Lanczos solver"
    else .ok { toEigenSolver := base, alpha := alpha, beta := beta, ritz_mat := fun _ => 0 }

/-- Data members of the class `JD`: those of the base class. -/
structure JD (R : Type) extends EigenSolver R

/-- The constructor `JD::JD`: the base constructor and nothing else. -/
def JD.JD {R : Type} [Zero R] (eig_param : QudaEigParam R) (fresh : Int → R) :
    Except String (JD R) :=
  match EigenSolver.EigenSolver eig_param fresh with
  | .error e => .error e
  | .ok base => .ok { toEigenSolver := base }

/-- What the pointer returned by `EigenSolver::create` points to. -/
inductive EigenSolverObject (R : Type) where
  | TRLM (solver : TRLM R)
  | JD (solver : JD R)

/-- The factory `EigenSolver::create(eig_param, mat, profile)`; the three maps
are the unspecified contents of the arrays the constructors allocate. -/
def EigenSolver.create {R : Type} [Zero R] (eig_param : QudaEigParam R)
    (fresh freshAlpha freshBeta : Int → R) : Except String (EigenSolverObject R) :=
  match eig_param.eig_type with
  | QUDA_EIG_ARNOLDI => .error "Arnoldi not implemented"
  | QUDA_EIG_LANCZOS =>
    match TRLM.TRLM eig_param fresh freshAlpha freshBeta with
    | .error e => .error e
    | .ok solver => .ok (.TRLM solver)
  | QUDA_EIG_JD =>
    match JD.JD eig_param fresh with
    | .error e => .error e
    | .ok solver => .ok (.JD solver)
  | .other _ => .error "Invalid eig solver type"

/-! ## The vector backend

The operator, the vectors and the reductions over them are external to the
eigensolver.  Vectors are the elements of a module `V` over the complex
scalars `K`; the reductions are the fields of `Blas`. -/

/-- Modelled from the spec: the reductions of the vector capability of section
6 (inner product in its complex and real forms, squared norm), which
`blas_quda.h` declares and this repository does not define, together with the
conversions between `double` and `Complex` and the square root of `math.h`. -/
structure Blas (R K V : Type) [Semiring R] [Semiring K] where
  /-- The conversion `Complex(x, 0.0)`. -/
  ofReal : R →+* K
  /-- The constructor `Complex(x, y)`. -/
  complex : R → R → K
  /-- The member `real()` of `Complex`. -/
  real : K → R
  /-- The member `imag()` of `Complex`. -/
  imag : K → R
  /-- The reduction `blas::cDotProduct(x, y)`. -/
  cDotProduct : V → V → K
  /-- The reduction `blas::reDotProduct(x, y)`. -/
  reDotProduct : V → V → R
  /-- The reduction `blas::norm2(x)`. -/
  norm2 : V → R
  /-- The function `sqrt`. -/
  sqrt : R → R

section blas

variable {R K V : Type} [LinearOrderedField R] [Field K] [AddCommGroup V] [Module K V]

/-- Modelled from the spec: `blas::zero(x)` of the scaled-add family, `x = 0`. -/
def blas.zero (_x : V) : V := 0

/-- Modelled from the spec: `blas::copy(dst, src)`, `dst = src`. -/
def blas.copy (_dst src : V) : V := src

/-- Modelled from the spec: `blas::ax(a, x)` of the scaled-add family,
`x = a x` with a real coefficient. -/
def blas.ax (B : Blas R K V) (a : R) (x : V) : V := B.ofReal a • x

/-- Modelled from the spec: `blas::axpy(a, x, y)` of the scaled-add family,
`y = a x + y` with a real coefficient. -/
def blas.axpy (B : Blas R K V) (a : R) (x y : V) : V := B.ofReal a • x + y

/-- Modelled from the spec: `blas::caxpy(a, x, y)` of the scaled-add family,
`y = a x + y`. -/
def blas.caxpy (a : K) (x y : V) : V := a • x + y

/-- Modelled from the spec: `blas::caxpby(a, x, b, y)` of the scaled-add
family, `y = a x + b y`. -/
def blas.caxpby (a : K) (x : V) (b : K) (y : V) : V := a • x + b • y

/-- Modelled from the spec: `blas::cxpaypbz(x, a, y, b, z)` of the scaled-add
family, `z = x + a y + b z`. -/
def blas.cxpaypbz (x : V) (a : K) (y : V) (b : K) (z : V) : V := x + a • y + b • z

/-- Modelled from the spec: the batched reduction `blas::cDotProduct(s, a, b)`
against one vector `b`, which leaves in `s[i]` the inner product of `a[i]`
with `b`. -/
def blas.blockCDotProduct (B : Blas R K V) (a : List V) (b : V) : List K :=
  a.map fun x => B.cDotProduct x b

/-- Modelled from the spec: the batched update `blas::caxpy(s, x, y)` on one
vector `y`, which adds to `y` every `s[i] x[i]`. -/
def blas.blockCaxpy (s : List K) (x : List V) (y : V) : V :=
  y + (List.zipWith (fun si xi => si • xi) s x).sum

/-! ## Utilities common to all eigensolvers -/

/-- What `chebyOp` leaves behind: the vector `out`, and the number of times the
operator was applied (the number of times `time_mv` was advanced). -/
structure ChebyOut (V : Type) where
  out : V
  matvecs : Nat

/-- The variables live across one iteration of the recursion of `chebyOp`. -/
structure ChebyState (R V : Type) where
  sigma_old : R
  tmp1 : V
  tmp2 : V
  out : V
  matvecs : Nat

/-- The body of the loop `for (i = 2; i < poly_deg; i++)` of `chebyOp`
(lines 218-244). -/
def chebyStep (B : Blas R K V) (mat : V → V) (delta theta sigma1 : R)
    (s : ChebyState R V) : ChebyState R V :=
  let sigma := 1 / (2 / sigma1 - s.sigma_old)
  let d1 := 2 * sigma / delta
  let d2 := -d1 * theta
  let d3 := -sigma * s.sigma_old
  let out := mat s.tmp2
  let tmp1 := blas.ax B d3 s.tmp1
  let d1c := B.ofReal d1
  let d2c := B.ofReal d2
  let out := blas.cxpaypbz tmp1 d2c s.tmp2 d1c out
  let tmp1 := blas.copy tmp1 s.tmp2
  let tmp2 := blas.copy s.tmp2 out
  { sigma_old := sigma, tmp1 := tmp1, tmp2 := tmp2, out := out, matvecs := s.matvecs + 1 }

/-- The loop `for (i = 2; i < poly_deg; i++)` run for `n` iterations. -/
def chebyLoop (B : Blas R K V) (mat : V → V) (delta theta sigma1 : R) :
    Nat → ChebyState R V → ChebyState R V
  | 0, s => s
  | n + 1, s => chebyLoop B mat delta theta sigma1 n (chebyStep B mat delta theta sigma1 s)

/-- The function `EigenSolver::chebyOp(mat, out, in)`; the result is the new
content of `out`. -/
def chebyOp (B : Blas R K V) (eig_param : QudaEigParam R) (mat : V → V) (inp : V) :
    Except String (ChebyOut V) :=
  if !eig_param.use_poly_acc then
    .ok { out := mat inp, matvecs := 1 }
  else if eig_param.poly_deg = 0 then
    .error "Polynomial acceleration requested with zero polynomial degree"
  else
    let a := eig_param.a_min
    let b := eig_param.a_max
    let delta := (b - a) / 2
    let theta := (b + a) / 2
    let sigma1 := -delta / theta
    let d1 := sigma1 / delta
    let d2 : R := 1
    let out := mat inp
    let out := blas.caxpby (B.ofReal d2) inp (B.ofReal d1) out
    if eig_param.poly_deg = 1 then .ok { out := out, matvecs := 1 }
    else
      let tmp1 := blas.copy inp inp
      let tmp2 := blas.copy inp out
      let s := chebyLoop B mat delta theta sigma1 (eig_param.poly_deg - 2).toNat
        { sigma_old := sigma1, tmp1 := tmp1, tmp2 := tmp2, out := out, matvecs := 1 }
      .ok { out := s.out, matvecs := s.matvecs }

/-- The loop `for (i = 0; i < n; i++) ptr.push_back(v[i])`: the first `n`
entries of a `std::vector`, or nothing when the loop indexes past its end. -/
def firstN {α : Type} : Nat → List α → Option (List α)
  | 0, _ => some []
  | _ + 1, [] => none
  | n + 1, x :: xs => (firstN n xs).map fun l => x :: l

/-- The loop `for (i = lo; i < hi; i++) body`, the body acting on the
variables `s` it may change. -/
def forLoop {σ : Type} (lo hi : Int) (body : Int → σ → σ) (s : σ) : σ :=
  (List.range (hi - lo).toNat).foldl (fun s (k : Nat) => body (lo + (k : Int)) s) s

/-- The loop `for (i = lo; i < hi; i++) body` whose body may call
`errorQuda`. -/
def forLoopM {σ : Type} (lo hi : Int) (body : Int → σ → Except String σ) (s : σ) :
    Except String σ :=
  (List.range (hi - lo).toNat).foldlM (fun s (k : Nat) => body (lo + (k : Int)) s) s

/-- The function `EigenSolver::orthogonalize(vecs, rvec, j)`: the new content
of `rvec[0]` and the returned sum. -/
def orthogonalize (B : Blas R K V) (vecs : Int → V) (rvec : V) (j : Int) : V × K :=
  let sum : K := 0
  forLoop 0 j (fun i (st : V × K) =>
    let s := B.cDotProduct (vecs i) st.1
    let sum := st.2 + s
    (blas.caxpy (-s) (vecs i) st.1, sum)) (rvec, sum)

/-- The function `EigenSolver::blockOrthogonalize(vecs, rvec, j)`: the new
content of `rvec[0]` and the returned sum. -/
def blockOrthogonalize (B : Blas R K V) (vecs : Int → V) (rvec : V) (j : Int) : V × K :=
  let sum : K := 0
  let vecs_ptr := forLoop 0 (j + 1) (fun i (l : List V) => l ++ [vecs i]) []
  let s := blas.blockCDotProduct B vecs_ptr rvec
  let sum := s.foldl (fun acc si => acc + si) sum
  let s := s.map fun si => si * (-1)
  (blas.blockCaxpy s vecs_ptr rvec, sum)

/-- The function `EigenSolver::deflate(vec_defl, vec, eig_vecs, evals)` of a
solver of configuration `eig_param`; the result is the new content of
`vec_defl[0]`, and nothing when the function indexes past the end of
`eig_vecs` or of `evals`. -/
def deflate (B : Blas R K V) (eig_param : QudaEigParam R) (vec_defl vec : V) (eig_vecs : List V)
    (evals : List K) : Option V :=
  let n_defl := eig_param.nEv
  match firstN n_defl.toNat eig_vecs, firstN n_defl.toNat evals with
  | some eig_vecs_ptr, some ev =>
    let s := blas.blockCDotProduct B eig_vecs_ptr vec
    let s := List.zipWith (fun si e => si / B.ofReal (B.real e)) s ev
    let vec_defl := blas.zero vec_defl
    some (blas.blockCaxpy s eig_vecs_ptr vec_defl)
  | _, _ => none

/-! ## Thick-restart Lanczos -/

/-- Modelled from the spec: the result of the dense eigensolver capability
(section 6 of the spec; `Eigen::SelfAdjointEigenSolver`, whose source is not
part of this repository); `eigenvectors i j` is `eigenvectors().col(i)[j]`. -/
structure DenseEigen (R : Type) where
  eigenvalues : Int → R
  eigenvectors : Int → Int → R

/-- Values of the enumeration `QudaPrecision`. -/
inductive QudaPrecision where
  | QUDA_DOUBLE_PRECISION
  | QUDA_SINGLE_PRECISION
  | QUDA_HALF_PRECISION
  | QUDA_QUARTER_PRECISION
  | other
  deriving DecidableEq

/-- Modelled from the spec: the external collaborators of one solve (sections
1 and 6): the reductions, the operator and its factor, the dense eigensolver,
the random source, the field a fresh `ColorSpinorField::Create` of the cloned
parameters holds, the precision of the basis, the two machine epsilons of
`float.h`, and the persistence of vector sets. -/
structure Env (R K V : Type) [Semiring R] [Semiring K] where
  B : Blas R K V
  mat : V → V
  M : V → V
  eigensolver : Int → (Int → Int → R) → DenseEigen R
  noise : V
  created : V
  prec : QudaPrecision
  DBL_EPSILON : R
  FLT_EPSILON : R
  read_spinor_field : String → (Int → V) → Except String (Int → V)
  write_spinor_field : String → (Int → V) → Except String Unit

/-- The state of one call of `TRLM::operator()`: the members of the solver,
the caller's basis `kSpace` (its cells and its `size()`), the residual vector
`r[0]`, the caller's array `evals`, and the local variable `mat_norm`. -/
structure TRLMState (R K V : Type) extends TRLM R where
  kSpace : Int → V
  kSize : Int
  r : V
  evals : Int → K
  mat_norm : R

/-- The assignment `A(i, j) = x` on a dense matrix. -/
def setEntry (A : Int → Int → R) (i j : Int) (x : R) : Int → Int → R :=
  fun a b => if a = i ∧ b = j then x else A a b

/-- The function `TRLM::lanczosStep(v, j)`. -/
def lanczosStep (E : Env R K V) (s : TRLMState R K V) (j : Int) :
    Except String (TRLMState R K V) :=
  match chebyOp E.B s.eig_param E.mat (s.kSpace j) with
  | .error e => .error e
  | .ok c =>
    let r := c.out
    let alpha := Function.update s.alpha j (E.B.reDotProduct (s.kSpace j) r)
    let r := blas.axpy E.B (-(alpha j)) (s.kSpace j) r
    let start := if j > s.num_keep then j - 1 else 0
    let r := forLoop start j (fun i r => blas.axpy E.B (-(s.beta i)) (s.kSpace i) r) r
    let r := if j > 0 then
        forLoop 0 1 (fun _ r => (blockOrthogonalize E.B s.kSpace r j).1) r
      else r
    let beta := Function.update s.beta j (E.B.sqrt (E.B.norm2 r))
    let kSpace := Function.update s.kSpace (j + 1) (blas.zero (s.kSpace (j + 1)))
    let kSpace := Function.update kSpace (j + 1) (blas.axpy E.B (1 / beta j) r (kSpace (j + 1)))
    .ok { s with alpha := alpha, beta := beta, kSpace := kSpace, r := r }

/-- The loops `for (step = lo; step < hi; step++) lanczosStep(kSpace, step)`. -/
def lanczosSteps (E : Env R K V) (lo hi : Int) (s : TRLMState R K V) :
    Except String (TRLMState R K V) :=
  forLoopM lo hi (fun step s => lanczosStep E s step) s

/-- The variables of the loops of `TRLM::reorder`. -/
structure ReorderVars (R V : Type) where
  alpha : Int → R
  kSpace : Int → V
  r : V
  i : Int

/-- The comparison of the two loops of `TRLM::reorder`: `x >= y` in the loop
taken when `reverse` is set, `x <= y` in the other. -/
def inOrder (reverse : Bool) (x y : R) : Prop :=
  if reverse then x ≥ y else x ≤ y

instance (reverse : Bool) (x y : R) : Decidable (inOrder reverse x y) := by
  unfold inOrder; infer_instance

/-- The cells `a[0..m)` are monotonic in the configured direction. -/
def sortedUpTo (reverse : Bool) (a : Int → R) (m : Int) : Prop :=
  ∀ p q, 0 ≤ p → p ≤ q → q < m → inOrder reverse (a p) (a q)

/-- The body of the loops `while (i < nKr)` of `TRLM::reorder`
(lines 786-795 and 799-808). -/
def reorderStep (reverse : Bool) (s : ReorderVars R V) : ReorderVars R V :=
  let i := s.i
  if i = 0 ∨ inOrder reverse (s.alpha (i - 1)) (s.alpha i) then
    { s with i := i + 1 }
  else
    let tmp := s.alpha i
    let alpha := Function.update s.alpha i (s.alpha (i - 1))
    let i := i - 1
    let alpha := Function.update alpha i tmp
    let r := s.kSpace i
    let kSpace := Function.update s.kSpace i (s.kSpace (i - 1))
    let kSpace := Function.update kSpace (i - 1) r
    { alpha := alpha, kSpace := kSpace, r := r, i := i }

/-- The loop `while (i < nKr)` of `TRLM::reorder`, run for at most `fuel`
iterations. -/
def reorderLoop (nKr : Int) (reverse : Bool) : Nat → ReorderVars R V → ReorderVars R V
  | 0, s => s
  | fuel + 1, s => if s.i < nKr then reorderLoop nKr reverse fuel (reorderStep reverse s) else s

/-- The function `TRLM::reorder(kSpace)` on the variables it touches, entered
with `i = 0`; `nKr * nKr` iterations are enough for the loop to leave through
its guard (theorem `reorder_exit`). -/
def reorderVars (nKr : Int) (reverse : Bool) (alpha : Int → R) (kSpace : Int → V) (r : V) :
    ReorderVars R V :=
  reorderLoop nKr reverse (nKr * nKr).toNat { alpha := alpha, kSpace := kSpace, r := r, i := 0 }

/-- The function `TRLM::reorder(kSpace)`. -/
def reorder (s : TRLMState R K V) : TRLMState R K V :=
  let o := reorderVars s.nKr s.reverse s.alpha s.kSpace s.r
  { s with alpha := o.alpha, kSpace := o.kSpace, r := o.r }

/-- The function `TRLM::eigensolveFromArrowMat(num_locked, arrow_pos)`. -/
def eigensolveFromArrowMat (E : Env R K V) (s : TRLMState R K V) (num_locked arrow_pos : Int) :
    TRLMState R K V :=
  let nKr := s.nKr
  let dim := nKr - num_locked
  let A : Int → Int → R := fun _ _ => 0
  let ritz_mat : Int → R := fun i => if 0 ≤ i ∧ i < dim * dim then 0 else s.ritz_mat i
  let ab : (Int → R) × (Int → R) :=
    if s.reverse then
      let ab := forLoop num_locked (nKr - 1)
        (fun i (ab : (Int → R) × (Int → R)) =>
          (Function.update ab.1 i (ab.1 i * (-1)), Function.update ab.2 i (ab.2 i * (-1))))
        (s.alpha, s.beta)
      (Function.update ab.1 (nKr - 1) (ab.1 (nKr - 1) * (-1)), ab.2)
    else (s.alpha, s.beta)
  let alpha := ab.1
  let beta := ab.2
  let A := forLoop 0 dim (fun i A => setEntry A i i (alpha (i + num_locked))) A
  let A := forLoop 0 (arrow_pos - 1)
    (fun i A =>
      let A := setEntry A i (arrow_pos - 1) (beta (i + num_locked))
      setEntry A (arrow_pos - 1) i (beta (i + num_locked))) A
  let A := forLoop (arrow_pos - 1) (dim - 1)
    (fun i A =>
      let A := setEntry A i (i + 1) (beta (i + num_locked))
      setEntry A (i + 1) i (beta (i + num_locked))) A
  let es := E.eigensolver dim A
  let ritz_mat := forLoop 0 dim
    (fun i rm => forLoop 0 dim (fun j rm => Function.update rm (dim * i + j) (es.eigenvectors i j)) rm)
    ritz_mat
  let ra := forLoop 0 dim
    (fun i (ra : (Int → R) × (Int → R)) =>
      (Function.update ra.1 (i + num_locked) |beta (nKr - 1) * es.eigenvectors i (dim - 1)|,
        Function.update ra.2 (i + num_locked) (es.eigenvalues i)))
    (s.residua, alpha)
  let residua := ra.1
  let alpha := ra.2
  let alpha := if s.reverse then
      forLoop num_locked nKr (fun i a => Function.update a i (a i * (-1))) alpha
    else alpha
  { s with alpha := alpha, beta := beta, residua := residua, ritz_mat := ritz_mat }

/-- The function `TRLM::computeKeptRitz(kSpace)`. -/
def computeKeptRitz (E : Env R K V) (s : TRLMState R K V) : TRLMState R K V :=
  let nKr := s.nKr
  let num_locked := s.num_locked
  let iter_keep := s.iter_keep
  let offset := nKr + 1
  let dim := nKr - num_locked
  let ks : (Int → V) × Int :=
    if s.kSize < offset + iter_keep then
      forLoop s.kSize (offset + iter_keep)
        (fun _ (ks : (Int → V) × Int) => (Function.update ks.1 ks.2 0, ks.2 + 1)) (s.kSpace, s.kSize)
    else (s.kSpace, s.kSize)
  let kr := forLoop 0 iter_keep
    (fun i (kr : (Int → V) × V) =>
      let k := offset + i
      let r := kr.1 num_locked
      let r := blas.ax E.B (s.ritz_mat (dim * i)) r
      let kSpace := Function.update kr.1 k r
      let kSpace := forLoop 1 dim
        (fun j kSpace =>
          Function.update kSpace k
            (blas.axpy E.B (s.ritz_mat (i * dim + j)) (kSpace (num_locked + j)) (kSpace k)))
        kSpace
      (kSpace, r))
    (ks.1, s.r)
  let kSpace := forLoop 0 iter_keep
    (fun i kSpace => Function.update kSpace (i + num_locked) (kSpace (offset + i))) kr.1
  let kSpace := Function.update kSpace (num_locked + iter_keep) (kSpace nKr)
  let beta := forLoop 0 iter_keep
    (fun i beta =>
      Function.update beta (i + num_locked) (beta (nKr - 1) * s.ritz_mat (dim * (i + 1) - 1)))
    s.beta
  { s with kSpace := kSpace, kSize := ks.2, r := kr.2, beta := beta }

/-- The function `EigenSolver::computeEvals(mat, evecs, evals, size)`. -/
def computeEvals (E : Env R K V) (s : TRLMState R K V) (size : Int) : TRLMState R K V :=
  forLoop 0 size
    (fun i (s : TRLMState R K V) =>
      let r := E.mat (s.kSpace i)
      let evals := Function.update s.evals i
        (E.B.cDotProduct (s.kSpace i) r / E.B.ofReal (E.B.sqrt (E.B.norm2 (s.kSpace i))))
      let n_unit : K := E.B.ofReal (-1)
      let r := blas.caxpby (evals i) (s.kSpace i) n_unit r
      let residua := Function.update s.residua i (E.B.sqrt (E.B.norm2 r))
      { s with r := r, evals := evals, residua := residua })
    s

/-- The function `TRLM::computeSVD(evecs, evals)`. -/
def computeSVD (E : Env R K V) (s : TRLMState R K V) : TRLMState R K V :=
  let nConv := s.eig_param.nConv
  let half := Int.tdiv nConv 2
  let st := forLoop 0 half
    (fun i (st : (Int → V) × (Int → K)) =>
      let evecs := Function.update st.1 (half + i) (E.M (st.1 i))
      let sigma_sq := E.B.cDotProduct (evecs (half + i)) (evecs (half + i))
      let sigma_tmp := Function.update st.2 i
        (E.B.complex (E.B.sqrt (E.B.real sigma_sq)) (E.B.sqrt |E.B.imag sigma_sq|))
      let norm := E.B.sqrt (E.B.norm2 (evecs (half + i)))
      let evecs := Function.update evecs (half + i) (blas.ax E.B (1 / norm) (evecs (half + i)))
      (evecs, sigma_tmp))
    (s.kSpace, fun _ => 0)
  let sigma_tmp := st.2
  let evals := forLoop 0 half
    (fun i evals =>
      let evals := Function.update evals (2 * i + 0) (sigma_tmp i)
      Function.update evals (2 * i + 1) (sigma_tmp i))
    s.evals
  { s with kSpace := st.1, evals := evals }

/-- The two scans of lines 596-607 and 610-620,
`for (i = lo; i < hi; i++) if (residua[i + num_locked] < thr) last = i; else break;`
run for at most `n` iterations from `i`. -/
def thresholdScan (residua : Int → R) (num_locked : Int) (thr : R) : Nat → Int → Int → Int
  | 0, _, last => last
  | n + 1, i, last =>
    if residua (i + num_locked) < thr then thresholdScan residua num_locked thr n (i + 1) i
    else last

/-- Lines 591-652 of `TRLM::operator()`: what one restart cycle does after the
arrow matrix has been solved. -/
def lockAndConverge (E : Env R K V) (epsilon : R) (s : TRLMState R K V) : TRLMState R K V :=
  let nKr := s.nKr
  let mat_norm := forLoop s.num_locked nKr
    (fun i mat_norm => if |s.alpha i| > mat_norm then |s.alpha i| else mat_norm) s.mat_norm
  let iter_locked := thresholdScan s.residua s.num_locked (epsilon * mat_norm)
    (nKr - s.num_locked - 1).toNat 1 0
  let iter_converged := thresholdScan s.residua s.num_locked (s.tol * mat_norm)
    (nKr - s.num_locked - (iter_locked + 1)).toNat (iter_locked + 1) iter_locked
  let iter_keep := min (iter_converged + Int.tdiv (nKr - s.num_converged) 2) (nKr - s.num_locked - 12)
  let s := { s with
    mat_norm := mat_norm, iter_locked := iter_locked, iter_converged := iter_converged,
    iter_keep := iter_keep }
  let s := computeKeptRitz E s
  let s := { s with
    num_converged := s.num_locked + s.iter_converged
    num_keep := s.num_locked + s.iter_keep
    num_locked := s.num_locked + s.iter_locked }
  let s := if s.num_converged ≥ s.nConv then { reorder s with converged := true } else s
  { s with restart_iter := s.restart_iter + 1 }

/-- The body of the loop `while (restart_iter < max_restarts && !converged)` of
`TRLM::operator()` (lines 583-652). -/
def restartCycle (E : Env R K V) (epsilon : R) (s : TRLMState R K V) :
    Except String (TRLMState R K V) :=
  match lanczosSteps E s.num_keep s.nKr s with
  | .error e => .error e
  | .ok s =>
    let s := { s with iter := s.iter + (s.nKr - s.num_keep) }
    let arrow_pos := max (s.num_keep - s.num_locked + 1) 2
    let s := eigensolveFromArrowMat E s s.num_locked arrow_pos
    .ok (lockAndConverge E epsilon s)

/-- The loop `while (restart_iter < max_restarts && !converged)` of
`TRLM::operator()`, run for at most `fuel` cycles. -/
def restartLoop (E : Env R K V) (epsilon : R) :
    Nat → TRLMState R K V → Except String (TRLMState R K V)
  | 0, s => .ok s
  | fuel + 1, s =>
    if s.restart_iter < s.max_restarts ∧ s.converged = false then
      match restartCycle E epsilon s with
      | .error e => .error e
      | .ok s => restartLoop E epsilon fuel s
    else .ok s

/-- The body of the restart loop run `k` times in a row, whatever the guard
of the loop says: the state after `k` cycles. -/
def restartCycles (E : Env R K V) (epsilon : R) :
    Nat → TRLMState R K V → Except String (TRLMState R K V)
  | 0, s => .ok s
  | k + 1, s =>
    match restartCycle E epsilon s with
    | .error e => .error e
    | .ok s => restartCycles E epsilon k s

/-- The locking threshold chosen at lines 548-565 from the precision of the
basis. -/
def precisionEpsilon (E : Env R K V) : R :=
  let epsilon := E.DBL_EPSILON
  let epsilon := if E.prec = .QUDA_DOUBLE_PRECISION then E.DBL_EPSILON else epsilon
  let epsilon := if E.prec = .QUDA_SINGLE_PRECISION then E.FLT_EPSILON else epsilon
  let epsilon := if E.prec = .QUDA_HALF_PRECISION then 2 / 1000 else epsilon
  let epsilon := if E.prec = .QUDA_QUARTER_PRECISION then 5 / 100 else epsilon
  epsilon

/-- Lines 655-693 of `TRLM::operator()`: the basis is pruned back to `nKr`
vectors and, after convergence only, the eigenvalues are recomputed. -/
def postProcess (E : Env R K V) (s : TRLMState R K V) : TRLMState R K V :=
  let s := { s with kSize := s.nKr }
  if s.converged = false then s
  else
    let s := computeEvals E s s.nEv
    if s.eig_param.compute_svd then computeSVD E s else s

/-- The function `EigenSolver::loadFromFile(mat, kSpace, evals)`. -/
def loadFromFile (E : Env R K V) (s : TRLMState R K V) : Except String (TRLMState R K V) :=
  match E.read_spinor_field s.eig_param.vec_infile s.kSpace with
  | .error e => .error e
  | .ok kSpace =>
    let s := { s with kSpace := kSpace, r := 0 }
    .ok (computeEvals E s s.nEv)

/-- The function `TRLM::operator()(kSpace, evals)`. -/
def TRLM.operator (E : Env R K V) (s : TRLMState R K V) : Except String (TRLMState R K V) :=
  if s.eig_param.vec_infile ≠ "" then loadFromFile E s
  else
    let norm := E.B.sqrt (E.B.norm2 (s.kSpace 0))
    let kSpace := if norm = 0 then Function.update s.kSpace 0 E.noise else s.kSpace
    let norm := E.B.sqrt (E.B.norm2 (kSpace 0))
    let kSpace := Function.update kSpace 0 (blas.ax E.B (1 / norm) (kSpace 0))
    let kSpace := Function.update kSpace s.kSize E.created
    let s := { s with kSpace := kSpace, kSize := s.kSize + 1, r := 0, mat_norm := 0 }
    let epsilon := precisionEpsilon E
    match lanczosSteps E 0 s.nEv s with
    | .error e => .error e
    | .ok s =>
      let s := { s with iter := s.iter + s.nEv }
      match restartLoop E epsilon (s.max_restarts - s.restart_iter).toNat s with
      | .error e => .error e
      | .ok s =>
        let s := postProcess E s
        if s.eig_param.vec_outfile ≠ "" then
          match E.write_spinor_field s.eig_param.vec_outfile s.kSpace with
          | .error e => .error e
          | .ok _ => .ok s
        else .ok s

end blas

/-! ## Names for what `computeSVD` computes from one vector -/

section svd

variable {R K V : Type} [LinearOrderedField R] [Field K] [AddCommGroup V] [Module K V]

/-- The vector `computeSVD` leaves in the second half for the vector `v` of
the first half (lines 927, 934-935): the factor applied to `v`, scaled by the
inverse of its norm. -/
def svdLeft (E : Env R K V) (v : V) : V :=
  blas.ax E.B (1 / E.B.sqrt (E.B.norm2 (E.M v))) (E.M v)

/-- The value `computeSVD` stores in `sigma_tmp` for the vector `v` of the
first half (lines 930-931). -/
def svdSigma (E : Env R K V) (v : V) : K :=
  E.B.complex (E.B.sqrt (E.B.real (E.B.cDotProduct (E.M v) (E.M v))))
    (E.B.sqrt |E.B.imag (E.B.cDotProduct (E.M v) (E.M v))|)

end svd

/-! ## Parts of the Lanczos step and of the arrow-matrix solve -/

section parts

variable {R K V : Type} [LinearOrderedField R] [Field K] [AddCommGroup V] [Module K V]

/-- Lines 753-764 of `TRLM::lanczosStep`: the residual `r` after `alpha_j v_j`
and the terms `beta_i v_i` of the loop `for (i = start; i < j; i++)` have been
subtracted from the vector `out` that `chebyOp` left in it, before the
orthogonalisation of line 768. -/
def lanczosResidual (E : Env R K V) (s : TRLMState R K V) (j : Int) (out : V) : V :=
  let r := out
  let alpha := Function.update s.alpha j (E.B.reDotProduct (s.kSpace j) r)
  let r := blas.axpy E.B (-(alpha j)) (s.kSpace j) r
  let start := if j > s.num_keep then j - 1 else 0
  forLoop start j (fun i r => blas.axpy E.B (-(s.beta i)) (s.kSpace i) r) r

/-- Lines 824-832 of `TRLM::eigensolveFromArrowMat`: the arrays `alpha` and
`beta` after the inversion of the spectrum, which is done when `reverse` is
set. -/
def invertSpectrum (s : TRLMState R K V) (num_locked : Int) : (Int → R) × (Int → R) :=
  let nKr := s.nKr
  if s.reverse then
    let ab := forLoop num_locked (nKr - 1)
      (fun i (ab : (Int → R) × (Int → R)) =>
        (Function.update ab.1 i (ab.1 i * (-1)), Function.update ab.2 i (ab.2 i * (-1))))
      (s.alpha, s.beta)
    (Function.update ab.1 (nKr - 1) (ab.1 (nKr - 1) * (-1)), ab.2)
  else (s.alpha, s.beta)

/-- Lines 820 and 834-853 of `TRLM::eigensolveFromArrowMat`: the matrix
`A = MatrixXd::Zero(dim, dim)` after the three loops that populate it from the
arrays `alpha` and `beta`. -/
def arrowMat (alpha beta : Int → R) (dim num_locked arrow_pos : Int) : Int → Int → R :=
  let A : Int → Int → R := fun _ _ => 0
  let A := forLoop 0 dim (fun i A => setEntry A i i (alpha (i + num_locked))) A
  let A := forLoop 0 (arrow_pos - 1)
    (fun i A =>
      let A := setEntry A i (arrow_pos - 1) (beta (i + num_locked))
      setEntry A (arrow_pos - 1) i (beta (i + num_locked))) A
  forLoop (arrow_pos - 1) (dim - 1)
    (fun i A =>
      let A := setEntry A i (i + 1) (beta (i + num_locked))
      setEntry A (i + 1) i (beta (i + num_locked))) A

/-- Lines 855-857 of `TRLM::eigensolveFromArrowMat`: the decomposition the
dense solver returns for the matrix the function hands to it. -/
def denseSolve (E : Env R K V) (s : TRLMState R K V) (num_locked arrow_pos : Int) : DenseEigen R :=
  E.eigensolver (s.nKr - num_locked)
    (arrowMat (invertSpectrum s num_locked).1 (invertSpectrum s num_locked).2
      (s.nKr - num_locked) num_locked arrow_pos)

end parts

/-! ## The recurrence of the specification -/

section recurrence

variable {R K V : Type} [LinearOrderedField R] [Field K] [AddCommGroup V] [Module K V]

/-- Following the words of the specification, not the source: the coefficients
of the three-term recurrence, `specChebySigma sigma1 k` being `sigma_{k+1}`:
`sigma_1` is given and `sigma_{m+1} = 1 / (2 / sigma_1 - sigma_m)`. -/
def specChebySigma (sigma1 : R) : Nat → R
  | 0 => sigma1
  | k + 1 => 1 / (2 / sigma1 - specChebySigma sigma1 k)

/-- Following the words of the specification, not the source: the pair
`(p_m(A) in, p_{m+1}(A) in)` of the three-term recurrence `p_0 = 1`,
`p_1(x) = 1 + (sigma_1 / delta) x`,
`p_{m+1}(x) = (d1 x + d2) p_m(x) + d3 p_{m-1}(x)` with
`d1 = 2 sigma_{m+1} / delta`, `d2 = -d1 theta`, `d3 = -sigma_{m+1} sigma_m`,
where `delta = (a_max - a_min) / 2`, `theta = (a_max + a_min) / 2` and
`sigma_1 = -delta / theta`. -/
def specChebyPair (B : Blas R K V) (mat : V → V) (a_min a_max : R) (inp : V) : Nat → V × V
  | 0 =>
    let delta := (a_max - a_min) / 2
    let theta := (a_max + a_min) / 2
    let sigma1 := -delta / theta
    (inp, B.ofReal 1 • inp + B.ofReal (sigma1 / delta) • mat inp)
  | m + 1 =>
    let delta := (a_max - a_min) / 2
    let theta := (a_max + a_min) / 2
    let sigma1 := -delta / theta
    let prev := specChebyPair B mat a_min a_max inp m
    let d1 := 2 * specChebySigma sigma1 (m + 1) / delta
    let d2 := -d1 * theta
    let d3 := -specChebySigma sigma1 (m + 1) * specChebySigma sigma1 m
    (prev.2, (B.ofReal d1 • mat prev.2 + B.ofReal d2 • prev.2) + B.ofReal d3 • prev.1)

/-- Following the words of the specification, not the source: the vector
`p_d(A) in`, the member of degree `d` of the recurrence applied to `in`. -/
def specChebyPoly (B : Blas R K V) (mat : V → V) (a_min a_max : R) (inp : V) (d : Nat) : V :=
  (specChebyPair B mat a_min a_max inp d).1

end recurrence

/-! ## The solution update of the GCR solver (`lib/inv_gcr_quda.cpp`)

The coefficient arrays `alpha`, `beta`, `gamma`, `delta` and the array of
directions `p` are total maps from the index, as the arrays of the
eigensolver are. -/

section gcr

variable {R K V : Type} [LinearOrderedField R] [Field K] [AddCommGroup V] [Module K V]

/-- Modelled from the spec: `caxpyCuda(a, x, y)` of the scaled-add family,
`y = a x + y`. -/
def caxpyCuda (a : K) (x y : V) : V := a • x + y

/-- Modelled from the spec: `caxpbypzCuda(a, x, b, y, z)` of the scaled-add
family, `z = a x + b y + z`. -/
def caxpbypzCuda (a : K) (x : V) (b : K) (y z : V) : V := a • x + b • y + z

/-- Modelled from the spec: `caxpbypczpwCuda(a, x, b, y, c, z, w)` of the
scaled-add family, `w = a x + b y + c z + w`. -/
def caxpbypczpwCuda (a : K) (x : V) (b : K) (y : V) (c : K) (z w : V) : V :=
  a • x + b • y + c • z + w

/-- The loop `for (k = hi; k >= lo; k--) body`, the body acting on the
variables `s` it may change. -/
def forLoopDown {σ : Type} (hi lo : Int) (body : Int → σ → σ) (s : σ) : σ :=
  (List.range (hi - lo + 1).toNat).foldl (fun s (x : Nat) => body (hi - (x : Int)) s) s

/-- The loop `for (i = lo; i < hi; i += 3) body`: the body runs at `lo`,
`lo + 3`, .., as long as the index is below `hi`, which is
`ceil((hi - lo) / 3)` times. -/
def forLoopBy3 {σ : Type} (lo hi : Int) (body : Int → σ → σ) (s : σ) : σ :=
  (List.range ((hi - lo + 2) / 3).toNat).foldl (fun s (x : Nat) => body (lo + 3 * (x : Int)) s) s

/-- The function `backSubs(alpha, beta, gamma, delta, n)` (lines 103-111):
what it leaves in `delta`, entered with the content `delta`; `alpha`, `beta`
and `gamma` are `const` and only read. -/
def backSubs (B : Blas R K V) (alpha : Int → K) (beta : Int → Int → K) (gamma : Int → R)
    (delta : Int → K) (n : Int) : Int → K :=
  forLoopDown (n - 1) 0
    (fun k delta =>
      let delta := Function.update delta k (alpha k)
      let delta := forLoop (k + 1) n
        (fun j delta => Function.update delta k (delta k - beta k j * delta j)) delta
      Function.update delta k (delta k / B.ofReal (gamma k)))
    delta

/-- The function `updateSolution(x, alpha, beta, gamma, k, p)` (lines
113-132): what it leaves in `x`; `fresh` is the content of the array
`new Complex[k]` before `backSubs` fills it.  The operators `%` and `/` of C++
truncate towards zero. -/
def updateSolution (B : Blas R K V) (x : V) (alpha : Int → K) (beta : Int → Int → K)
    (gamma : Int → R) (k : Int) (p : Int → V) (fresh : Int → K) : V :=
  let delta := backSubs B alpha beta gamma fresh k
  let x := forLoopBy3 0 (k - 2)
    (fun i x =>
      caxpbypczpwCuda (delta i) (p i) (delta (i + 1)) (p (i + 1)) (delta (i + 2)) (p (i + 2)) x)
    x
  if k.tmod 3 ≠ 0 then
    if (k - 3 * (k.tdiv 3)).tmod 2 = 0 then
      caxpbypzCuda (delta (k - 2)) (p (k - 2)) (delta (k - 1)) (p (k - 1)) x
    else caxpyCuda (delta (k - 1)) (p (k - 1)) x
  else x

/-- The loop of the comment of line 121, which `updateSolution` replaces by
fused updates: `for (i = 0; i < k; i++) caxpyCuda(delta[i], *p[i], x)`. -/
def updateSolutionNaive (delta : Int → K) (p : Int → V) (k : Int) (x : V) : V :=
  forLoop 0 k (fun i x => caxpyCuda (delta i) (p i) x) x

end gcr

/-! ## Jacobi-Davidson

The search space `V`, the test space `W` and the caller's `eigSpace` are total
maps from the index with their `size()` beside them, and the projected matrix
`H` a total map from the pair of indices with its dimension beside it, as the
arrays of the thick-restart solver are.  The loop `while (norm < tol)` is run
with fuel: no result stands for a loop that has not left through its guard
when the fuel is spent. -/

section jd

variable {R K F : Type} [LinearOrderedField R] [Field K] [AddCommGroup F] [Module K F]

/-- Modelled from the spec: the result of the dense eigensolver capability
(section 6 of the spec) on a Hermitian matrix,
`Eigen::SelfAdjointEigenSolver<MatrixXcd>`, whose source is not part of this
repository: real eigenvalues and complex eigenvectors; `eigenvectors i j` is
`eigenvectors().col(i)[j]`. -/
structure DenseEigenC (R K : Type) where
  eigenvalues : Int → R
  eigenvectors : Int → Int → K

/-- Modelled from the spec: the external collaborators of a Jacobi-Davidson
solve (sections 4.5 and 6): those of the thick-restart solver, the complex
conjugate `conj`, the dense eigensolver on the projected matrix (given its
dimension and its entries), and the linear-solve capability `cg(t, r)` of the
correction equation, which returns the new content of `t` from the projection
space (its cells and its size), the shift, the initial guess `t` and the
right-hand side `r`. -/
structure JDEnv (R K F : Type) [Semiring R] [Semiring K] extends Env R K F where
  conj : K → K
  eigensolverC : Int → (Int → Int → K) → DenseEigenC R K
  cg : (Int → F) → Int → R → F → F → F

/-- The state of one call of `JD::operator()`: the members of the solver, the
caller's `eigSpace` and `evals`, and the local variables `k`, `m`, `theta`,
`norm`, `t[0]`, `w[0]`, `u[0]`, `r[0]`, `V`, `W` and `H`. -/
structure JDState (R K F : Type) extends JD R where
  k : Int
  m : Int
  theta : R
  norm : R
  t : F
  w : F
  u : F
  r : F
  V : Int → F
  Vsize : Int
  W : Int → F
  Wsize : Int
  H : Int → Int → K
  Hdim : Int
  eigSpace : Int → F
  eigSize : Int
  evals : Int → K

/-- The vector `eigenpairs` of lines 1096-1109: the pairs of the eigenvalue
`i` and the column `i` of the eigenvectors, `i < m`, pushed in this order,
then sorted by `std::sort` and reversed.  `std::sort` compares the
eigenvalues and, between equal eigenvalues, the addresses of the buffers; the
sort by insertion on the eigenvalue stands for it. -/
def jdEigenpairs (eig : DenseEigenC R K) (m : Int) : List (R × (Int → K)) :=
  let eigenpairs := (List.range m.toNat).map
    fun (i : Nat) => (eig.eigenvalues i, fun j => eig.eigenvectors i j)
  (eigenpairs.insertionSort (fun a b => a.1 ≤ b.1)).reverse

/-- The element `eigenpairs[i]`. -/
def pairAt (eigenpairs : List (R × (Int → K))) (i : Int) : R × (Int → K) :=
  eigenpairs.getD i.toNat (0, fun _ => 0)

/-- Lines 1062-1136 of the main loop of `JD::operator()`: the expansion of
`V` and `W` by the orthogonalised `t` and `w`, the update of `H`, the
eigenpairs of `H` in descending order of the eigenvalue, and the residual `r`
of the first of them with its norm. -/
def jdExtract (E : JDEnv R K F) (tau : R) (s : JDState R K F) :
    JDState R K F × List (R × (Int → K)) :=
  let w := E.mat s.t
  let w := if tau ≠ 0 then blas.caxpy (E.B.ofReal (-tau)) s.t w else w
  let wt := forLoop 0 s.m
    (fun i (wt : F × F) =>
      let gamma := E.B.cDotProduct (s.W i) wt.1
      (blas.caxpy (-gamma) (s.W i) wt.1, blas.caxpy (-gamma) (s.V i) wt.2))
    (w, s.t)
  let w := wt.1
  let t := wt.2
  let m := s.m + 1
  let norm := E.B.sqrt (E.B.norm2 w)
  let w := blas.ax E.B (1 / norm) w
  let W := Function.update s.W s.Wsize w
  let Wsize := s.Wsize + 1
  let V := Function.update s.V s.Vsize t
  let Vsize := s.Vsize + 1
  let V := Function.update V (m - 1) (blas.ax E.B (1 / norm) (V (m - 1)))
  let Hdim := m
  let H := forLoop 0 (m - 1)
    (fun i (H : Int → Int → K) =>
      let H := setEntry H i (m - 1) (E.B.cDotProduct (W i) (V (m - 1)))
      setEntry H (m - 1) i (E.conj (H i (m - 1))))
    s.H
  let H := setEntry H (m - 1) (m - 1) (E.B.cDotProduct (W (m - 1)) (V (m - 1)))
  let eig := E.eigensolverC Hdim H
  let eigenpairs := jdEigenpairs eig m
  let u := blas.zero s.u
  let u := forLoop 0 m (fun i u => blas.caxpy ((pairAt eigenpairs 0).2 i) (V i) u) u
  let norm := E.B.sqrt (E.B.norm2 u)
  let u := blas.ax E.B (1 / norm) u
  let theta := (pairAt eigenpairs 0).1 / (norm * norm)
  let r := blas.zero s.r
  let r := forLoop 0 m (fun i r => blas.caxpy ((pairAt eigenpairs 0).2 i) (W i) r) r
  let r := blas.ax E.B (1 / norm) r
  let r := blas.caxpy (E.B.ofReal (-theta)) u r
  let norm := E.B.sqrt (E.B.norm2 r)
  ({ s with
      m := m, norm := norm, theta := theta, t := t, w := w, u := u, r := r,
      V := V, Vsize := Vsize, W := W, Wsize := Wsize, H := H, Hdim := Hdim },
    eigenpairs)

/-- The loop `while (norm < tol) { .. norm = 1.0; }` of lines 1139-1209, run
for at most `fuel` tests of its guard: the value of `norm` with which it leaves
through the guard, or nothing. -/
def residualLoop (tol : R) : Nat → R → Option R
  | 0, _ => none
  | fuel + 1, norm => if norm < tol then residualLoop tol fuel 1 else some norm

/-- The local variables of the restart block: `tmpV`, `tmpW` and `tmpH`. -/
structure JDTmp (K F : Type) where
  tmpV : Int → F
  tmpVsize : Int
  tmpW : Int → F
  tmpWsize : Int
  tmpH : Int → Int → K

/-- The restart block of lines 1212-1245, entered when `m >= m_max`: `V` and
`W` are replaced by `m_min` combinations of their vectors and `H` by a
diagonal matrix.  A vector created with `QUDA_ZERO_FIELD_CREATE` is the zero
vector; the cells outside a vector of vectors just declared read as zero. -/
def jdRestart (E : JDEnv R K F) (m_min : Int) (eigenpairs : List (R × (Int → K)))
    (s : JDState R K F) : JDState R K F :=
  let tmp : JDTmp K F :=
    { tmpV := fun _ => 0, tmpVsize := 0, tmpW := fun _ => 0, tmpWsize := 0,
      tmpH := fun _ _ => 0 }
  let tmp := forLoop 0 m_min
    (fun i (tmp : JDTmp K F) =>
      let tmp := { tmp with
        tmpV := Function.update tmp.tmpV tmp.tmpVsize 0, tmpVsize := tmp.tmpVsize + 1,
        tmpW := Function.update tmp.tmpW tmp.tmpWsize 0, tmpWsize := tmp.tmpWsize + 1 }
      forLoop 0 s.m
        (fun j (tmp : JDTmp K F) =>
          { tmp with
            tmpV := Function.update tmp.tmpV i
              (blas.caxpy ((pairAt eigenpairs i).2 j) (s.V j) (tmp.tmpV i)),
            tmpW := Function.update tmp.tmpW i
              (blas.caxpy ((pairAt eigenpairs i).2 j) (s.W j) (tmp.tmpW i)),
            tmpH := setEntry tmp.tmpH i i (E.B.ofReal (pairAt eigenpairs i).1) })
        tmp)
    tmp
  { s with
    m := m_min, H := tmp.tmpH, Hdim := m_min,
    V := tmp.tmpV, Vsize := tmp.tmpVsize, W := tmp.tmpW, Wsize := tmp.tmpWsize,
    restart_iter := s.restart_iter + 1 }

/-- Lines 1247-1335 of the main loop: the shift is updated, `u` is pushed on
the projection space, the correction equation is solved into `t`, and `u` is
popped again. -/
def jdCorrect (E : JDEnv R K F) (tau : R) (s : JDState R K F) : JDState R K F :=
  let theta := s.theta + tau
  let eigSpace := Function.update s.eigSpace s.eigSize s.u
  let eigSize := s.eigSize + 1
  let t := E.cg eigSpace eigSize theta s.t s.r
  let eigSize := eigSize - 1
  { s with theta := theta, eigSpace := eigSpace, eigSize := eigSize, t := t }

/-- One iteration of the main loop of `JD::operator()` (lines 1060-1358), the
inner loop being given `fuel`. -/
def jdIteration (E : JDEnv R K F) (tau : R) (m_max m_min : Int) (fuel : Nat)
    (s : JDState R K F) : Option (JDState R K F) :=
  let x := jdExtract E tau s
  let s := x.1
  let eigenpairs := x.2
  match residualLoop s.tol fuel s.norm with
  | none => none
  | some norm =>
    let s := { s with norm := norm }
    let s := if s.m ≥ m_max then jdRestart E m_min eigenpairs s else s
    some (jdCorrect E tau s)

/-- The main loop `while (restart_iter < max_restarts && k < k_max)` of
`JD::operator()`, run for at most `fuel` tests of its guard, each inner loop
being given `inner`. -/
def jdLoop (E : JDEnv R K F) (tau : R) (k_max m_max m_min : Int) (inner : Nat) :
    Nat → JDState R K F → Option (JDState R K F)
  | 0, _ => none
  | fuel + 1, s =>
    if s.restart_iter < s.max_restarts ∧ s.k < k_max then
      match jdIteration E tau m_max m_min inner s with
      | none => none
      | some s => jdLoop E tau k_max m_max m_min inner fuel s
    else some s

/-- The function `EigenSolver::loadFromFile(mat, kSpace, evals)` called by
`JD::operator()` on `eigSpace`: the vectors are read, then `computeEvals`
fills `evals` and `residua` for the indices of `[0, nEv)`. -/
def JD.loadFromFile (E : JDEnv R K F) (s : JDState R K F) : Except String (JDState R K F) :=
  match E.read_spinor_field s.eig_param.vec_infile s.eigSpace with
  | .error e => .error e
  | .ok eigSpace =>
    let s := { s with eigSpace := eigSpace, r := 0 }
    .ok (forLoop 0 s.nEv
      (fun i (s : JDState R K F) =>
        let r := E.mat (s.eigSpace i)
        let evals := Function.update s.evals i
          (E.B.cDotProduct (s.eigSpace i) r / E.B.ofReal (E.B.sqrt (E.B.norm2 (s.eigSpace i))))
        let n_unit : K := E.B.ofReal (-1)
        let r := blas.caxpby (evals i) (s.eigSpace i) n_unit r
        let residua := Function.update s.residua i (E.B.sqrt (E.B.norm2 r))
        { s with r := r, evals := evals, residua := residua })
      s)

/-- Lines 961-1058 of `JD::operator()`, when no vectors are loaded: the state
on entry to the main loop.  `V`, `W` and `eigSpace` are empty, `H` has
dimension zero, and `t` is a copy of the initial guess. -/
def JD.entry (E : JDEnv R K F) (s : JDState R K F) : JDState R K F :=
  let s := { s with k := 0, m := 0, max_restarts := s.eig_param.max_restarts }
  let norm := E.B.sqrt (E.B.norm2 (s.eigSpace 0))
  let eigSpace := if norm = 0 then Function.update s.eigSpace 0 E.noise else s.eigSpace
  { s with
    norm := norm, eigSpace := eigSpace, eigSize := 0, r := 0, t := eigSpace 0, w := 0, u := 0,
    Vsize := 0, Wsize := 0, Hdim := 0 }

/-- The function `JD::operator()(eigSpace, evals)`, its loops being given
`fuel`: nothing when a loop has not left through its guard. -/
def JD.operator (E : JDEnv R K F) (fuel : Nat) (s : JDState R K F) :
    Option (Except String (JDState R K F)) :=
  let k_max := s.eig_param.nConv
  let m_max := s.eig_param.nKr
  let m_min := s.eig_param.nEv
  let tau : R := 0
  if s.eig_param.vec_infile ≠ "" then
    some (JD.loadFromFile E { s with k := 0, m := 0, max_restarts := s.eig_param.max_restarts })
  else
    match jdLoop E tau k_max m_max m_min fuel fuel (JD.entry E s) with
    | none => none
    | some s =>
      let saved : Except String Unit :=
        if s.eig_param.vec_outfile ≠ "" ∧ s.eigSize > 0 then
          E.write_spinor_field s.eig_param.vec_outfile s.eigSpace
        else .ok ()
      match saved with
      | .error e => some (.error e)
      | .ok _ =>
        if s.eigSize = 0 then
          some (.ok { s with
            eigSpace := Function.update s.eigSpace s.eigSize 0, eigSize := s.eigSize + 1 })
        else some (.ok s)

end jd

/-! ## Concrete configurations used to exercise the definitions -/

/-- A configuration over the rationals: `nEv`, `nKr`, `nConv`, the solver
family and the spectrum target are given, acceleration is off. -/
def exampleParam (nEv nKr nConv : Int) (eig_type : QudaEigType) (spectrum : QudaEigSpectrumType) :
    QudaEigParam ℚ :=
  { nEv := nEv, nKr := nKr, nConv := nConv, tol := 1 / 10 ^ 10, max_restarts := 100,
    check_interval := 1, use_poly_acc := false, poly_deg := 0, a_min := 0, a_max := 0,
    spectrum := spectrum, eig_type := eig_type, compute_svd := false,
    vec_infile := "", vec_outfile := "" }

/-- The backend over the rationals in which a vector is one rational
coordinate: the inner product is the product, the squared norm the square,
and the square root is exact on squares. -/
def ratBlas : Blas ℚ ℚ ℚ :=
  { ofReal := RingHom.id ℚ
    complex := fun x _ => x
    real := fun z => z
    imag := fun _ => 0
    cDotProduct := fun x y => x * y
    reDotProduct := fun x y => x * y
    norm2 := fun x => x * x
    sqrt := Rat.sqrt }

/-- A configuration with polynomial acceleration of degree `poly_deg` on the
interval `[a_min, a_max]`. -/
def exampleChebyParam (poly_deg : Int) (a_min a_max : ℚ) : QudaEigParam ℚ :=
  { exampleParam 1 7 1 QUDA_EIG_LANCZOS QUDA_SPECTRUM_SR_EIG with
    use_poly_acc := true, poly_deg := poly_deg, a_min := a_min, a_max := a_max }

/-- The Ritz values `1, 3, 2, 4, 5, 6, ..`: the value of index `i` is `i + 1`,
but for the values of the indices 1 and 2, which are exchanged. -/
def exampleAlpha : Int → ℚ := fun i => if i = 1 then 3 else if i = 2 then 2 else i + 1

/-- A basis over the rationals whose vector of index `i` is the rational `i`. -/
def exampleBasis : Int → ℚ := fun i => i

/-- External collaborators over the rationals: the operator doubles its
argument, and the dense eigensolver returns the diagonal of its argument with
the unit vectors. -/
def exampleEnv : Env ℚ ℚ ℚ :=
  { B := ratBlas
    mat := fun x => 2 * x
    M := fun x => x
    eigensolver := fun _ A =>
      { eigenvalues := fun i => A i i, eigenvectors := fun i j => if i = j then 1 else 0 }
    noise := 1
    created := 0
    prec := .QUDA_DOUBLE_PRECISION
    DBL_EPSILON := 1 / 2 ^ 52
    FLT_EPSILON := 1 / 2 ^ 23
    read_spinor_field := fun _ v => .ok v
    write_spinor_field := fun _ _ => .ok () }

/-- The state of a solve with `nEv = 10`, `nKr = 20`, `nConv = 5`, target `SR`
and `tol = 1e-10`, after the dense eigensolve of its first restart cycle: the
Ritz values are `1, 2, .., 20`, the residual estimate of slot 0 is `1` and
every other one is `1e-20`. -/
def exampleState : TRLMState ℚ ℚ ℚ :=
  { eig_param := exampleParam 10 20 5 QUDA_EIG_LANCZOS QUDA_SPECTRUM_SR_EIG
    nEv := 10
    nKr := 20
    nConv := 5
    tol := 1 / 10 ^ 10
    reverse := false
    converged := false
    restart_iter := 0
    max_restarts := 100
    check_interval := 1
    iter := 20
    iter_converged := 0
    iter_locked := 0
    iter_keep := 0
    num_converged := 0
    num_locked := 0
    num_keep := 0
    residua := fun i => if i = 0 then 1 else 1 / 10 ^ 20
    spectrum := "SR"
    alpha := fun i => i + 1
    beta := fun _ => 1
    ritz_mat := fun _ => 0
    kSpace := fun _ => 1
    kSize := 21
    r := 0
    evals := fun _ => 0
    mat_norm := 0 }

/-- The example state at the exit of the restart loop, after a cycle that
set `converged`. -/
def exampleConverged : TRLMState ℚ ℚ ℚ :=
  { exampleState with
    converged := true, restart_iter := 1, iter_locked := 19, iter_converged := 19, iter_keep := 8,
    num_converged := 19, num_keep := 8, num_locked := 19, kSize := 29, mat_norm := 20 }

/-- The example state after convergence with every basis vector equal to the
rational `2`, a vector of norm `2`. -/
def exampleUnnormalised : TRLMState ℚ ℚ ℚ :=
  { exampleConverged with kSpace := fun _ => 2 }

/-- The backend over the rationals in which a vector is a pair of rational
coordinates, with the usual inner product. -/
def planeBlas : Blas ℚ ℚ (ℚ × ℚ) :=
  { ofReal := RingHom.id ℚ
    complex := fun x _ => x
    real := fun z => z
    imag := fun _ => 0
    cDotProduct := fun x y => x.1 * y.1 + x.2 * y.2
    reDotProduct := fun x y => x.1 * y.1 + x.2 * y.2
    norm2 := fun x => x.1 * x.1 + x.2 * x.2
    sqrt := Rat.sqrt }

/-- The orthonormal basis of the plane: the two unit vectors in the cells 0
and 1, and the zero vector elsewhere. -/
def planeBasis : Int → ℚ × ℚ := fun i => if i = 0 then (1, 0) else if i = 1 then (0, 1) else 0

/-- External collaborators on the plane: the factor `M` is the diagonal
matrix `diag(1, 2)` and the operator is `M^dag M = diag(1, 4)`. -/
def planeEnv : Env ℚ ℚ (ℚ × ℚ) :=
  { B := planeBlas
    mat := fun x => (x.1, 4 * x.2)
    M := fun x => (x.1, 2 * x.2)
    eigensolver := fun _ A =>
      { eigenvalues := fun i => A i i, eigenvectors := fun i j => if i = j then 1 else 0 }
    noise := (1, 0)
    created := 0
    prec := .QUDA_DOUBLE_PRECISION
    DBL_EPSILON := 1 / 2 ^ 52
    FLT_EPSILON := 1 / 2 ^ 23
    read_spinor_field := fun _ v => .ok v
    write_spinor_field := fun _ _ => .ok () }

/-- A state on the plane after convergence, with `nConv = 4` in the
configuration: the basis vector of index `1` is the second unit vector, an
eigenvector of `diag(1, 4)` for the eigenvalue 4, and every other one is the
first unit vector, an eigenvector for the eigenvalue 1. -/
def planeSVDState : TRLMState ℚ ℚ (ℚ × ℚ) :=
  { toTRLM :=
      { exampleConverged.toTRLM with
        eig_param :=
          { exampleParam 10 20 4 QUDA_EIG_LANCZOS QUDA_SPECTRUM_SR_EIG with compute_svd := true }
        nConv := 4 }
    kSpace := fun i => if i = 1 then (0, 1) else (1, 0)
    kSize := 20
    r := 0
    evals := fun i => if i = 1 then 4 else 1
    mat_norm := 20 }

/-- Residual estimates of a first restart cycle: `1e-12` in the slots 1, 2
and 3, and `1` elsewhere. -/
def exampleResiduaFirst : Int → ℚ := fun i => if 1 ≤ i ∧ i ≤ 3 then 1 / 10 ^ 12 else 1

/-- Residual estimates of a second restart cycle: `1e-12` in the slot 1, and
`1` elsewhere. -/
def exampleResiduaSecond : Int → ℚ := fun i => if i = 1 then 1 / 10 ^ 12 else 1

/-- The example state after the dense eigensolve of its first restart cycle,
with the first residual estimates. -/
def exampleFirstCycle : TRLMState ℚ ℚ ℚ :=
  { exampleState with residua := exampleResiduaFirst }

/-- The state after the dense eigensolve of the second restart cycle: the
counters are those the first cycle left, the Ritz values are again
`1, 2, .., 20`, and the residual estimates are the second ones. -/
def exampleSecondCycle : TRLMState ℚ ℚ ℚ :=
  { lockAndConverge exampleEnv (precisionEpsilon exampleEnv) exampleFirstCycle with
    alpha := fun i => i + 1
    residua := exampleResiduaSecond }

/-- The example state at the entry of a second restart cycle that keeps eight
vectors: `num_keep = 8`, every basis vector is the rational `1` and every
`beta` is `1`. -/
def exampleRestartEntry : TRLMState ℚ ℚ ℚ :=
  { exampleState with num_keep := 8, restart_iter := 1 }

/-- A configuration that asks for the large real end of the spectrum with
polynomial acceleration of degree 2 on the interval `[1, 3]`. -/
def exampleLargeAccelerated : QudaEigParam ℚ :=
  { exampleChebyParam 2 1 3 with spectrum := QUDA_SPECTRUM_LR_EIG }

/-- The example state of a solver that sorts in the reverse direction: the
large real end is asked for, without acceleration. -/
def exampleReversed : TRLMState ℚ ℚ ℚ :=
  { exampleState with
    eig_param := exampleParam 10 20 5 QUDA_EIG_LANCZOS QUDA_SPECTRUM_LR_EIG
    reverse := true
    spectrum := "LR" }

/-- The example state within a restart cycle, after the scans have chosen to
keep eight vectors and before the Ritz vectors are recombined. -/
def exampleKeep : TRLMState ℚ ℚ ℚ :=
  { exampleState with iter_converged := 3, iter_keep := 8, mat_norm := 20 }

/-- The state of a solve with the smallest accepted search space, `nEv = 1`,
`nKr = 7`, `nConv = 1`, after the dense eigensolve of its first restart
cycle: the Ritz values are `1, 2, .., 7`, every residual estimate is `1`, and
the vector of index `i` is the rational `i`. -/
def exampleSmall : TRLMState ℚ ℚ ℚ :=
  { exampleState with
    eig_param := exampleParam 1 7 1 QUDA_EIG_LANCZOS QUDA_SPECTRUM_SR_EIG
    nEv := 1
    nKr := 7
    nConv := 1
    iter := 7
    residua := fun _ => 1
    kSpace := exampleBasis
    kSize := 8 }

/-- The Ritz values `2, 1, 3, 4, 5, ..`: the value of index `i` is `i + 1`,
but for the values of the indices 0 and 1, which are exchanged. -/
def exampleAlphaHead : Int → ℚ := fun i => if i = 0 then 2 else if i = 1 then 1 else i + 1

/-- External collaborators of a Jacobi-Davidson solve over the rationals:
those of `exampleEnv`, the conjugate of a real number, a dense eigensolver
that returns the diagonal of its argument with the unit vectors, and a linear
solve that returns its right-hand side. -/
def exampleJDEnv : JDEnv ℚ ℚ ℚ :=
  { toEnv := exampleEnv
    conj := fun z => z
    eigensolverC := fun _ H =>
      { eigenvalues := fun i => H i i, eigenvectors := fun i j => if i = j then 1 else 0 }
    cg := fun _ _ _ _ r => r }

/-- The configuration `nEv = 1`, `nKr = 2`, `nConv = 1` of the family `JD`
with the tolerance `tol` and one restart allowed. -/
def exampleJDParam (tol : ℚ) : QudaEigParam ℚ :=
  { exampleParam 1 2 1 QUDA_EIG_JD QUDA_SPECTRUM_SR_EIG with tol := tol, max_restarts := 1 }

/-- The state in which `JD::operator()` is called on a solver just constructed
from `exampleJDParam tol`, with the initial guess `eigSpace[0] = 1`. -/
def exampleJDState (tol : ℚ) : JDState ℚ ℚ ℚ :=
  { eig_param := exampleJDParam tol
    nEv := 1
    nKr := 2
    nConv := 1
    tol := tol
    reverse := false
    converged := false
    restart_iter := 0
    max_restarts := 1
    check_interval := 1
    iter := 0
    iter_converged := 0
    iter_locked := 0
    iter_keep := 0
    num_converged := 0
    num_locked := 0
    num_keep := 0
    residua := initResidua 2 (fun _ => 0)
    spectrum := "SR"
    k := 0
    m := 0
    theta := 0
    norm := 0
    t := 0
    w := 0
    u := 0
    r := 0
    V := fun _ => 0
    Vsize := 0
    W := fun _ => 0
    Wsize := 0
    H := fun _ _ => 0
    Hdim := 0
    eigSpace := fun _ => 1
    eigSize := 1
    evals := fun _ => 0 }

/-- The example solve with the tolerance `1/2` after one expansion: one vector
in `V` and in `W`, and `H` of dimension one. -/
def exampleJDMid : JDState ℚ ℚ ℚ :=
  { exampleJDState (1 / 2) with
    m := 1, t := 1, V := fun _ => 1 / 2, Vsize := 1, W := fun _ => 1, Wsize := 1,
    H := fun _ _ => 1 / 2, Hdim := 1, eigSize := 0 }

/-- A result is a configuration error when it is the abort of `errorQuda`. -/
def isError {ε α : Type} : Except ε α → Prop
  | .error _ => True
  | .ok _ => False

instance {ε α : Type} (x : Except ε α) : Decidable (isError x) := by
  cases x <;> simp only [isError] <;> infer_instance

/-! ## Theorems -/

/-- C1: the constructor of `EigenSolver` aborts with a configuration error
exactly when `nKr <= nEv`, or `nEv < nConv`, or one of `nEv`, `nKr`, `nConv`
is zero.  The constructor receives the parameters only: no operator is in
scope, so the rejection precedes every operator application. -/
theorem EigenSolver_constructor_rejects_iff {R : Type} [Zero R]
    (p : QudaEigParam R) (fresh : Int → R) :
    isError (EigenSolver.EigenSolver p fresh) ↔
      (p.nKr ≤ p.nEv ∨ p.nEv < p.nConv ∨ p.nEv = 0 ∨ p.nKr = 0 ∨ p.nConv = 0) := by
  unfold EigenSolver.EigenSolver
  simp only
  split_ifs <;> simp [isError, *]

/-- An accepted configuration is stored unchanged in the solver. -/
theorem EigenSolver_constructor_fields {R : Type} [Zero R]
    (p : QudaEigParam R) (fresh : Int → R)
    (h : ¬ isError (EigenSolver.EigenSolver p fresh)) :
    ∃ base, EigenSolver.EigenSolver p fresh = .ok base ∧ base.nKr = p.nKr ∧ base.nEv = p.nEv := by
  unfold EigenSolver.EigenSolver at h ⊢
  simp only at h ⊢
  split_ifs at h ⊢ <;> simp [isError] at h ⊢

/-- C2 (as stated, refuted): a configuration of family `QUDA_EIG_JD` with the
magnitude target `LM`, `nEv = 1`, `nKr = 7`, `nConv = 1` passes the common
checks and is accepted by the constructor of `TRLM`, although its target is
not one of the two real targets. -/
theorem TRLM_constructor_accepts_nonreal_target :
    ¬ isError (EigenSolver.EigenSolver
        (exampleParam 1 7 1 QUDA_EIG_JD QUDA_SPECTRUM_LM_EIG) (fun _ => 0)) ∧
    ¬ (isError (TRLM.TRLM (exampleParam 1 7 1 QUDA_EIG_JD QUDA_SPECTRUM_LM_EIG)
          (fun _ => 0) (fun _ => 0) (fun _ => 0)) ↔
        ((exampleParam 1 7 1 QUDA_EIG_JD QUDA_SPECTRUM_LM_EIG).nKr
            < (exampleParam 1 7 1 QUDA_EIG_JD QUDA_SPECTRUM_LM_EIG).nEv + 6 ∨
          ¬ ((exampleParam 1 7 1 QUDA_EIG_JD QUDA_SPECTRUM_LM_EIG).spectrum = QUDA_SPECTRUM_SR_EIG ∨
            (exampleParam 1 7 1 QUDA_EIG_JD QUDA_SPECTRUM_LM_EIG).spectrum = QUDA_SPECTRUM_LR_EIG))) := by
  constructor
  · simp [EigenSolver.EigenSolver, exampleParam, isError]
  · simp [TRLM.TRLM, EigenSolver.EigenSolver, exampleParam, isError]

/-- C2 (amended): when the common checks pass, the constructor of `TRLM`
aborts with a configuration error exactly when `nKr < nEv + 6`, or the
configured solver family is `QUDA_EIG_LANCZOS` and the spectrum target is
neither `SR` nor `LR`. -/
theorem TRLM_constructor_rejects_iff {R : Type} [Zero R]
    (p : QudaEigParam R) (fresh freshAlpha freshBeta : Int → R)
    (hbase : ¬ isError (EigenSolver.EigenSolver p fresh)) :
    isError (TRLM.TRLM p fresh freshAlpha freshBeta) ↔
      (p.nKr < p.nEv + 6 ∨
        (p.eig_type = QUDA_EIG_LANCZOS ∧
          ¬ (p.spectrum = QUDA_SPECTRUM_SR_EIG ∨ p.spectrum = QUDA_SPECTRUM_LR_EIG))) := by
  obtain ⟨base, hb, hKr, hEv⟩ := EigenSolver_constructor_fields p fresh hbase
  unfold TRLM.TRLM
  rw [hb]
  simp only [hKr, hEv]
  split_ifs with h1 h2 <;> simp only [isError] <;> tauto

/-- C2 (amended), exercised on a Lanczos configuration with target `SR`,
`nEv = 1`, `nKr = 7`, `nConv = 1`. -/
theorem TRLM_constructor_rejects_iff_witness :
    ¬ isError (EigenSolver.EigenSolver
        (exampleParam 1 7 1 QUDA_EIG_LANCZOS QUDA_SPECTRUM_SR_EIG) (fun _ => 0)) ∧
    (isError (TRLM.TRLM (exampleParam 1 7 1 QUDA_EIG_LANCZOS QUDA_SPECTRUM_SR_EIG)
          (fun _ => 0) (fun _ => 0) (fun _ => 0)) ↔
      ((exampleParam 1 7 1 QUDA_EIG_LANCZOS QUDA_SPECTRUM_SR_EIG).nKr
          < (exampleParam 1 7 1 QUDA_EIG_LANCZOS QUDA_SPECTRUM_SR_EIG).nEv + 6 ∨
        ((exampleParam 1 7 1 QUDA_EIG_LANCZOS QUDA_SPECTRUM_SR_EIG).eig_type = QUDA_EIG_LANCZOS ∧
          ¬ ((exampleParam 1 7 1 QUDA_EIG_LANCZOS QUDA_SPECTRUM_SR_EIG).spectrum = QUDA_SPECTRUM_SR_EIG ∨
            (exampleParam 1 7 1 QUDA_EIG_LANCZOS QUDA_SPECTRUM_SR_EIG).spectrum
              = QUDA_SPECTRUM_LR_EIG)))) :=
  ⟨by simp [EigenSolver.EigenSolver, exampleParam, isError],
    TRLM_constructor_rejects_iff _ _ _ _
      (by simp [EigenSolver.EigenSolver, exampleParam, isError])⟩

section utilities

variable {R K V : Type} [LinearOrderedField R] [Field K] [AddCommGroup V] [Module K V]

/-- The loop collecting the first `n` entries succeeds exactly when the vector
holds at least `n` entries. -/
theorem firstN_eq {α : Type} (n : Nat) (l : List α) :
    firstN n l = if n ≤ l.length then some (l.take n) else none := by
  induction n generalizing l with
  | zero => simp [firstN]
  | succ n ih =>
    cases l with
    | nil => simp [firstN]
    | cons x xs =>
      simp only [firstN, ih, List.length_cons, Nat.add_le_add_iff_right, List.take_succ_cons]
      split_ifs <;> simp

/-- The coefficients of `deflate` applied to the vectors they were computed
from. -/
theorem deflate_terms (B : Blas R K V) (vec : V) (vs : List V) (es : List K) :
    List.zipWith (fun si xi => si • xi)
      (List.zipWith (fun si e => si / B.ofReal (B.real e)) (blas.blockCDotProduct B vs vec) es) vs
    = List.zipWith (fun v e => (B.cDotProduct v vec / B.ofReal (B.real e)) • v) vs es := by
  induction vs generalizing es with
  | nil => simp [blas.blockCDotProduct]
  | cons v vs ih =>
    cases es with
    | nil => simp [blas.blockCDotProduct]
    | cons e es =>
      have := ih es
      simp only [blas.blockCDotProduct] at this ⊢
      simp [this]

/-- C8 (as stated, refuted): with `nEv = 1`, a valid configuration, `deflate`
handed the empty set of pairs indexes `eig_vecs[0]` past the end of the set
and does not return the zero vector. -/
theorem deflate_empty_set_not_zero :
    ¬ isError (EigenSolver.EigenSolver
        (exampleParam 1 7 1 QUDA_EIG_LANCZOS QUDA_SPECTRUM_SR_EIG) (fun _ => 0)) ∧
    deflate ratBlas (exampleParam 1 7 1 QUDA_EIG_LANCZOS QUDA_SPECTRUM_SR_EIG) (5 : ℚ) 1 [] []
      ≠ some 0 := by
  constructor
  · simp [EigenSolver.EigenSolver, exampleParam, isError]
  · simp [deflate, firstN, exampleParam]

/-- C8 (amended): handed the empty set of pairs, `deflate` returns the zero
vector exactly when the configured `nEv` asks for no term (`nEv <= 0`),
whatever `vec` and the previous content of `vec_defl`; for every valid
configuration (`nEv >= 1`) it indexes past the end of the set and returns
nothing. -/
theorem deflate_empty_set (B : Blas R K V) (p : QudaEigParam R) (vec_defl vec : V) :
    deflate B p vec_defl vec [] [] = if 0 < p.nEv then none else some 0 := by
  unfold deflate
  simp only [firstN_eq, List.length_nil, Nat.le_zero_eq, Int.toNat_eq_zero]
  split_ifs with h1 h2 h2
  · omega
  · simp [blas.blockCDotProduct, blas.blockCaxpy, blas.zero]
  · rfl
  · omega

/-- C9 (as stated, refuted): with `nEv = 1` and two pairs `(1, 1)` supplied,
`deflate` of the vector `1` writes the contribution of the first pair only,
`1`, not the sum `2` over all supplied pairs; and over the complex numbers,
with the one pair `(1 + i, 1)`, it writes `1 / Re(1 + i) = 1`, not
`(1 + i)^{-1}`. -/
theorem deflate_not_sum_over_supplied_pairs :
    (deflate ratBlas (exampleParam 1 7 1 QUDA_EIG_LANCZOS QUDA_SPECTRUM_SR_EIG)
        (0 : ℚ) 1 [1, 1] [1, 1] = some 1 ∧
      deflate ratBlas (exampleParam 1 7 1 QUDA_EIG_LANCZOS QUDA_SPECTRUM_SR_EIG)
        (0 : ℚ) 1 [1, 1] [1, 1] ≠
        some ((List.zipWith (fun (v : ℚ) (e : ℚ) => (e⁻¹ * ratBlas.cDotProduct v 1) • v)
          [1, 1] [1, 1]).sum)) ∧
    (deflate
        ({ ofReal := Complex.ofRealHom, complex := fun x y => ⟨x, y⟩, real := Complex.re,
           imag := Complex.im, cDotProduct := fun x y => (starRingEnd ℂ) x * y,
           reDotProduct := fun x y => ((starRingEnd ℂ) x * y).re, norm2 := Complex.normSq,
           sqrt := Real.sqrt } : Blas ℝ ℂ ℂ)
        ({ nEv := 1, nKr := 7, nConv := 1, tol := 0, max_restarts := 100, check_interval := 1,
           use_poly_acc := false, poly_deg := 0, a_min := 0, a_max := 0,
           spectrum := QUDA_SPECTRUM_SR_EIG, eig_type := QUDA_EIG_LANCZOS, compute_svd := false,
           vec_infile := "", vec_outfile := "" } : QudaEigParam ℝ)
        (0 : ℂ) 1 [1] [⟨1, 1⟩] = some 1 ∧
      (1 : ℂ) ≠ ((⟨1, 1⟩ : ℂ)⁻¹ * ((starRingEnd ℂ) 1 * 1)) • (1 : ℂ)) := by
  refine ⟨⟨?_, ?_⟩, ?_, ?_⟩
  · simp [deflate, firstN, blas.blockCDotProduct, blas.blockCaxpy, blas.zero, ratBlas,
      exampleParam]
  · simp [deflate, firstN, blas.blockCDotProduct, blas.blockCaxpy, blas.zero, ratBlas,
      exampleParam]
  · simp [deflate, firstN, blas.blockCDotProduct, blas.blockCaxpy, blas.zero]
  · intro h
    have h2 := congrArg Complex.im h
    simp [Complex.inv_im, Complex.normSq] at h2
    norm_num at h2

/-- C9 (amended): when at least `nEv` eigenvectors and `nEv` eigenvalues are
supplied and the first `nEv` eigenvalues have a non-zero real part, `deflate`
writes into `vec_defl` the sum over the first `nEv` pairs of
`V_i * Re(lambda_i)^{-1} * <V_i, vec>`, whatever `vec_defl` held before. -/
theorem deflate_sum_first_nEv (B : Blas R K V) (p : QudaEigParam R) (vec_defl vec : V)
    (eig_vecs : List V) (evals : List K)
    (hv : p.nEv.toNat ≤ eig_vecs.length) (he : p.nEv.toNat ≤ evals.length)
    (_hre : ∀ e ∈ evals.take p.nEv.toNat, B.real e ≠ 0) :
    deflate B p vec_defl vec eig_vecs evals =
      some ((List.zipWith (fun v e => (B.cDotProduct v vec / B.ofReal (B.real e)) • v)
        (eig_vecs.take p.nEv.toNat) (evals.take p.nEv.toNat)).sum) := by
  unfold deflate
  simp only [firstN_eq, hv, he, if_true]
  simp only [blas.blockCaxpy, blas.zero, zero_add, deflate_terms]

/-- C9 (amended), exercised with `nEv = 1` on two supplied pairs. -/
theorem deflate_sum_first_nEv_witness :
    deflate ratBlas (exampleParam 1 7 1 QUDA_EIG_LANCZOS QUDA_SPECTRUM_SR_EIG) (7 : ℚ) 1
        [1, 1] [2, 3] =
      some ((List.zipWith
        (fun (v : ℚ) (e : ℚ) => (ratBlas.cDotProduct v 1 / ratBlas.ofReal (ratBlas.real e)) • v)
        (([1, 1] : List ℚ).take
          (exampleParam 1 7 1 QUDA_EIG_LANCZOS QUDA_SPECTRUM_SR_EIG).nEv.toNat)
        (([2, 3] : List ℚ).take
          (exampleParam 1 7 1 QUDA_EIG_LANCZOS QUDA_SPECTRUM_SR_EIG).nEv.toNat)).sum) :=
  deflate_sum_first_nEv ratBlas (exampleParam 1 7 1 QUDA_EIG_LANCZOS QUDA_SPECTRUM_SR_EIG) 7 1
    [1, 1] [2, 3] (by decide) (by decide) (by simp [ratBlas, exampleParam])

/-- C10: with acceleration on and degree one, on a non-degenerate interval
(`a_min`, `a_max` distinct with non-zero midpoint), `chebyOp` returns
`d2 * in + d1 * (A * in)` with `d2 = 1` and `d1 = sigma1 / delta = -1 / theta`,
and the operator has been applied once: the recursion, whose every iteration
applies the operator again, is not entered. -/
theorem chebyOp_degree_one (B : Blas R K V) (p : QudaEigParam R) (mat : V → V) (inp : V)
    (hacc : p.use_poly_acc = true) (hdeg : p.poly_deg = 1)
    (hdelta : p.a_min ≠ p.a_max) (htheta : p.a_max + p.a_min ≠ 0) :
    let delta := (p.a_max - p.a_min) / 2
    let theta := (p.a_max + p.a_min) / 2
    let sigma1 := -delta / theta
    let d1 := sigma1 / delta
    let d2 : R := 1
    d1 = -1 / theta ∧
    chebyOp B p mat inp =
      .ok { out := B.ofReal d2 • inp + B.ofReal d1 • mat inp, matvecs := 1 } := by
  intro delta theta sigma1 d1 d2
  constructor
  · have h1 : p.a_max - p.a_min ≠ 0 := fun h => hdelta (by linarith)
    simp only [d1, sigma1, delta, theta]
    field_simp
    ring
  · unfold chebyOp
    simp [hacc, hdeg, blas.caxpby, d1, d2, sigma1, delta, theta]

/-- C10, exercised on the interval `[1, 3]` with the operator `x -> 2 x`. -/
theorem chebyOp_degree_one_witness :
    (exampleChebyParam 1 1 3).use_poly_acc = true ∧ (exampleChebyParam 1 1 3).poly_deg = 1 ∧
    (exampleChebyParam 1 1 3).a_min ≠ (exampleChebyParam 1 1 3).a_max ∧
    (exampleChebyParam 1 1 3).a_max + (exampleChebyParam 1 1 3).a_min ≠ 0 ∧
    (-(((exampleChebyParam 1 1 3).a_max - (exampleChebyParam 1 1 3).a_min) / 2)
        / (((exampleChebyParam 1 1 3).a_max + (exampleChebyParam 1 1 3).a_min) / 2)
        / (((exampleChebyParam 1 1 3).a_max - (exampleChebyParam 1 1 3).a_min) / 2)
      = -1 / (((exampleChebyParam 1 1 3).a_max + (exampleChebyParam 1 1 3).a_min) / 2) ∧
    chebyOp ratBlas (exampleChebyParam 1 1 3) (fun x => 2 * x) (1 : ℚ) =
      .ok { out := ratBlas.ofReal 1 • (1 : ℚ)
              + ratBlas.ofReal (-(((exampleChebyParam 1 1 3).a_max - (exampleChebyParam 1 1 3).a_min) / 2)
                / (((exampleChebyParam 1 1 3).a_max + (exampleChebyParam 1 1 3).a_min) / 2)
                / (((exampleChebyParam 1 1 3).a_max - (exampleChebyParam 1 1 3).a_min) / 2))
                • ((fun x => 2 * x) (1 : ℚ)),
            matvecs := 1 }) :=
  ⟨rfl, rfl, by simp [exampleChebyParam, exampleParam],
    by simp [exampleChebyParam, exampleParam]; norm_num,
    chebyOp_degree_one ratBlas (exampleChebyParam 1 1 3) (fun x => 2 * x) 1 rfl rfl
      (by simp [exampleChebyParam, exampleParam])
      (by simp [exampleChebyParam, exampleParam]; norm_num)⟩

end utilities

section reorder

variable {R V : Type} [LinearOrderedField R]

theorem inOrder_refl (rev : Bool) (x : R) : inOrder rev x x := by
  cases rev <;> simp [inOrder]

theorem inOrder_trans {rev : Bool} {x y z : R} (h1 : inOrder rev x y) (h2 : inOrder rev y z) :
    inOrder rev x z := by
  cases rev <;> simp [inOrder] at * <;> linarith

theorem inOrder_total {rev : Bool} {x y : R} (h : ¬ inOrder rev x y) : inOrder rev y x := by
  cases rev <;> simp [inOrder] at * <;> linarith

theorem reorderLoop_succ (n : Int) (rev : Bool) (fuel : Nat) (s : ReorderVars R V)
    (h : s.i < n) :
    reorderLoop n rev (fuel + 1) s = reorderLoop n rev fuel (reorderStep rev s) := by
  simp [reorderLoop, h]

theorem reorderLoop_exit (n : Int) (rev : Bool) (fuel : Nat) (s : ReorderVars R V)
    (h : ¬ s.i < n) : reorderLoop n rev fuel s = s := by
  cases fuel <;> simp [reorderLoop, h]

theorem reorderStep_advance (rev : Bool) (s : ReorderVars R V)
    (h : s.i = 0 ∨ inOrder rev (s.alpha (s.i - 1)) (s.alpha s.i)) :
    reorderStep rev s = { s with i := s.i + 1 } := by
  simp [reorderStep, h]

theorem reorderStep_swap (rev : Bool) (s : ReorderVars R V)
    (h : ¬ (s.i = 0 ∨ inOrder rev (s.alpha (s.i - 1)) (s.alpha s.i))) :
    (reorderStep rev s).i = s.i - 1 ∧
    (reorderStep rev s).alpha =
      Function.update (Function.update s.alpha s.i (s.alpha (s.i - 1))) (s.i - 1) (s.alpha s.i) := by
  simp [reorderStep, h]

/-- Extending a sorted prefix by one cell that is in order with its
predecessor. -/
theorem sortedUpTo_succ {rev : Bool} {a : Int → R} {m : Int}
    (hs : sortedUpTo rev a m) (h : m ≤ 0 ∨ inOrder rev (a (m - 1)) (a m)) :
    sortedUpTo rev a (m + 1) := by
  intro p q hp hpq hq
  by_cases hqm : q < m
  · exact hs p q hp hpq hqm
  · have hq' : q = m := by omega
    subst hq'
    by_cases hpm : p = q
    · subst hpm; exact inOrder_refl rev _
    · rcases h with h | h
      · omega
      · exact inOrder_trans (hs p (q - 1) hp (by omega) (by omega)) h

/-- One insertion: entered at `i = m` with the cells before `m` sorted, the
loop reaches `i = m + 1` with the cells up to `m` sorted, in at most `2 m + 1`
iterations. -/
theorem reorder_insert (n : Int) (rev : Bool) (m : Nat) :
    ∀ s : ReorderVars R V, s.i = m → (m : Int) < n → sortedUpTo rev s.alpha m →
      ∃ k : Nat, k ≤ 2 * m + 1 ∧ ∃ s' : ReorderVars R V,
        s'.i = m + 1 ∧ sortedUpTo rev s'.alpha (m + 1) ∧
        (∀ fuel, reorderLoop n rev (k + fuel) s = reorderLoop n rev fuel s') ∧
        (∀ q, (m : Int) < q → s'.alpha q = s.alpha q) ∧
        (∀ b, (∀ q, 0 ≤ q → q ≤ (m : Int) → inOrder rev (s.alpha q) b) →
          ∀ q, 0 ≤ q → q ≤ (m : Int) → inOrder rev (s'.alpha q) b) := by
  induction m with
  | zero =>
    intro s hi hn _
    refine ⟨1, by omega, { s with i := s.i + 1 }, by simp [hi], ?_, ?_, ?_, ?_⟩
    · intro p q hp hpq hq
      have : p = q := by push_cast at hq; omega
      subst this; exact inOrder_refl rev _
    · intro fuel
      rw [Nat.add_comm, reorderLoop_succ n rev fuel s (by rw [hi]; exact hn),
        reorderStep_advance rev s (Or.inl (by simpa using hi))]
    · intro q _; rfl
    · intro b hb q hq0 hqm; exact hb q hq0 hqm
  | succ m ih =>
    intro s hi hn hs
    have hi' : s.i = (m : Int) + 1 := by simpa using hi
    have hs' : sortedUpTo rev s.alpha ((m : Int) + 1) := by
      have h := hs
      push_cast at h
      exact h
    by_cases hc : s.i = 0 ∨ inOrder rev (s.alpha (s.i - 1)) (s.alpha s.i)
    · refine ⟨1, by omega, { s with i := s.i + 1 }, by simp [hi], ?_, ?_, ?_, ?_⟩
      · have := sortedUpTo_succ (m := (m : Int) + 1) hs'
          (by rcases hc with h | h
              · left; omega
              · right; rw [hi'] at h; exact h)
        simpa using this
      · intro fuel
        rw [Nat.add_comm, reorderLoop_succ n rev fuel s (by rw [hi]; exact hn),
          reorderStep_advance rev s hc]
      · intro q _; rfl
      · intro b hb q hq0 hqm; exact hb q hq0 hqm
    · obtain ⟨hsi, hsa⟩ := reorderStep_swap rev s hc
      have hc' : ¬ inOrder rev (s.alpha (s.i - 1)) (s.alpha s.i) := fun h => hc (Or.inr h)
      have hrev := inOrder_total hc'
      rw [hi'] at hsa hrev
      have hm1 : ((m : Int) + 1 - 1) = m := by omega
      rw [hm1] at hsa hrev
      -- the state after the exchange
      have h1i : (reorderStep rev s).i = (m : Int) := by rw [hsi, hi']; omega
      have h1val : ∀ q, (reorderStep rev s).alpha q =
          if q = (m : Int) then s.alpha (m + 1) else if q = (m : Int) + 1 then s.alpha m
          else s.alpha q := by
        intro q
        rw [hsa]
        by_cases h1 : q = (m : Int)
        · subst h1; simp
        · by_cases h2 : q = (m : Int) + 1
          · subst h2; simp
          · simp [Function.update, h1, h2]
      have h1s : sortedUpTo rev (reorderStep rev s).alpha m := by
        intro p q hp hpq hq
        rw [h1val p, h1val q, if_neg (by omega), if_neg (by omega), if_neg (by omega),
          if_neg (by omega)]
        exact hs p q hp hpq (by push_cast; omega)
      obtain ⟨k, hk, s2, h2i, h2s, h2loop, h2frame, h2bound⟩ :=
        ih (reorderStep rev s) h1i (by push_cast at hn; omega) h1s
      -- everything before the exchanged cell is in order with the larger one
      have hb1 : ∀ q, 0 ≤ q → q ≤ (m : Int) →
          inOrder rev ((reorderStep rev s).alpha q) (s.alpha m) := by
        intro q hq0 hqm
        rw [h1val q]
        by_cases h1 : q = (m : Int)
        · rw [if_pos h1]; exact hrev
        · rw [if_neg h1, if_neg (by omega)]
          exact hs q m hq0 (by omega) (by push_cast; omega)
      have h2m : s2.alpha ((m : Int) + 1) = s.alpha m := by
        rw [h2frame _ (by omega), h1val, if_neg (by omega), if_pos rfl]
      have h2c : s2.i = 0 ∨ inOrder rev (s2.alpha (s2.i - 1)) (s2.alpha s2.i) := by
        right
        rw [h2i, hm1, h2m]
        exact h2bound _ hb1 m (by omega) (le_refl _)
      refine ⟨1 + (k + 1), by omega, { s2 with i := s2.i + 1 }, by simp [h2i], ?_, ?_, ?_, ?_⟩
      · have := sortedUpTo_succ (m := (m : Int) + 1) h2s
          (by right; rw [h2i] at h2c; rcases h2c with h | h
              · omega
              · exact h)
        simpa using this
      · intro fuel
        rw [show 1 + (k + 1) + fuel = (k + (1 + fuel)) + 1 by omega,
          reorderLoop_succ n rev _ s (by rw [hi]; exact hn), h2loop,
          Nat.add_comm 1 fuel, reorderLoop_succ n rev fuel s2 (by rw [h2i]; push_cast at hn; omega),
          reorderStep_advance rev s2 h2c]
      · intro q hq
        have hq' : (m : Int) + 1 < q := by push_cast at hq; omega
        show s2.alpha q = s.alpha q
        rw [h2frame q (by omega), h1val, if_neg (by omega), if_neg (by omega)]
      · intro b hb q hq0 hqm
        show inOrder rev (s2.alpha q) b
        by_cases hq1 : q = (m : Int) + 1
        · rw [hq1, h2m]; exact hb m (by omega) (by push_cast; omega)
        · refine h2bound b ?_ q hq0 (by push_cast at hqm; omega)
          intro q' hq0' hqm'
          rw [h1val q']
          by_cases h1 : q' = (m : Int)
          · rw [if_pos h1]; exact hb _ (by omega) (by push_cast; omega)
          · rw [if_neg h1, if_neg (by omega)]
            exact hb q' hq0' (by push_cast; omega)

/-- The first `m` insertions take at most `m * m` iterations. -/
theorem reorder_first_cells (n : Int) (rev : Bool) (s : ReorderVars R V) (hs : s.i = 0) (m : Nat)
    (hm : (m : Int) ≤ n) :
    ∃ k : Nat, k ≤ m * m ∧ ∃ s' : ReorderVars R V,
      s'.i = m ∧ sortedUpTo rev s'.alpha m ∧
      ∀ fuel, reorderLoop n rev (k + fuel) s = reorderLoop n rev fuel s' := by
  induction m with
  | zero =>
    refine ⟨0, by omega, s, by simpa using hs, ?_, ?_⟩
    · intro p q hp hpq hq; simp at hq; omega
    · intro fuel; simp
  | succ m ih =>
    obtain ⟨k, hk, s1, h1i, h1s, h1loop⟩ := ih (by push_cast at hm; omega)
    obtain ⟨k2, hk2, s2, h2i, h2s, h2loop, -, -⟩ :=
      reorder_insert n rev m s1 h1i (by push_cast at hm; omega) h1s
    refine ⟨k + k2, by nlinarith, s2, by simpa using h2i, by simpa using h2s, ?_⟩
    intro fuel
    rw [Nat.add_assoc, h1loop, h2loop]

/-- The loop of `reorder` leaves through its guard within `nKr * nKr`
iterations, with the whole range sorted. -/
theorem reorder_exit (nKr : Int) (rev : Bool) (alpha : Int → R) (kSpace : Int → V) (r : V) :
    ¬ (reorderVars nKr rev alpha kSpace r).i < nKr ∧
    sortedUpTo rev (reorderVars nKr rev alpha kSpace r).alpha nKr := by
  unfold reorderVars
  by_cases hn : 0 ≤ nKr
  · obtain ⟨m, rfl⟩ := Int.eq_ofNat_of_zero_le hn
    obtain ⟨k, hk, s', hi, hs, hloop⟩ :=
      reorder_first_cells (m : Int) rev
        ({ alpha := alpha, kSpace := kSpace, r := r, i := 0 } : ReorderVars R V) rfl m (le_refl _)
    have hf : ((m : Int) * m).toNat = k + (m * m - k) := by
      have : ((m : Int) * m).toNat = m * m := by
        rw [← Int.natCast_mul]; exact Int.toNat_natCast _
      omega
    rw [hf, hloop, reorderLoop_exit _ _ _ _ (by rw [hi]; omega)]
    exact ⟨by rw [hi]; omega, hs⟩
  · rw [reorderLoop_exit _ _ _ _ (by simp; omega)]
    refine ⟨by simp; omega, ?_⟩
    intro p q hp hpq hq
    omega

/-- Exchanging two cells of an array is composing it with a transposition. -/
theorem update_update_eq_comp_swap {α : Type} (a : Int → α) (i j : Int) :
    Function.update (Function.update a i (a j)) j (a i) = a ∘ (Equiv.swap i j) := by
  funext q
  by_cases h1 : q = j
  · subst h1; simp
  · by_cases h2 : q = i
    · subst h2; simp [Function.update, h1]
    · simp [Function.update, h1, h2, Equiv.swap_apply_of_ne_of_ne h2 h1]

/-- The loop of `reorder` permutes `alpha` within `[0, nKr)`. -/
theorem reorderLoop_alpha_perm (n : Int) (rev : Bool) (fuel : Nat) :
    ∀ s : ReorderVars R V, 0 ≤ s.i →
      ∃ σ : Equiv.Perm Int, (∀ q, ¬ (0 ≤ q ∧ q < n) → σ q = q) ∧
        ∀ q, (reorderLoop n rev fuel s).alpha q = s.alpha (σ q) := by
  induction fuel with
  | zero => intro s _; exact ⟨1, by simp, by simp [reorderLoop]⟩
  | succ fuel ih =>
    intro s hi
    by_cases hn : s.i < n
    · rw [reorderLoop_succ n rev fuel s hn]
      by_cases hc : s.i = 0 ∨ inOrder rev (s.alpha (s.i - 1)) (s.alpha s.i)
      · rw [reorderStep_advance rev s hc]
        exact ih { s with i := s.i + 1 } (by simp; omega)
      · obtain ⟨hsi, hsa⟩ := reorderStep_swap rev s hc
        have h0 : s.i ≠ 0 := fun h => hc (Or.inl h)
        obtain ⟨σ, hσ, hval⟩ := ih (reorderStep rev s) (by rw [hsi]; omega)
        refine ⟨Equiv.swap s.i (s.i - 1) * σ, ?_, ?_⟩
        · intro q hq
          rw [Equiv.Perm.mul_apply, hσ q hq]
          exact Equiv.swap_apply_of_ne_of_ne (by omega) (by omega)
        · intro q
          rw [hval q, hsa, update_update_eq_comp_swap]
          rfl
    · rw [reorderLoop_exit n rev _ s hn]
      exact ⟨1, by simp, by simp⟩

/-- C6: `reorder` leaves `alpha[0..nKr)` monotonic in the configured direction
(non-increasing when `reverse` is set, non-decreasing otherwise), and the new
`alpha` is the old one composed with a permutation of `[0, nKr)`; its loop
leaves through the guard `i < nKr` within `nKr * nKr` iterations. -/
theorem reorder_sorts_alpha {K : Type} (s : TRLMState R K V) :
    ¬ (reorderVars s.nKr s.reverse s.alpha s.kSpace s.r).i < s.nKr ∧
    (∀ i j, 0 ≤ i → i ≤ j → j < s.nKr →
      if s.reverse then (reorder s).alpha i ≥ (reorder s).alpha j
      else (reorder s).alpha i ≤ (reorder s).alpha j) ∧
    ∃ σ : Equiv.Perm Int, (∀ q, ¬ (0 ≤ q ∧ q < s.nKr) → σ q = q) ∧
      ∀ q, (reorder s).alpha q = s.alpha (σ q) := by
  obtain ⟨hexit, hsorted⟩ := reorder_exit s.nKr s.reverse s.alpha s.kSpace s.r
  refine ⟨hexit, ?_, ?_⟩
  · intro i j hi hij hj
    exact hsorted i j hi hij hj
  · exact reorderLoop_alpha_perm s.nKr s.reverse _
      ({ alpha := s.alpha, kSpace := s.kSpace, r := s.r, i := 0 } : ReorderVars R V) (le_refl _)

/-- Once the whole range is sorted the loop of `reorder` only advances: it
leaves `alpha` and the basis as they are. -/
theorem reorderLoop_sorted (n : Int) (rev : Bool) (fuel : Nat) :
    ∀ s : ReorderVars R V, 0 ≤ s.i → sortedUpTo rev s.alpha n →
      (reorderLoop n rev fuel s).alpha = s.alpha ∧ (reorderLoop n rev fuel s).kSpace = s.kSpace := by
  induction fuel with
  | zero => intro s _ _; exact ⟨rfl, rfl⟩
  | succ fuel ih =>
    intro s hi hs
    by_cases hn : s.i < n
    · have hc : s.i = 0 ∨ inOrder rev (s.alpha (s.i - 1)) (s.alpha s.i) := by
        by_cases h0 : s.i = 0
        · exact Or.inl h0
        · exact Or.inr (hs (s.i - 1) s.i (by omega) (by omega) hn)
      rw [reorderLoop_succ n rev fuel s hn, reorderStep_advance rev s hc]
      exact ih { s with i := s.i + 1 } (by simp; omega) hs
    · rw [reorderLoop_exit n rev _ s hn]
      exact ⟨rfl, rfl⟩

/-- The first three iterations of `reorder` on the example: two advances and
one exchange, which leaves `i = 1`, the Ritz values `1, 2, 3, ..` and the
basis with its cells 0 and 1 exchanged. -/
theorem reorder_example_steps :
    reorderVars 20 false exampleAlpha exampleBasis (0 : ℚ) =
      reorderLoop 20 false 397
        { alpha := Function.update (Function.update exampleAlpha 2 (exampleAlpha 1)) 1 (exampleAlpha 2),
          kSpace := Function.update (Function.update exampleBasis 1 (exampleBasis 0)) 0 (exampleBasis 1),
          r := exampleBasis 1, i := 1 } := by
  have hfuel : ((20 : Int) * 20).toNat = 397 + 1 + 1 + 1 := by decide
  unfold reorderVars
  rw [hfuel, reorderLoop_succ _ _ _ _ (by decide), reorderStep_advance _ _ (Or.inl rfl),
    reorderLoop_succ _ _ _ _ (by decide),
    reorderStep_advance _ _ (Or.inr (by norm_num [inOrder, exampleAlpha])),
    reorderLoop_succ _ _ _ _ (by decide)]
  congr 1

/-- C7 (the code at the failing input): on `alpha = [1, 3, 2, 4, 5, .., 20]`
with `nKr = 20` and the basis vector of index `i` being the rational `i`,
`reorder` exchanges the cells 1 and 2 of `alpha` but the cells 0 and 1 of
`kSpace`: the vector of the Ritz value 2 stays at index 2, where `alpha` now
holds 3, and the vector of the Ritz value 3 sits at index 0, where `alpha`
holds 1. -/
theorem reorder_exchanges_wrong_vectors :
    (reorderVars 20 false exampleAlpha exampleBasis 0).alpha 0 = exampleAlpha 0 ∧
    (reorderVars 20 false exampleAlpha exampleBasis 0).alpha 1 = exampleAlpha 2 ∧
    (reorderVars 20 false exampleAlpha exampleBasis 0).alpha 2 = exampleAlpha 1 ∧
    (reorderVars 20 false exampleAlpha exampleBasis 0).kSpace 0 = exampleBasis 1 ∧
    (reorderVars 20 false exampleAlpha exampleBasis 0).kSpace 1 = exampleBasis 0 ∧
    (reorderVars 20 false exampleAlpha exampleBasis 0).kSpace 2 = exampleBasis 2 ∧
    exampleBasis 2 ≠ exampleBasis 1 := by
  have hval : ∀ p : Int,
      Function.update (Function.update exampleAlpha 2 (exampleAlpha 1)) 1 (exampleAlpha 2) p
        = (p : ℚ) + 1 := by
    intro p
    by_cases h1 : p = 1
    · subst h1; norm_num [exampleAlpha]
    · by_cases h2 : p = 2
      · subst h2; norm_num [Function.update, exampleAlpha]
      · simp [Function.update, exampleAlpha, h1, h2]
  have hsorted : sortedUpTo false
      (Function.update (Function.update exampleAlpha 2 (exampleAlpha 1)) 1 (exampleAlpha 2)) 20 := by
    intro p q _ hpq _
    rw [hval p, hval q]
    simp only [inOrder, Bool.false_eq_true, if_false]
    have : (p : ℚ) ≤ (q : ℚ) := by exact_mod_cast hpq
    linarith
  obtain ⟨ha, hk⟩ := reorderLoop_sorted 20 false 397
    ({ alpha := Function.update (Function.update exampleAlpha 2 (exampleAlpha 1)) 1 (exampleAlpha 2),
       kSpace := Function.update (Function.update exampleBasis 1 (exampleBasis 0)) 0 (exampleBasis 1),
       r := exampleBasis 1, i := 1 } : ReorderVars ℚ ℚ) (by decide) hsorted
  rw [reorder_example_steps, ha, hk]
  norm_num [Function.update, exampleAlpha, exampleBasis]

end reorder

section trlm

variable {R K V : Type} [LinearOrderedField R] [Field K] [AddCommGroup V] [Module K V]

/-- The only abort of `chebyOp` is the one for a zero degree with acceleration
on. -/
theorem chebyOp_ok (B : Blas R K V) (p : QudaEigParam R) (mat : V → V) (x : V)
    (h : ¬ (p.use_poly_acc = true ∧ p.poly_deg = 0)) :
    ∃ c, chebyOp B p mat x = .ok c := by
  unfold chebyOp
  by_cases h1 : p.use_poly_acc = true
  · have h2 : p.poly_deg ≠ 0 := fun h0 => h ⟨h1, h0⟩
    simp only [h1, Bool.not_true, if_neg h2]
    split_ifs <;> exact ⟨_, rfl⟩
  · simp only [Bool.not_eq_true] at h1
    simp [h1]

/-- A zero degree with acceleration on makes `chebyOp` abort. -/
theorem chebyOp_error (B : Blas R K V) (p : QudaEigParam R) (mat : V → V) (x : V)
    (h : p.use_poly_acc = true ∧ p.poly_deg = 0) :
    chebyOp B p mat x = .error "Polynomial acceleration requested with zero polynomial degree" := by
  unfold chebyOp
  simp [h.1, h.2]

/-- A run of at least one Lanczos step that returns has met no zero degree
with acceleration on: the initial factorisation of `nEv >= 1` steps aborts on
such a configuration, and the restart loop is not reached. -/
theorem lanczosSteps_ok_config (E : Env R K V) (lo hi : Int) (s s' : TRLMState R K V)
    (hrange : lo < hi) (hok : lanczosSteps E lo hi s = .ok s') :
    ¬ (s.eig_param.use_poly_acc = true ∧ s.eig_param.poly_deg = 0) := by
  intro h
  unfold lanczosSteps forLoopM at hok
  obtain ⟨n, hn⟩ : ∃ n, (hi - lo).toNat = n + 1 := ⟨(hi - lo).toNat - 1, by omega⟩
  rw [hn, List.range_succ_eq_map, List.foldlM_cons] at hok
  have hstep : lanczosStep E s (lo + ((0 : Nat) : Int))
      = .error "Polynomial acceleration requested with zero polynomial degree" := by
    unfold lanczosStep
    rw [chebyOp_error E.B s.eig_param E.mat _ h]
  simp only [hstep] at hok
  cases hok

/-- A Lanczos step changes `alpha`, `beta`, the basis and the residual vector,
and nothing else. -/
theorem lanczosStep_frame (E : Env R K V) (s : TRLMState R K V) (j : Int)
    (h : ¬ (s.eig_param.use_poly_acc = true ∧ s.eig_param.poly_deg = 0)) :
    ∃ a b k r, lanczosStep E s j = .ok { s with alpha := a, beta := b, kSpace := k, r := r } := by
  obtain ⟨c, hc⟩ := chebyOp_ok E.B s.eig_param E.mat (s.kSpace j) h
  unfold lanczosStep
  rw [hc]
  exact ⟨_, _, _, _, rfl⟩

/-- A run of Lanczos steps changes `alpha`, `beta`, the basis and the residual
vector, and nothing else. -/
theorem lanczosSteps_frame (E : Env R K V) (lo hi : Int) (s : TRLMState R K V)
    (h : ¬ (s.eig_param.use_poly_acc = true ∧ s.eig_param.poly_deg = 0)) :
    ∃ a b k r, lanczosSteps E lo hi s = .ok { s with alpha := a, beta := b, kSpace := k, r := r } := by
  unfold lanczosSteps forLoopM
  generalize List.range (hi - lo).toNat = l
  induction l generalizing s with
  | nil => exact ⟨s.alpha, s.beta, s.kSpace, s.r, rfl⟩
  | cons x l ih =>
    obtain ⟨a, b, k, r, hstep⟩ := lanczosStep_frame E s (lo + (x : Int)) h
    obtain ⟨a', b', k', r', hrest⟩ :=
      ih { s with alpha := a, beta := b, kSpace := k, r := r } h
    refine ⟨a', b', k', r', ?_⟩
    rw [List.foldlM_cons]
    simp only [hstep]
    exact hrest

/-- What the second half of a restart cycle leaves in the counters and
flags. -/
theorem lockAndConverge_control (E : Env R K V) (epsilon : R) (s : TRLMState R K V) :
    (lockAndConverge E epsilon s).restart_iter = s.restart_iter + 1 ∧
    (lockAndConverge E epsilon s).max_restarts = s.max_restarts ∧
    (lockAndConverge E epsilon s).nConv = s.nConv ∧
    (lockAndConverge E epsilon s).eig_param = s.eig_param ∧
    (lockAndConverge E epsilon s).nKr = s.nKr ∧
    (lockAndConverge E epsilon s).nEv = s.nEv ∧
    (lockAndConverge E epsilon s).tol = s.tol ∧
    (lockAndConverge E epsilon s).residua = s.residua ∧
    ((lockAndConverge E epsilon s).converged = true ↔
      (s.converged = true ∨ (lockAndConverge E epsilon s).num_converged ≥ s.nConv)) := by
  unfold lockAndConverge
  dsimp only
  split_ifs with h
  · refine ⟨rfl, rfl, rfl, rfl, rfl, rfl, rfl, rfl, ?_⟩
    constructor
    · intro _; right; exact h
    · intro _; rfl
  · refine ⟨rfl, rfl, rfl, rfl, rfl, rfl, rfl, rfl, ?_⟩
    constructor
    · intro hc; left; exact hc
    · rintro (hc | hc)
      · exact hc
      · exact absurd hc h

/-- The scans and the counters of one restart cycle (lines 591-628), from the
state left by the dense eigensolve. -/
theorem lockAndConverge_counters (E : Env R K V) (epsilon : R) (s : TRLMState R K V) :
    (lockAndConverge E epsilon s).mat_norm =
      forLoop s.num_locked s.nKr
        (fun i mat_norm => if |s.alpha i| > mat_norm then |s.alpha i| else mat_norm) s.mat_norm ∧
    (lockAndConverge E epsilon s).iter_locked =
      thresholdScan s.residua s.num_locked (epsilon * (lockAndConverge E epsilon s).mat_norm)
        (s.nKr - s.num_locked - 1).toNat 1 0 ∧
    (lockAndConverge E epsilon s).iter_converged =
      thresholdScan s.residua s.num_locked (s.tol * (lockAndConverge E epsilon s).mat_norm)
        (s.nKr - s.num_locked - ((lockAndConverge E epsilon s).iter_locked + 1)).toNat
        ((lockAndConverge E epsilon s).iter_locked + 1) (lockAndConverge E epsilon s).iter_locked ∧
    (lockAndConverge E epsilon s).iter_keep =
      min ((lockAndConverge E epsilon s).iter_converged + Int.tdiv (s.nKr - s.num_converged) 2)
        (s.nKr - s.num_locked - 12) ∧
    (lockAndConverge E epsilon s).num_converged =
      s.num_locked + (lockAndConverge E epsilon s).iter_converged ∧
    (lockAndConverge E epsilon s).num_keep =
      s.num_locked + (lockAndConverge E epsilon s).iter_keep ∧
    (lockAndConverge E epsilon s).num_locked =
      s.num_locked + (lockAndConverge E epsilon s).iter_locked := by
  unfold lockAndConverge
  dsimp only
  split_ifs with h <;> exact ⟨rfl, rfl, rfl, rfl, rfl, rfl, rfl⟩

/-- A restart cycle of a solver whose polynomial is well configured does not
abort: it is the second half of the cycle applied to a state that differs from
the entry state in the iteration count and in the arrays only. -/
theorem restartCycle_ok (E : Env R K V) (epsilon : R) (s : TRLMState R K V)
    (h : ¬ (s.eig_param.use_poly_acc = true ∧ s.eig_param.poly_deg = 0)) :
    ∃ s1 : TRLMState R K V, restartCycle E epsilon s = .ok (lockAndConverge E epsilon s1) ∧
      s1.restart_iter = s.restart_iter ∧ s1.max_restarts = s.max_restarts ∧
      s1.nConv = s.nConv ∧ s1.eig_param = s.eig_param ∧ s1.converged = s.converged ∧
      s1.nKr = s.nKr ∧ s1.nEv = s.nEv ∧ s1.tol = s.tol ∧
      s1.num_locked = s.num_locked ∧ s1.num_converged = s.num_converged ∧
      s1.num_keep = s.num_keep ∧ s1.mat_norm = s.mat_norm := by
  obtain ⟨a, b, k, r, hsteps⟩ := lanczosSteps_frame E s.num_keep s.nKr s h
  unfold restartCycle
  rw [hsteps]
  exact ⟨_, rfl, rfl, rfl, rfl, rfl, rfl, rfl, rfl, rfl, rfl, rfl, rfl, rfl⟩

/-- What a threshold scan returns: it never goes below the value it was
entered with, it stays within the range scanned, and every offset it passed
met the threshold. -/
theorem thresholdScan_spec (residua : Int → R) (off : Int) (thr : R) (n : Nat) :
    ∀ i last : Int, last < i →
      last ≤ thresholdScan residua off thr n i last ∧
      thresholdScan residua off thr n i last < i + n ∧
      ∀ k, i ≤ k → k ≤ thresholdScan residua off thr n i last → residua (k + off) < thr := by
  induction n with
  | zero =>
    intro i last h
    refine ⟨le_refl _, by simp [thresholdScan]; omega, ?_⟩
    intro k hk hkl
    simp [thresholdScan] at hkl
    omega
  | succ n ih =>
    intro i last h
    by_cases hc : residua (i + off) < thr
    · obtain ⟨h1, h2, h3⟩ := ih (i + 1) i (by omega)
      simp only [thresholdScan, hc, if_true]
      refine ⟨by omega, by push_cast; omega, ?_⟩
      intro k hk hkl
      by_cases hki : k = i
      · subst hki; exact hc
      · exact h3 k (by omega) hkl
    · simp only [thresholdScan, hc, if_false]
      refine ⟨le_refl _, by push_cast; omega, ?_⟩
      intro k hk hkl
      omega

/-- C3 (amended): in every restart cycle, and so in the one that sets
`converged`, the slots counted beyond the entry value of `num_locked` that were
tested are those of offset `1 <= k <= iter_converged`; the slot
`num_locked + k` has `residua < epsilon * mat_norm` when `k <= iter_locked` and
`residua < tol * mat_norm` when `iter_locked < k`.  The slot of offset `0` is
not tested. -/
theorem converged_slots_below_threshold (E : Env R K V) (epsilon : R) (s : TRLMState R K V)
    (k : Int) (hk1 : 1 ≤ k) (hk : k ≤ (lockAndConverge E epsilon s).iter_converged) :
    (lockAndConverge E epsilon s).num_converged
        = s.num_locked + (lockAndConverge E epsilon s).iter_converged ∧
    (k ≤ (lockAndConverge E epsilon s).iter_locked →
      (lockAndConverge E epsilon s).residua (s.num_locked + k)
        < epsilon * (lockAndConverge E epsilon s).mat_norm) ∧
    ((lockAndConverge E epsilon s).iter_locked < k →
      (lockAndConverge E epsilon s).residua (s.num_locked + k)
        < (lockAndConverge E epsilon s).tol * (lockAndConverge E epsilon s).mat_norm) := by
  obtain ⟨-, -, -, -, -, -, htol, hres, -⟩ := lockAndConverge_control E epsilon s
  obtain ⟨-, hlock, hcv, -, hnc, -, -⟩ := lockAndConverge_counters E epsilon s
  refine ⟨hnc, ?_, ?_⟩
  · intro hkl
    rw [hres, add_comm]
    rw [hlock] at hkl
    exact (thresholdScan_spec s.residua s.num_locked _ _ 1 0 (by omega)).2.2 k hk1 hkl
  · intro hkl
    rw [hres, htol, add_comm]
    rw [hcv] at hk
    exact (thresholdScan_spec s.residua s.num_locked _ _ _ _ (by omega)).2.2 k (by omega) hk

/-- The largest Ritz value of the example is `20`. -/
theorem exampleState_mat_norm :
    (lockAndConverge exampleEnv (precisionEpsilon exampleEnv) exampleState).mat_norm = 20 := by
  rw [(lockAndConverge_counters exampleEnv _ exampleState).1]
  have hr : List.range 20 = [0, 1, 2, 3, 4, 5, 6, 7, 8, 9, 10, 11, 12, 13, 14, 15, 16, 17, 18, 19] := by
    decide
  simp only [forLoop, exampleState, sub_zero, Int.toNat_ofNat, hr, List.foldl]
  norm_num [abs_of_nonneg]

/-- Both scans of the example run to the end of the range. -/
theorem exampleState_scans :
    (lockAndConverge exampleEnv (precisionEpsilon exampleEnv) exampleState).iter_locked = 19 ∧
    (lockAndConverge exampleEnv (precisionEpsilon exampleEnv) exampleState).iter_converged = 19 := by
  have h1 : (lockAndConverge exampleEnv (precisionEpsilon exampleEnv) exampleState).iter_locked
      = 19 := by
    have heps : precisionEpsilon exampleEnv = 1 / 2 ^ 52 := by
      simp [precisionEpsilon, exampleEnv]
    rw [(lockAndConverge_counters exampleEnv _ exampleState).2.1, exampleState_mat_norm, heps]
    norm_num [thresholdScan, exampleState]
  refine ⟨h1, ?_⟩
  rw [(lockAndConverge_counters exampleEnv _ exampleState).2.2.1, h1, exampleState_mat_norm]
  norm_num [thresholdScan, exampleState]

/-- C3 (as stated, refuted): from the example state (`nEv = 10`, `nKr = 20`,
`nConv = 5`, `tol = 1e-10`, residual estimates `1, 1e-20, .., 1e-20`) the
restart cycle sets `converged` with `num_converged = 19`, although slot `0`,
which neither scan reads, has `residua[0] = 1 > tol * mat_norm = 2e-9`. -/
theorem converged_with_untested_slot :
    (lockAndConverge exampleEnv (precisionEpsilon exampleEnv) exampleState).converged = true ∧
    ¬ (∀ i, 0 ≤ i →
        i < (lockAndConverge exampleEnv (precisionEpsilon exampleEnv) exampleState).num_converged →
        (lockAndConverge exampleEnv (precisionEpsilon exampleEnv) exampleState).residua i
          ≤ (lockAndConverge exampleEnv (precisionEpsilon exampleEnv) exampleState).tol
            * (lockAndConverge exampleEnv (precisionEpsilon exampleEnv) exampleState).mat_norm) := by
  obtain ⟨-, -, -, -, -, -, htol, hres, hconv⟩ :=
    lockAndConverge_control exampleEnv (precisionEpsilon exampleEnv) exampleState
  obtain ⟨-, -, -, -, hnc, -, -⟩ :=
    lockAndConverge_counters exampleEnv (precisionEpsilon exampleEnv) exampleState
  have hnum : (lockAndConverge exampleEnv (precisionEpsilon exampleEnv) exampleState).num_converged
      = 19 := by
    rw [hnc, exampleState_scans.2]; rfl
  constructor
  · rw [hconv, hnum]; right; decide
  · intro h
    have h0 := h 0 (le_refl _) (by rw [hnum]; decide)
    rw [hres, htol, exampleState_mat_norm] at h0
    norm_num [exampleState] at h0

/-- C3 (amended), exercised on the example state at offset `k = 1`. -/
theorem converged_slots_below_threshold_witness :
    (1 : Int) ≤ 1 ∧
    (1 : Int) ≤ (lockAndConverge exampleEnv (precisionEpsilon exampleEnv) exampleState).iter_converged ∧
    ((lockAndConverge exampleEnv (precisionEpsilon exampleEnv) exampleState).num_converged
        = exampleState.num_locked
          + (lockAndConverge exampleEnv (precisionEpsilon exampleEnv) exampleState).iter_converged ∧
      ((1 : Int) ≤ (lockAndConverge exampleEnv (precisionEpsilon exampleEnv) exampleState).iter_locked →
        (lockAndConverge exampleEnv (precisionEpsilon exampleEnv) exampleState).residua
            (exampleState.num_locked + 1)
          < precisionEpsilon exampleEnv
            * (lockAndConverge exampleEnv (precisionEpsilon exampleEnv) exampleState).mat_norm) ∧
      ((lockAndConverge exampleEnv (precisionEpsilon exampleEnv) exampleState).iter_locked < 1 →
        (lockAndConverge exampleEnv (precisionEpsilon exampleEnv) exampleState).residua
            (exampleState.num_locked + 1)
          < (lockAndConverge exampleEnv (precisionEpsilon exampleEnv) exampleState).tol
            * (lockAndConverge exampleEnv (precisionEpsilon exampleEnv) exampleState).mat_norm)) :=
  ⟨le_refl _, by rw [exampleState_scans.2]; decide,
    converged_slots_below_threshold exampleEnv (precisionEpsilon exampleEnv) exampleState 1
      (le_refl _) (by rw [exampleState_scans.2]; decide)⟩

/-- A loop over `[lo, lo + n)` with one more iteration. -/
theorem forLoop_succ {σ : Type} (lo : Int) (n : Nat) (body : Int → σ → σ) (s : σ) :
    forLoop lo (lo + (n + 1 : Nat)) body s = body (lo + n) (forLoop lo (lo + n) body s) := by
  simp [forLoop, List.range_succ]

/-- A loop over an empty range does nothing. -/
theorem forLoop_empty {σ : Type} (lo hi : Int) (h : hi ≤ lo) (body : Int → σ → σ) (s : σ) :
    forLoop lo hi body s = s := by
  have : (hi - lo).toNat = 0 := by omega
  simp [forLoop, this]

/-- The function `computeEvals` writes the quotient it computes from
`kSpace[i]` into `evals[i]` for the indices of `[0, size)`, leaves the other
entries of `evals` alone, and leaves the basis alone. -/
theorem computeEvals_spec (E : Env R K V) (s : TRLMState R K V) (size : Int) :
    (computeEvals E s size).kSpace = s.kSpace ∧
    (computeEvals E s size).kSize = s.kSize ∧
    (computeEvals E s size).eig_param = s.eig_param ∧
    ∀ i, (computeEvals E s size).evals i =
      if 0 ≤ i ∧ i < size then
        E.B.cDotProduct (s.kSpace i) (E.mat (s.kSpace i))
          / E.B.ofReal (E.B.sqrt (E.B.norm2 (s.kSpace i)))
      else s.evals i := by
  by_cases hsz : 0 ≤ size
  · obtain ⟨n, rfl⟩ := Int.eq_ofNat_of_zero_le hsz
    unfold computeEvals
    induction n with
    | zero =>
      rw [forLoop_empty 0 _ (by simp)]
      refine ⟨rfl, rfl, rfl, ?_⟩
      intro i
      split_ifs with a
      · exfalso; omega
      · rfl
    | succ n ih =>
      obtain ⟨h1, h2, h4, h3⟩ := ih (by omega)
      have hstep := forLoop_succ (σ := TRLMState R K V) 0 n
      simp only [zero_add] at hstep
      rw [hstep]
      refine ⟨h1, h2, h4, ?_⟩
      intro i
      dsimp only
      have hcond : (0 ≤ i ∧ i < ((n + 1 : Nat) : Int)) ↔ (i = (n : Int) ∨ (0 ≤ i ∧ i < (n : Int))) := by
        clear ih hstep h1 h2 h3 h4
        omega
      by_cases hi : i = (n : Int)
      · rw [if_pos (hcond.mpr (Or.inl hi))]
        subst hi
        rw [Function.update_same, h1]
      · rw [Function.update_noteq hi, h3 i]
        by_cases hr : 0 ≤ i ∧ i < (n : Int)
        · rw [if_pos hr, if_pos (hcond.mpr (Or.inr hr))]
        · rw [if_neg hr, if_neg (fun h => (hcond.mp h).elim hi hr)]
  · unfold computeEvals
    rw [forLoop_empty 0 _ (by omega)]
    refine ⟨rfl, rfl, rfl, ?_⟩
    intro i
    split_ifs with a
    · exfalso; omega
    · rfl

/-- The square root of the rational backend at `1`. -/
theorem ratBlas_sqrt_one : ratBlas.sqrt 1 = 1 := by
  have h := Rat.sqrt_eq 1
  simp only [mul_one, abs_one] at h
  exact h

/-- C4 (as stated, refuted): from the example state (`nEv = 10`, `nKr = 20`,
`nConv = 5`, `converged = true`) the solve hands back a basis of `20`
vectors, more than `nConv = 5`, and has written `evals[9]`, an index beyond
the first `nConv` entries. -/
theorem postProcess_returns_more_than_nConv :
    exampleConverged.converged = true ∧
    (postProcess exampleEnv exampleConverged).kSize = 20 ∧
    ¬ ((postProcess exampleEnv exampleConverged).kSize ≤ exampleConverged.nConv) ∧
    exampleConverged.nConv ≤ 9 ∧
    exampleConverged.evals 9 = 0 ∧
    (postProcess exampleEnv exampleConverged).evals 9 = 2 := by
  have hpost : postProcess exampleEnv exampleConverged
      = computeEvals exampleEnv { exampleConverged with kSize := exampleConverged.nKr }
          exampleConverged.nEv := rfl
  obtain ⟨-, hsize, -, hev⟩ :=
    computeEvals_spec exampleEnv { exampleConverged with kSize := exampleConverged.nKr }
      exampleConverged.nEv
  refine ⟨rfl, ?_, ?_, by decide, rfl, ?_⟩
  · rw [hpost, hsize]; rfl
  · rw [hpost, hsize]; decide
  · rw [hpost, hev 9]
    have h1 : (ratBlas.sqrt (ratBlas.norm2 (1 : ℚ))) = 1 := by
      have : ratBlas.norm2 (1 : ℚ) = 1 := by simp [ratBlas]
      rw [this, ratBlas_sqrt_one]
    have h2 : exampleEnv.B = ratBlas := rfl
    have h3 : exampleConverged.kSpace 9 = 1 := rfl
    have h4 : exampleConverged.nEv = 10 := rfl
    simp only [h2, h3, h4, h1]
    norm_num [ratBlas, exampleEnv]

/-- C4 (amended): the basis handed back holds exactly `nKr` vectors; when
`converged = false` no entry of `evals` is written; when `converged = true`
(and no singular values are asked for) the entries written are the `nEv`
entries `evals[0..nEv)`, each the quotient computed from `kSpace[i]`, and
every other entry is left as it was. -/
theorem postProcess_returns (E : Env R K V) (s : TRLMState R K V) :
    (postProcess E s).kSize = s.nKr ∧
    (s.converged = false → (postProcess E s).evals = s.evals) ∧
    (s.converged = true → s.eig_param.compute_svd = false →
      ∀ i, (postProcess E s).evals i =
        if 0 ≤ i ∧ i < s.nEv then
          E.B.cDotProduct (s.kSpace i) (E.mat (s.kSpace i))
            / E.B.ofReal (E.B.sqrt (E.B.norm2 (s.kSpace i)))
        else s.evals i) := by
  obtain ⟨-, hsize, hparam, hev⟩ := computeEvals_spec E { s with kSize := s.nKr } s.nEv
  unfold postProcess
  dsimp only
  refine ⟨?_, ?_, ?_⟩
  · split_ifs
    · rfl
    · unfold computeSVD; exact hsize
    · exact hsize
  · intro hc; rw [if_pos hc]
  · intro hc hsvd i
    rw [if_neg (by simp [hc]), hparam, if_neg (by simp [hsvd])]
    exact hev i

/-- C4 (amended), exercised on the example state after convergence. -/
theorem postProcess_returns_witness :
    exampleConverged.converged = true ∧ exampleConverged.eig_param.compute_svd = false ∧
    (postProcess exampleEnv exampleConverged).kSize = exampleConverged.nKr ∧
    ∀ i, (postProcess exampleEnv exampleConverged).evals i =
      if 0 ≤ i ∧ i < exampleConverged.nEv then
        exampleEnv.B.cDotProduct (exampleConverged.kSpace i) (exampleEnv.mat (exampleConverged.kSpace i))
          / exampleEnv.B.ofReal (exampleEnv.B.sqrt (exampleEnv.B.norm2 (exampleConverged.kSpace i)))
      else exampleConverged.evals i :=
  ⟨rfl, rfl, (postProcess_returns exampleEnv exampleConverged).1,
    (postProcess_returns exampleEnv exampleConverged).2.2 rfl rfl⟩

/-- C6, exercised on the example state. -/
theorem reorder_sorts_alpha_witness :
    (0 : Int) ≤ 3 ∧ (3 : Int) ≤ 4 ∧ (4 : Int) < exampleState.nKr ∧
    (if exampleState.reverse then (reorder exampleState).alpha 3 ≥ (reorder exampleState).alpha 4
      else (reorder exampleState).alpha 3 ≤ (reorder exampleState).alpha 4) :=
  ⟨by decide, by decide, by decide,
    (reorder_sorts_alpha exampleState).2.1 3 4 (by decide) (by decide) (by decide)⟩

end trlm

section factory

/-- C12: with acceleration on and degree zero `chebyOp` aborts with a
configuration error, whatever the operator (which it has not applied) and
leaving no new content for `out`; with acceleration off it does not abort and
returns `out = A * in`, the operator applied once, whatever the degree. -/
theorem chebyOp_zero_degree_or_plain {R K V : Type} [LinearOrderedField R] [Field K]
    [AddCommGroup V] [Module K V] (B : Blas R K V) (p : QudaEigParam R) (mat : V → V) (inp : V) :
    (p.use_poly_acc = true → p.poly_deg = 0 →
      chebyOp B p mat inp = .error "Polynomial acceleration requested with zero polynomial degree") ∧
    (p.use_poly_acc = false → chebyOp B p mat inp = .ok { out := mat inp, matvecs := 1 }) := by
  constructor
  · intro h1 h2
    unfold chebyOp
    simp [h1, h2]
  · intro h1
    unfold chebyOp
    simp [h1]

/-- C12, exercised on a configuration of degree zero with acceleration on and
on one with acceleration off. -/
theorem chebyOp_zero_degree_or_plain_witness :
    (exampleChebyParam 0 1 3).use_poly_acc = true ∧ (exampleChebyParam 0 1 3).poly_deg = 0 ∧
    chebyOp ratBlas (exampleChebyParam 0 1 3) (fun x => 2 * x) (1 : ℚ)
      = .error "Polynomial acceleration requested with zero polynomial degree" ∧
    (exampleParam 1 7 1 QUDA_EIG_LANCZOS QUDA_SPECTRUM_SR_EIG).use_poly_acc = false ∧
    chebyOp ratBlas (exampleParam 1 7 1 QUDA_EIG_LANCZOS QUDA_SPECTRUM_SR_EIG) (fun x => 2 * x) (1 : ℚ)
      = .ok { out := (fun x => 2 * x) (1 : ℚ), matvecs := 1 } :=
  ⟨rfl, rfl,
    (chebyOp_zero_degree_or_plain ratBlas (exampleChebyParam 0 1 3) (fun x => 2 * x) 1).1 rfl rfl,
    rfl,
    (chebyOp_zero_degree_or_plain ratBlas
      (exampleParam 1 7 1 QUDA_EIG_LANCZOS QUDA_SPECTRUM_SR_EIG) (fun x => 2 * x) 1).2 rfl⟩

/-- C14: the factory hands back the solver built by the constructor of `TRLM`
when the configured type is `QUDA_EIG_LANCZOS` and the one built by the
constructor of `JD` when it is `QUDA_EIG_JD` (an abort of the constructor is
the abort of the factory), and it aborts with a configuration error, returning
no solver, for `QUDA_EIG_ARNOLDI` and for every other value of the type. -/
theorem create_dispatch {R : Type} [Zero R] (p : QudaEigParam R)
    (fresh freshAlpha freshBeta : Int → R) :
    (p.eig_type = QUDA_EIG_LANCZOS →
      (∀ solver, TRLM.TRLM p fresh freshAlpha freshBeta = .ok solver →
        EigenSolver.create p fresh freshAlpha freshBeta = .ok (.TRLM solver)) ∧
      (∀ e, TRLM.TRLM p fresh freshAlpha freshBeta = .error e →
        EigenSolver.create p fresh freshAlpha freshBeta = .error e)) ∧
    (p.eig_type = QUDA_EIG_JD →
      (∀ solver, JD.JD p fresh = .ok solver →
        EigenSolver.create p fresh freshAlpha freshBeta = .ok (.JD solver)) ∧
      (∀ e, JD.JD p fresh = .error e →
        EigenSolver.create p fresh freshAlpha freshBeta = .error e)) ∧
    (p.eig_type = QUDA_EIG_ARNOLDI →
      EigenSolver.create p fresh freshAlpha freshBeta = .error "Arnoldi not implemented") ∧
    (∀ code, p.eig_type = .other code →
      EigenSolver.create p fresh freshAlpha freshBeta = .error "Invalid eig solver type") := by
  refine ⟨?_, ?_, ?_, ?_⟩
  · intro h
    constructor
    · intro solver hs
      simp only [EigenSolver.create, h, hs]
    · intro e hs
      simp only [EigenSolver.create, h, hs]
  · intro h
    constructor
    · intro solver hs
      simp only [EigenSolver.create, h, hs]
    · intro e hs
      simp only [EigenSolver.create, h, hs]
  · intro h
    simp only [EigenSolver.create, h]
  · intro code h
    simp only [EigenSolver.create, h]

/-- C14, exercised on an accepted Lanczos configuration: the factory returns
a solver, and it is the one of `TRLM`. -/
theorem create_dispatch_witness :
    (exampleParam 1 7 1 QUDA_EIG_LANCZOS QUDA_SPECTRUM_SR_EIG).eig_type = QUDA_EIG_LANCZOS ∧
    ∃ solver,
      TRLM.TRLM (exampleParam 1 7 1 QUDA_EIG_LANCZOS QUDA_SPECTRUM_SR_EIG)
        (fun _ => 0) (fun _ => 0) (fun _ => 0) = .ok solver ∧
      EigenSolver.create (exampleParam 1 7 1 QUDA_EIG_LANCZOS QUDA_SPECTRUM_SR_EIG)
        (fun _ => 0) (fun _ => 0) (fun _ => 0) = .ok (.TRLM solver) := by
  refine ⟨rfl, ?_⟩
  have hok : ∃ solver, TRLM.TRLM (exampleParam 1 7 1 QUDA_EIG_LANCZOS QUDA_SPECTRUM_SR_EIG)
      (fun _ => 0) (fun _ => 0) (fun _ => 0) = .ok solver := by
    simp [TRLM.TRLM, EigenSolver.EigenSolver, exampleParam]
  obtain ⟨solver, hs⟩ := hok
  exact ⟨solver, hs,
    ((create_dispatch (exampleParam 1 7 1 QUDA_EIG_LANCZOS QUDA_SPECTRUM_SR_EIG)
      (fun _ => 0) (fun _ => 0) (fun _ => 0)).1 rfl).1 solver hs⟩

end factory

section chebyshev

variable {R K V : Type} [LinearOrderedField R] [Field K] [AddCommGroup V] [Module K V]

/-- The recursion of `chebyOp` entered on the members `m` and `m + 1` of the
recurrence of the specification leaves, after `n` iterations, the members
`m + n` and `m + n + 1`, having applied the operator `n` more times. -/
theorem chebyLoop_recurrence (B : Blas R K V) (mat : V → V) (a_min a_max : R) (inp : V)
    (n : Nat) : ∀ (m c : Nat),
    chebyLoop B mat ((a_max - a_min) / 2) ((a_max + a_min) / 2)
        (-((a_max - a_min) / 2) / ((a_max + a_min) / 2)) n
        { sigma_old := specChebySigma (-((a_max - a_min) / 2) / ((a_max + a_min) / 2)) m,
          tmp1 := (specChebyPair B mat a_min a_max inp m).1,
          tmp2 := (specChebyPair B mat a_min a_max inp m).2,
          out := (specChebyPair B mat a_min a_max inp m).2,
          matvecs := c }
      = { sigma_old := specChebySigma (-((a_max - a_min) / 2) / ((a_max + a_min) / 2)) (m + n),
          tmp1 := (specChebyPair B mat a_min a_max inp (m + n)).1,
          tmp2 := (specChebyPair B mat a_min a_max inp (m + n)).2,
          out := (specChebyPair B mat a_min a_max inp (m + n)).2,
          matvecs := c + n } := by
  induction n with
  | zero => intro m c; rfl
  | succ n ih =>
    intro m c
    have hstep : chebyStep B mat ((a_max - a_min) / 2) ((a_max + a_min) / 2)
        (-((a_max - a_min) / 2) / ((a_max + a_min) / 2))
        { sigma_old := specChebySigma (-((a_max - a_min) / 2) / ((a_max + a_min) / 2)) m,
          tmp1 := (specChebyPair B mat a_min a_max inp m).1,
          tmp2 := (specChebyPair B mat a_min a_max inp m).2,
          out := (specChebyPair B mat a_min a_max inp m).2,
          matvecs := c }
        = { sigma_old := specChebySigma (-((a_max - a_min) / 2) / ((a_max + a_min) / 2)) (m + 1),
            tmp1 := (specChebyPair B mat a_min a_max inp (m + 1)).1,
            tmp2 := (specChebyPair B mat a_min a_max inp (m + 1)).2,
            out := (specChebyPair B mat a_min a_max inp (m + 1)).2,
            matvecs := c + 1 } := by
      simp only [chebyStep, specChebyPair, specChebySigma, blas.ax, blas.cxpaypbz, blas.copy]
      congr 1 <;> abel
    rw [chebyLoop, hstep, ih (m + 1) (c + 1)]
    congr 1 <;> ring_nf

/-- What `chebyOp` computes for a degree `d + 2`: the loop
`for (i = 2; i < poly_deg; i++)` runs `d` times from the member of degree one,
so the result is the member of degree `d + 1 = poly_deg - 1` of the
recurrence, the operator having been applied `d + 1` times. -/
theorem chebyOp_recurrence_member (B : Blas R K V) (p : QudaEigParam R) (mat : V → V) (inp : V)
    (d : Nat) (hacc : p.use_poly_acc = true) (hdeg : p.poly_deg = (d : Int) + 2) :
    chebyOp B p mat inp =
      .ok { out := specChebyPoly B mat p.a_min p.a_max inp (d + 1), matvecs := d + 1 } := by
  have h0 : p.poly_deg ≠ 0 := by omega
  have h1 : p.poly_deg ≠ 1 := by omega
  have hn : (p.poly_deg - 2).toNat = d := by omega
  have hloop := chebyLoop_recurrence B mat p.a_min p.a_max inp d 0 1
  simp only [specChebyPair, specChebySigma, Nat.zero_add] at hloop
  unfold chebyOp
  simp only [hacc, Bool.not_true, if_neg h0, if_neg h1, hn, blas.caxpby, blas.copy]
  simp only [Bool.false_eq_true, if_false]
  rw [hloop]
  simp only [specChebyPoly, specChebyPair]
  congr 2
  ring

/-- C11 (the code at the failing input): with acceleration on, the interval
`[1, 3]`, the operator `x -> 3 x` and the input `1`, a requested degree of `2`
returns what a requested degree of `1` returns, the member `p_1(A) in = -1/2`
of the recurrence after one application of the operator, and not the member
`p_2(A) in = 1/7`: the loop `for (i = 2; i < poly_deg; i++)` has not run. -/
theorem chebyOp_degree_two_returns_degree_one :
    chebyOp ratBlas (exampleChebyParam 2 1 3) (fun x => 3 * x) (1 : ℚ)
      = .ok { out := -1 / 2, matvecs := 1 } ∧
    chebyOp ratBlas (exampleChebyParam 2 1 3) (fun x => 3 * x) (1 : ℚ)
      = chebyOp ratBlas (exampleChebyParam 1 1 3) (fun x => 3 * x) (1 : ℚ) ∧
    specChebyPoly ratBlas (fun x => 3 * x) 1 3 (1 : ℚ) 1 = -1 / 2 ∧
    specChebyPoly ratBlas (fun x => 3 * x) 1 3 (1 : ℚ) 2 = 1 / 7 := by
  have h2 := chebyOp_recurrence_member ratBlas (exampleChebyParam 2 1 3) (fun x => 3 * x) (1 : ℚ) 0
    rfl rfl
  have hp1 : specChebyPoly ratBlas (fun x => 3 * x) 1 3 (1 : ℚ) 1 = -1 / 2 := by
    norm_num [specChebyPoly, specChebyPair, ratBlas]
  have hp2 : specChebyPoly ratBlas (fun x => 3 * x) 1 3 (1 : ℚ) 2 = 1 / 7 := by
    norm_num [specChebyPoly, specChebyPair, specChebySigma, ratBlas]
  have ha : (exampleChebyParam 2 1 3).a_min = 1 := rfl
  have hb : (exampleChebyParam 2 1 3).a_max = 3 := rfl
  rw [ha, hb] at h2
  simp only [Nat.zero_add, hp1] at h2
  refine ⟨h2, ?_, hp1, hp2⟩
  rw [h2]
  unfold chebyOp
  norm_num [exampleChebyParam, exampleParam, blas.caxpby, ratBlas]

end chebyshev

section orthogonalization

variable {R K V : Type} [LinearOrderedField R] [Field K] [AddCommGroup V] [Module K V]

/-- A loop that appends one entry per iteration builds the list of the
entries. -/
theorem foldl_append_singleton {α β : Type} (f : β → α) (xs : List β) (init : List α) :
    xs.foldl (fun l k => l ++ [f k]) init = init ++ xs.map f := by
  induction xs generalizing init with
  | nil => simp
  | cons x xs ih => simp [ih]

/-- Accumulating with `+=` from `a` adds the sum of the list to `a`. -/
theorem foldl_add_eq_sum {α : Type} [AddCommMonoid α] (l : List α) (a : α) :
    l.foldl (fun acc x => acc + x) a = a + l.sum := by
  induction l generalizing a with
  | nil => simp
  | cons x xs ih => simp [ih, add_assoc]

/-- Coefficients computed from the vectors they multiply. -/
theorem zipWith_map_self {α β γ : Type} (f : β → α → γ) (g : α → β) (l : List α) :
    List.zipWith f (l.map g) l = l.map fun x => f (g x) x := by
  induction l with
  | nil => rfl
  | cons x xs ih => simp [ih]

/-- The block form in closed form: all the inner products are those of the
vector `rvec` it was entered with, and `j + 1` vectors take part. -/
theorem blockOrthogonalize_eq (B : Blas R K V) (vecs : Int → V) (rvec : V) (j : Int) :
    blockOrthogonalize B vecs rvec j =
      (rvec + ((List.range (j + 1).toNat).map fun (k : Nat) =>
          (B.cDotProduct (vecs k) rvec * (-1)) • vecs k).sum,
        ((List.range (j + 1).toNat).map fun (k : Nat) => B.cDotProduct (vecs k) rvec).sum) := by
  unfold blockOrthogonalize
  simp only [forLoop, sub_zero, zero_add, foldl_append_singleton, List.nil_append,
    blas.blockCDotProduct, blas.blockCaxpy, List.map_map, foldl_add_eq_sum]
  refine Prod.ext ?_ ?_
  · simp only
    congr 1
    have := zipWith_map_self (fun (si : K) (xi : V) => si • xi)
      (fun x => B.cDotProduct x rvec * (-1)) ((List.range (j + 1).toNat).map fun (k : Nat) => vecs k)
    simp only [List.map_map] at this
    exact congrArg List.sum this
  · simp only
    rfl

/-- An inner product that is linear in its second argument does not see the
multiples of vectors orthogonal to its first argument. -/
theorem cDotProduct_add_sum (B : Blas R K V)
    (hadd : ∀ x y z, B.cDotProduct x (y + z) = B.cDotProduct x y + B.cDotProduct x z)
    (hsmul : ∀ x (a : K) y, B.cDotProduct x (a • y) = a * B.cDotProduct x y)
    (x y : V) (a : Nat → K) (v : Nat → V) (l : List Nat)
    (h : ∀ k ∈ l, B.cDotProduct x (v k) = 0) :
    B.cDotProduct x (y + (l.map fun k => a k • v k).sum) = B.cDotProduct x y := by
  induction l generalizing y with
  | nil =>
    have h0 : B.cDotProduct x (0 : V) = 0 := by
      have := hsmul x 0 (0 : V)
      simpa using this
    simp [hadd, h0]
  | cons k l ih =>
    have hk : B.cDotProduct x (v k) = 0 := h k (List.mem_cons_self _ _)
    have hrest := ih (y + a k • v k) (fun k' hk' => h k' (List.mem_cons_of_mem _ hk'))
    simp only [List.map_cons, List.sum_cons]
    rw [← add_assoc, hrest, hadd, hsmul, hk, mul_zero, add_zero]

/-- The sequential form in closed form, when the inner product is linear in
its second argument and each vector is orthogonal to the earlier ones. -/
theorem orthogonalize_eq (B : Blas R K V) (vecs : Int → V) (rvec : V)
    (hadd : ∀ x y z, B.cDotProduct x (y + z) = B.cDotProduct x y + B.cDotProduct x z)
    (hsmul : ∀ x (a : K) y, B.cDotProduct x (a • y) = a * B.cDotProduct x y)
    (n : Nat)
    (horth : ∀ i k : Nat, k < i → i < n → B.cDotProduct (vecs i) (vecs k) = 0) :
    orthogonalize B vecs rvec n =
      (rvec + ((List.range n).map fun (k : Nat) =>
          (B.cDotProduct (vecs k) rvec * (-1)) • vecs k).sum,
        ((List.range n).map fun (k : Nat) => B.cDotProduct (vecs k) rvec).sum) := by
  unfold orthogonalize
  induction n with
  | zero => simp [forLoop]
  | succ n ih =>
    have hprev := ih (fun i k hki hin => horth i k hki (by omega))
    have hstep := forLoop_succ (σ := V × K) 0 n
    simp only [zero_add] at hstep
    rw [hstep, hprev]
    have hdot : B.cDotProduct (vecs n)
        (rvec + ((List.range n).map fun (k : Nat) =>
          (B.cDotProduct (vecs k) rvec * (-1)) • vecs k).sum)
        = B.cDotProduct (vecs n) rvec :=
      cDotProduct_add_sum B hadd hsmul (vecs n) rvec
        (fun k => B.cDotProduct (vecs k) rvec * (-1)) (fun k => vecs k) (List.range n)
        (fun k hk => horth n k (List.mem_range.mp hk) (by omega))
    refine Prod.ext ?_ ?_
    · simp only [hdot, blas.caxpy, List.range_succ, List.map_append, List.sum_append,
        List.map_cons, List.map_nil, List.sum_cons, List.sum_nil, add_zero]
      rw [neg_smul, mul_neg, mul_one, neg_smul]
      abel
    · simp only [hdot, List.range_succ, List.map_append, List.sum_append, List.map_cons,
        List.map_nil, List.sum_cons, List.sum_nil, add_zero]

/-- C13 (as stated, refuted): on the orthonormal basis of the plane, with
`r = (1, 1)` and `j = 1`, the sequential form removes the projection on
`vecs[0]` alone and leaves `r = (0, 1)` with the sum `1`, while the block form
removes the projections on `vecs[0]` and `vecs[1]` and leaves `r = (0, 0)`
with the sum `2`; the sequential form over the same two vectors (`j = 2`)
agrees with the block form. -/
theorem orthogonalize_ne_blockOrthogonalize :
    orthogonalize planeBlas planeBasis (1, 1) 1 = ((0, 1), 1) ∧
    blockOrthogonalize planeBlas planeBasis (1, 1) 1 = ((0, 0), 2) ∧
    orthogonalize planeBlas planeBasis (1, 1) 2 = ((0, 0), 2) ∧
    orthogonalize planeBlas planeBasis (1, 1) 1 ≠ blockOrthogonalize planeBlas planeBasis (1, 1) 1 := by
  have h1 : orthogonalize planeBlas planeBasis (1, 1) 1 = ((0, 1), 1) := by
    have hr : List.range 1 = [0] := by decide
    simp [orthogonalize, forLoop, hr, blas.caxpy, planeBlas, planeBasis]
    apply Prod.ext <;> norm_num
  have h2 : orthogonalize planeBlas planeBasis (1, 1) 2 = ((0, 0), 2) := by
    have hr : List.range 2 = [0, 1] := by decide
    simp [orthogonalize, forLoop, hr, blas.caxpy, planeBlas, planeBasis]
    refine ⟨?_, by norm_num⟩
    apply Prod.ext <;> norm_num
  have h3 : blockOrthogonalize planeBlas planeBasis (1, 1) 1 = ((0, 0), 2) := by
    rw [blockOrthogonalize_eq]
    have hr : List.range ((1 : Int) + 1).toNat = [0, 1] := by decide
    rw [hr]
    norm_num [planeBlas, planeBasis]
    apply Prod.ext <;> norm_num
  refine ⟨h1, h3, h2, ?_⟩
  rw [h1, h3]
  intro h
  have := congrArg Prod.snd h
  norm_num at this

/-- A loop from `0` runs as many times as the natural number its bound
truncates to. -/
theorem forLoop_toNat {σ : Type} (hi : Int) (body : Int → σ → σ) (s : σ) :
    forLoop 0 hi body s = forLoop 0 (hi.toNat : Int) body s := by
  have h : (((hi.toNat : Int)) - 0).toNat = (hi - 0).toNat := by omega
  unfold forLoop
  rw [h]

/-- C13 (amended): when the inner product is linear in its second argument
and each of the vectors `vecs[0..j]` is orthogonal to the earlier ones, the
block form `blockOrthogonalize(vecs, r, j)` and the sequential form over the
same `j + 1` vectors, `orthogonalize(vecs, r, j + 1)`, leave the same vector
in `r` and return the same sum. -/
theorem blockOrthogonalize_eq_orthogonalize (B : Blas R K V) (vecs : Int → V) (rvec : V) (j : Int)
    (hadd : ∀ x y z, B.cDotProduct x (y + z) = B.cDotProduct x y + B.cDotProduct x z)
    (hsmul : ∀ x (a : K) y, B.cDotProduct x (a • y) = a * B.cDotProduct x y)
    (horth : ∀ i k : Int, 0 ≤ k → k < i → i ≤ j → B.cDotProduct (vecs i) (vecs k) = 0) :
    blockOrthogonalize B vecs rvec j = orthogonalize B vecs rvec (j + 1) := by
  have hseq := orthogonalize_eq B vecs rvec hadd hsmul (j + 1).toNat
    (fun i k hki hin => horth i k (by omega) (by omega) (by omega))
  have hcast : orthogonalize B vecs rvec (j + 1)
      = orthogonalize B vecs rvec ((j + 1).toNat : Int) := by
    unfold orthogonalize
    exact forLoop_toNat _ _ _
  rw [hcast, hseq, blockOrthogonalize_eq]

/-- C13 (amended), exercised on the basis `1, 0, 0, ..` of the rationals with
`r = 5` and `j = 1`. -/
theorem blockOrthogonalize_eq_orthogonalize_witness :
    (∀ x y z : ℚ, ratBlas.cDotProduct x (y + z) = ratBlas.cDotProduct x y + ratBlas.cDotProduct x z) ∧
    (∀ (x a y : ℚ), ratBlas.cDotProduct x (a • y) = a * ratBlas.cDotProduct x y) ∧
    (∀ i k : Int, 0 ≤ k → k < i → i ≤ 1 →
      ratBlas.cDotProduct ((fun q : Int => if q = 0 then (1 : ℚ) else 0) i)
        ((fun q : Int => if q = 0 then (1 : ℚ) else 0) k) = 0) ∧
    blockOrthogonalize ratBlas (fun q : Int => if q = 0 then (1 : ℚ) else 0) 5 1
      = orthogonalize ratBlas (fun q : Int => if q = 0 then (1 : ℚ) else 0) 5 (1 + 1) := by
  have hadd : ∀ x y z : ℚ,
      ratBlas.cDotProduct x (y + z) = ratBlas.cDotProduct x y + ratBlas.cDotProduct x z := by
    intro x y z; simp [ratBlas]; ring
  have hsmul : ∀ (x a y : ℚ), ratBlas.cDotProduct x (a • y) = a * ratBlas.cDotProduct x y := by
    intro x a y; simp [ratBlas]; ring
  have horth : ∀ i k : Int, 0 ≤ k → k < i → i ≤ 1 →
      ratBlas.cDotProduct ((fun q : Int => if q = 0 then (1 : ℚ) else 0) i)
        ((fun q : Int => if q = 0 then (1 : ℚ) else 0) k) = 0 := by
    intro i k hk hki hi
    have : i ≠ 0 := by omega
    simp [ratBlas, this]
  exact ⟨hadd, hsmul, horth,
    blockOrthogonalize_eq_orthogonalize ratBlas _ 5 1 hadd hsmul horth⟩

end orthogonalization

section postprocessing

/-- The norm of the rational backend is the absolute value. -/
theorem ratBlas_sqrt_norm2 (x : ℚ) : ratBlas.sqrt (ratBlas.norm2 x) = |x| :=
  Rat.sqrt_eq x

/-- C15 (the code at the failing input): for the vector `v = 2` of norm `2`
and the operator `x -> 2 x`, `computeEvals` divides `<v, A v> = 8` by the norm
`sqrt(norm2(v)) = 2` and stores `evals[0] = 4`, where the Rayleigh quotient
`<v, A v> / <v, v>` is `2`; it then stores `residua[0] = 4`, where the norm of
`A v - 2 v` is `0`.  The vector is left as it was. -/
theorem computeEvals_divides_by_norm :
    (computeEvals exampleEnv exampleUnnormalised 1).evals 0 = 4 ∧
    exampleEnv.B.cDotProduct (exampleUnnormalised.kSpace 0)
        (exampleEnv.mat (exampleUnnormalised.kSpace 0))
      / exampleEnv.B.cDotProduct (exampleUnnormalised.kSpace 0) (exampleUnnormalised.kSpace 0) = 2 ∧
    (computeEvals exampleEnv exampleUnnormalised 1).residua 0 = 4 ∧
    exampleEnv.B.sqrt (exampleEnv.B.norm2
      (exampleEnv.mat (exampleUnnormalised.kSpace 0) - 2 * exampleUnnormalised.kSpace 0)) = 0 ∧
    (computeEvals exampleEnv exampleUnnormalised 1).kSpace 0 = exampleUnnormalised.kSpace 0 := by
  have hk : exampleUnnormalised.kSpace 0 = 2 := rfl
  have hB : exampleEnv.B = ratBlas := rfl
  have hmat : exampleEnv.mat (2 : ℚ) = 4 := by norm_num [exampleEnv]
  have hrun : computeEvals exampleEnv exampleUnnormalised 1 =
      { exampleUnnormalised with
        r := blas.caxpby
          (exampleEnv.B.cDotProduct (2 : ℚ) (exampleEnv.mat 2)
            / exampleEnv.B.ofReal (exampleEnv.B.sqrt (exampleEnv.B.norm2 (2 : ℚ))))
          (2 : ℚ) (exampleEnv.B.ofReal (-1)) (exampleEnv.mat 2)
        evals := Function.update exampleUnnormalised.evals 0
          (exampleEnv.B.cDotProduct (2 : ℚ) (exampleEnv.mat 2)
            / exampleEnv.B.ofReal (exampleEnv.B.sqrt (exampleEnv.B.norm2 (2 : ℚ))))
        residua := Function.update exampleUnnormalised.residua 0
          (exampleEnv.B.sqrt (exampleEnv.B.norm2 (blas.caxpby
            (exampleEnv.B.cDotProduct (2 : ℚ) (exampleEnv.mat 2)
              / exampleEnv.B.ofReal (exampleEnv.B.sqrt (exampleEnv.B.norm2 (2 : ℚ))))
            (2 : ℚ) (exampleEnv.B.ofReal (-1)) (exampleEnv.mat 2)))) } := by
    have hr : List.range 1 = [0] := by decide
    simp [computeEvals, forLoop, hr, hk]
  have hval : exampleEnv.B.cDotProduct (2 : ℚ) (exampleEnv.mat 2)
      / exampleEnv.B.ofReal (exampleEnv.B.sqrt (exampleEnv.B.norm2 (2 : ℚ))) = 4 := by
    rw [hB, ratBlas_sqrt_norm2, hmat]
    norm_num [ratBlas]
  rw [hrun, hval]
  refine ⟨by simp, ?_, ?_, ?_, rfl⟩
  · rw [hk, hB, hmat]; norm_num [ratBlas]
  · simp only [Function.update_same]
    rw [hB, hmat]
    have h4 : blas.caxpby (4 : ℚ) (2 : ℚ) (ratBlas.ofReal (-1)) (4 : ℚ) = 4 := by
      norm_num [blas.caxpby, ratBlas]
    rw [h4, ratBlas_sqrt_norm2]
    norm_num
  · rw [hk, hB, hmat]
    have h0 : (4 : ℚ) - 2 * 2 = 0 := by norm_num
    rw [h0, ratBlas_sqrt_norm2]
    simp

end postprocessing

section singular

variable {R K V : Type} [LinearOrderedField R] [Field K] [AddCommGroup V] [Module K V]

/-- The first loop of `computeSVD` after `n` of its `h` iterations: the cells
`h .. h + n - 1` hold the scaled images of the cells `0 .. n - 1`, every other
cell is as it was, and `sigma_tmp[0..n)` holds the recovered values. -/
theorem computeSVD_first_loop (E : Env R K V) (k0 : Int → V) (h n : Nat) (hn : n ≤ h) :
    forLoop 0 (n : Int)
      (fun i (st : (Int → V) × (Int → K)) =>
        let evecs := Function.update st.1 ((h : Int) + i) (E.M (st.1 i))
        let sigma_sq := E.B.cDotProduct (evecs ((h : Int) + i)) (evecs ((h : Int) + i))
        let sigma_tmp := Function.update st.2 i
          (E.B.complex (E.B.sqrt (E.B.real sigma_sq)) (E.B.sqrt |E.B.imag sigma_sq|))
        let norm := E.B.sqrt (E.B.norm2 (evecs ((h : Int) + i)))
        let evecs := Function.update evecs ((h : Int) + i) (blas.ax E.B (1 / norm) (evecs ((h : Int) + i)))
        (evecs, sigma_tmp))
      (k0, fun _ => 0)
    = (fun q => if (h : Int) ≤ q ∧ q < (h : Int) + n then svdLeft E (k0 (q - h)) else k0 q,
       fun i => if 0 ≤ i ∧ i < (n : Int) then svdSigma E (k0 i) else 0) := by
  induction n with
  | zero =>
    rw [forLoop_empty 0 _ (by simp)]
    refine Prod.ext ?_ ?_
    · funext q
      simp only
      rw [if_neg (by clear * -; push_cast; omega)]
    · funext i
      simp only
      rw [if_neg (by clear * -; push_cast; omega)]
  | succ n ih =>
    have hprev := ih (by omega)
    have hstep := forLoop_succ (σ := (Int → V) × (Int → K)) 0 n
    simp only [zero_add] at hstep
    rw [hstep, hprev]
    have hread : (if (h : Int) ≤ (n : Int) ∧ (n : Int) < (h : Int) + n then
        svdLeft E (k0 ((n : Int) - h)) else k0 n) = k0 n := by
      rw [if_neg (by clear * - hn; omega)]
    refine Prod.ext ?_ ?_
    · funext q
      simp only [Function.update_same, Function.update_idem, hread]
      by_cases hq : q = (h : Int) + n
      · subst hq
        rw [Function.update_same, if_pos (by clear * -; push_cast; omega)]
        simp only [svdLeft, add_sub_cancel_left]
      · rw [Function.update_noteq hq]
        by_cases hc : (h : Int) ≤ q ∧ q < (h : Int) + n
        · rw [if_pos hc, if_pos (by clear * - hc; push_cast; omega)]
        · rw [if_neg hc, if_neg (by clear * - hc hq; push_cast; omega)]
    · funext i
      simp only [Function.update_same, hread]
      by_cases hi : i = (n : Int)
      · subst hi
        rw [Function.update_same, if_pos (by clear * -; push_cast; omega)]
        rfl
      · rw [Function.update_noteq hi]
        by_cases hc : 0 ≤ i ∧ i < (n : Int)
        · rw [if_pos hc, if_pos (by clear * - hc; push_cast; omega)]
        · rw [if_neg hc, if_neg (by clear * - hc hi; push_cast; omega)]

/-- The second loop of `computeSVD` after `n` iterations: the value of index
`i` is stored in the two adjacent entries `2 i` and `2 i + 1` of `evals`. -/
theorem computeSVD_second_loop {α : Type} (sigma_tmp evals0 : Int → α) (n : Nat) :
    forLoop 0 (n : Int)
      (fun i evals =>
        let evals := Function.update evals (2 * i + 0) (sigma_tmp i)
        Function.update evals (2 * i + 1) (sigma_tmp i))
      evals0
    = fun q => if 0 ≤ q ∧ q < 2 * (n : Int) then sigma_tmp (q / 2) else evals0 q := by
  induction n with
  | zero =>
    rw [forLoop_empty 0 _ (by simp)]
    funext q
    rw [if_neg (by clear * -; push_cast; omega)]
  | succ n ih =>
    have hstep := forLoop_succ (σ := Int → α) 0 n
    simp only [zero_add] at hstep
    rw [hstep, ih]
    funext q
    by_cases h1 : q = 2 * (n : Int) + 1
    · subst h1
      rw [Function.update_same, if_pos (by clear * -; push_cast; omega)]
      congr 1
      clear * -
      omega
    · rw [Function.update_noteq h1]
      by_cases h0 : q = 2 * (n : Int) + 0
      · subst h0
        rw [Function.update_same, if_pos (by clear * -; push_cast; omega)]
        congr 1
        clear * -
        omega
      · rw [Function.update_noteq h0]
        by_cases hc : 0 ≤ q ∧ q < 2 * (n : Int)
        · rw [if_pos hc, if_pos (by clear * - hc; push_cast; omega)]
        · rw [if_neg hc, if_neg (by clear * - hc h0 h1; push_cast; omega)]

/-- What `computeSVD` leaves in the basis and in `evals`, `h` being
`nConv / 2`: the cells `h .. 2 h - 1` of the basis hold the scaled images of
the cells `0 .. h - 1`, and the entries `2 i` and `2 i + 1` of `evals` hold
the value recovered from the cell `i`. -/
theorem computeSVD_spec (E : Env R K V) (s : TRLMState R K V) (h : Nat)
    (hh : Int.tdiv s.eig_param.nConv 2 = h) :
    (computeSVD E s).kSpace
      = (fun q => if (h : Int) ≤ q ∧ q < (h : Int) + h then svdLeft E (s.kSpace (q - h))
          else s.kSpace q) ∧
    (computeSVD E s).evals
      = (fun q => if 0 ≤ q ∧ q < 2 * (h : Int) then svdSigma E (s.kSpace (q / 2))
          else s.evals q) := by
  have h1 := computeSVD_first_loop E s.kSpace h h le_rfl
  have h2 := computeSVD_second_loop
    (fun i => if 0 ≤ i ∧ i < (h : Int) then svdSigma E (s.kSpace i) else 0) s.evals h
  dsimp only at h1 h2
  unfold computeSVD
  dsimp only
  rw [hh, h1]
  refine ⟨rfl, ?_⟩
  dsimp only
  rw [h2]
  funext q
  by_cases hc : 0 ≤ q ∧ q < 2 * (h : Int)
  · rw [if_pos hc, if_pos hc, if_pos (by clear * - hc; omega)]
  · rw [if_neg hc, if_neg hc]

/-- The value recovered for the first unit vector of the plane under
`diag(1, 2)` is 1. -/
theorem planeEnv_sigma_first : svdSigma planeEnv ((1, 0) : ℚ × ℚ) = 1 := by
  have h := Rat.sqrt_eq 1
  norm_num at h
  simp [svdSigma, planeEnv, planeBlas, h]

/-- The value recovered for the second unit vector of the plane under
`diag(1, 2)` is 2. -/
theorem planeEnv_sigma_second : svdSigma planeEnv ((0, 1) : ℚ × ℚ) = 2 := by
  have h := Rat.sqrt_eq 2
  norm_num at h
  simp only [svdSigma, planeEnv, planeBlas]
  norm_num [h]

/-- C16, counterexample: on the plane with the factor `diag(1, 2)`, `nConv = 4`
and the two unit vectors in the slots 0 and 1, the recovered values are
`sigma_0 = 1` and `sigma_1 = 2`, and `computeSVD` stores `sigma_0` in the
cells 0 and 1 of `evals` and `sigma_1` in the cells 2 and 3: the value stored
for the slot 1 is `sigma_0`, not `sigma_1`, and the value stored for the slot
`nConv/2 + 0 = 2` is `sigma_1`, not `sigma_0`. -/
theorem computeSVD_values_interleaved :
    Int.tdiv planeSVDState.eig_param.nConv 2 = 2 ∧
    svdSigma planeEnv (planeSVDState.kSpace 0) = 1 ∧
    svdSigma planeEnv (planeSVDState.kSpace 1) = 2 ∧
    (computeSVD planeEnv planeSVDState).evals 0 = 1 ∧
    (computeSVD planeEnv planeSVDState).evals 1 = 1 ∧
    (computeSVD planeEnv planeSVDState).evals (2 + 0) = 2 ∧
    (computeSVD planeEnv planeSVDState).evals (2 + 1) = 2 := by
  have hh : Int.tdiv planeSVDState.eig_param.nConv 2 = ((2 : Nat) : Int) := by decide
  have hs := (computeSVD_spec planeEnv planeSVDState 2 hh).2
  have k0 : planeSVDState.kSpace 0 = (1, 0) := rfl
  have k1 : planeSVDState.kSpace 1 = (0, 1) := rfl
  have d0 : ((0 : Int) / 2) = 0 := by decide
  have d1 : ((1 : Int) / 2) = 0 := by decide
  have d2 : (((2 : Int) + 0) / 2) = 1 := by decide
  have d3 : (((2 : Int) + 1) / 2) = 1 := by decide
  refine ⟨by decide, ?_, ?_, ?_, ?_, ?_, ?_⟩
  · rw [k0]; exact planeEnv_sigma_first
  · rw [k1]; exact planeEnv_sigma_second
  · rw [hs]; dsimp only
    rw [if_pos (by decide), d0, k0]; exact planeEnv_sigma_first
  · rw [hs]; dsimp only
    rw [if_pos (by decide), d1, k0]; exact planeEnv_sigma_first
  · rw [hs]; dsimp only
    rw [if_pos (by decide), d2, k1]; exact planeEnv_sigma_second
  · rw [hs]; dsimp only
    rw [if_pos (by decide), d3, k1]; exact planeEnv_sigma_second

/-- C16, amended: after `computeSVD`, for every `i` with
`0 <= i < nConv/2`, the slot `i` of the basis is unchanged, the slot
`nConv/2 + i` holds `M v_i` scaled by the inverse of its norm, and the value
recovered from `M v_i` is stored in the two adjacent cells `2 i` and `2 i + 1`
of `evals`. -/
theorem computeSVD_slots (E : Env R K V) (s : TRLMState R K V) (i : Int)
    (h0 : 0 ≤ i) (hi : i < Int.tdiv s.eig_param.nConv 2) :
    (computeSVD E s).kSpace i = s.kSpace i ∧
    (computeSVD E s).kSpace (Int.tdiv s.eig_param.nConv 2 + i) = svdLeft E (s.kSpace i) ∧
    (computeSVD E s).evals (2 * i + 0) = svdSigma E (s.kSpace i) ∧
    (computeSVD E s).evals (2 * i + 1) = svdSigma E (s.kSpace i) := by
  obtain ⟨h, hh⟩ : ∃ h : Nat, Int.tdiv s.eig_param.nConv 2 = (h : Int) :=
    ⟨(Int.tdiv s.eig_param.nConv 2).toNat, (Int.toNat_of_nonneg (by omega)).symm⟩
  have hs := computeSVD_spec E s h hh
  rw [hh] at hi ⊢
  rw [hs.1, hs.2]
  dsimp only
  have e0 : (2 * i + 0) / 2 = i := by omega
  have e1 : (2 * i + 1) / 2 = i := by omega
  have e2 : (h : Int) + i - h = i := by omega
  refine ⟨?_, ?_, ?_, ?_⟩
  · rw [if_neg (by omega)]
  · rw [if_pos (by omega), e2]
  · rw [if_pos (by omega), e0]
  · rw [if_pos (by omega), e1]

theorem computeSVD_slots_witness :
    (0 : Int) ≤ 1 ∧ (1 : Int) < Int.tdiv planeSVDState.eig_param.nConv 2 ∧
    (computeSVD planeEnv planeSVDState).kSpace 1 = planeSVDState.kSpace 1 ∧
    (computeSVD planeEnv planeSVDState).kSpace (Int.tdiv planeSVDState.eig_param.nConv 2 + 1)
      = svdLeft planeEnv (planeSVDState.kSpace 1) ∧
    (computeSVD planeEnv planeSVDState).evals (2 * 1 + 0)
      = svdSigma planeEnv (planeSVDState.kSpace 1) ∧
    (computeSVD planeEnv planeSVDState).evals (2 * 1 + 1)
      = svdSigma planeEnv (planeSVDState.kSpace 1) :=
  ⟨by decide, by decide, computeSVD_slots planeEnv planeSVDState 1 (by decide) (by decide)⟩

end singular

section counters

variable {R K V : Type} [LinearOrderedField R] [Field K] [AddCommGroup V] [Module K V]

/-- The order the two scans of a restart cycle leave between the counters:
`num_locked` does not decrease, `num_converged` is at least the new
`num_locked`, and it stays below `nKr` when the cycle was entered with
`num_locked < nKr`. -/
theorem lockAndConverge_order (E : Env R K V) (epsilon : R) (s : TRLMState R K V) :
    s.num_locked ≤ (lockAndConverge E epsilon s).num_locked ∧
    (lockAndConverge E epsilon s).num_locked ≤ (lockAndConverge E epsilon s).num_converged ∧
    (s.num_locked < s.nKr → (lockAndConverge E epsilon s).num_converged < s.nKr) := by
  obtain ⟨-, hlock, hcv, -, hnc, -, hnl⟩ := lockAndConverge_counters E epsilon s
  have h1 : 0 ≤ (lockAndConverge E epsilon s).iter_locked ∧
      (lockAndConverge E epsilon s).iter_locked
        < 1 + (((s.nKr - s.num_locked - 1).toNat : Nat) : Int) := by
    rw [hlock]
    exact ⟨(thresholdScan_spec _ _ _ _ 1 0 Int.zero_lt_one).1,
      (thresholdScan_spec _ _ _ _ 1 0 Int.zero_lt_one).2.1⟩
  have h2 : (lockAndConverge E epsilon s).iter_locked
        ≤ (lockAndConverge E epsilon s).iter_converged ∧
      (lockAndConverge E epsilon s).iter_converged
        < (lockAndConverge E epsilon s).iter_locked + 1
          + (((s.nKr - s.num_locked
              - ((lockAndConverge E epsilon s).iter_locked + 1)).toNat : Nat) : Int) := by
    rw [hcv]
    exact ⟨(thresholdScan_spec _ _ _ _ _ _ (by omega)).1,
      (thresholdScan_spec _ _ _ _ _ _ (by omega)).2.1⟩
  clear hlock hcv
  refine ⟨by omega, by omega, ?_⟩
  intro hL
  omega

/-- C17, counterexample: from the example state (`nEv = 10`, `nKr = 20`,
`nConv = 5`, residual estimates `1, 1e-20, .., 1e-20`) the restart cycle
leaves `num_converged = 19`, which is above `nConv = 5`. -/
theorem num_converged_exceeds_nConv :
    (lockAndConverge exampleEnv (precisionEpsilon exampleEnv) exampleState).num_converged = 19 ∧
    (lockAndConverge exampleEnv (precisionEpsilon exampleEnv) exampleState).nConv = 5 ∧
    ¬ ((lockAndConverge exampleEnv (precisionEpsilon exampleEnv) exampleState).num_converged
        ≤ (lockAndConverge exampleEnv (precisionEpsilon exampleEnv) exampleState).nConv) := by
  obtain ⟨-, -, hnConv, -⟩ :=
    lockAndConverge_control exampleEnv (precisionEpsilon exampleEnv) exampleState
  obtain ⟨-, -, -, -, hnc, -, -⟩ :=
    lockAndConverge_counters exampleEnv (precisionEpsilon exampleEnv) exampleState
  have hnum : (lockAndConverge exampleEnv (precisionEpsilon exampleEnv) exampleState).num_converged
      = 19 := by
    rw [hnc, exampleState_scans.2]; rfl
  have hn : (lockAndConverge exampleEnv (precisionEpsilon exampleEnv) exampleState).nConv = 5 := by
    rw [hnConv]; rfl
  refine ⟨hnum, hn, ?_⟩
  rw [hnum, hn]
  decide

/-- C17, amended: a restart cycle entered with `nConv <= nEv < nKr` and
`num_locked < nKr` on a well configured polynomial returns, and leaves
`num_locked <= num_converged < nKr` and `nConv <= nEv < nKr`; `num_converged`
is below `nConv` as long as the cycle has not set `converged`, and is not
bounded by `nConv` once it has. -/
theorem restartCycle_counter_order (E : Env R K V) (epsilon : R) (s : TRLMState R K V)
    (hcfg : ¬ (s.eig_param.use_poly_acc = true ∧ s.eig_param.poly_deg = 0))
    (hord : s.nConv ≤ s.nEv ∧ s.nEv < s.nKr) (hL : s.num_locked < s.nKr) :
    ∃ s' : TRLMState R K V, restartCycle E epsilon s = .ok s' ∧
      s.num_locked ≤ s'.num_locked ∧
      s'.num_locked ≤ s'.num_converged ∧ s'.num_converged < s'.nKr ∧
      s'.nConv ≤ s'.nEv ∧ s'.nEv < s'.nKr ∧
      (s'.converged = false → s'.num_converged < s'.nConv) := by
  obtain ⟨s1, hc, -, -, hnConv, -, -, hnKr, hnEv, -, hl, -, -, -⟩ := restartCycle_ok E epsilon s hcfg
  obtain ⟨-, -, cnConv, -, cnKr, cnEv, -, -, cconv⟩ := lockAndConverge_control E epsilon s1
  obtain ⟨o1, o2, o3⟩ := lockAndConverge_order E epsilon s1
  refine ⟨lockAndConverge E epsilon s1, hc, ?_, o2, ?_, ?_, ?_, ?_⟩
  · rw [← hl]; exact o1
  · rw [cnKr]; exact o3 (by rw [hl, hnKr]; exact hL)
  · rw [cnConv, cnEv, hnConv, hnEv]; exact hord.1
  · rw [cnEv, cnKr, hnEv, hnKr]; exact hord.2
  · intro hf
    rw [cnConv]
    by_contra hge
    have : (lockAndConverge E epsilon s1).converged = true := cconv.mpr (Or.inr (by omega))
    rw [hf] at this
    cases this

theorem restartCycle_counter_order_witness :
    ¬ (exampleState.eig_param.use_poly_acc = true ∧ exampleState.eig_param.poly_deg = 0) ∧
    (exampleState.nConv ≤ exampleState.nEv ∧ exampleState.nEv < exampleState.nKr) ∧
    exampleState.num_locked < exampleState.nKr ∧
    ∃ s' : TRLMState ℚ ℚ ℚ,
      restartCycle exampleEnv (precisionEpsilon exampleEnv) exampleState = .ok s' ∧
      exampleState.num_locked ≤ s'.num_locked ∧
      s'.num_locked ≤ s'.num_converged ∧ s'.num_converged < s'.nKr ∧
      s'.nConv ≤ s'.nEv ∧ s'.nEv < s'.nKr ∧
      (s'.converged = false → s'.num_converged < s'.nConv) :=
  ⟨by decide, by decide, by decide,
    restartCycle_counter_order exampleEnv (precisionEpsilon exampleEnv) exampleState
      (by decide) (by decide) (by decide)⟩

end counters

section monotonicity

variable {R K V : Type} [LinearOrderedField R] [Field K] [AddCommGroup V] [Module K V]

/-- The first cycle of the example finds the largest Ritz value, `20`. -/
theorem exampleFirstCycle_mat_norm :
    (lockAndConverge exampleEnv (precisionEpsilon exampleEnv) exampleFirstCycle).mat_norm = 20 :=
  ((lockAndConverge_counters exampleEnv _ exampleFirstCycle).1.trans
    (lockAndConverge_counters exampleEnv _ exampleState).1.symm).trans exampleState_mat_norm

/-- The scans of the first cycle of the example: no slot is locked, and the
slots 1, 2 and 3 are counted as converged. -/
theorem exampleFirstCycle_scans :
    (lockAndConverge exampleEnv (precisionEpsilon exampleEnv) exampleFirstCycle).iter_locked = 0 ∧
    (lockAndConverge exampleEnv (precisionEpsilon exampleEnv) exampleFirstCycle).iter_converged
      = 3 := by
  have h1 : (lockAndConverge exampleEnv (precisionEpsilon exampleEnv) exampleFirstCycle).iter_locked
      = 0 := by
    have heps : precisionEpsilon exampleEnv = 1 / 2 ^ 52 := by
      simp [precisionEpsilon, exampleEnv]
    rw [(lockAndConverge_counters exampleEnv _ exampleFirstCycle).2.1, exampleFirstCycle_mat_norm,
      heps]
    norm_num [thresholdScan, exampleFirstCycle, exampleState, exampleResiduaFirst]
  refine ⟨h1, ?_⟩
  rw [(lockAndConverge_counters exampleEnv _ exampleFirstCycle).2.2.1, h1,
    exampleFirstCycle_mat_norm]
  norm_num [thresholdScan, exampleFirstCycle, exampleState, exampleResiduaFirst]

/-- The counters the first cycle of the example leaves to the second. -/
theorem exampleSecondCycle_entry :
    exampleSecondCycle.num_locked = 0 ∧ exampleSecondCycle.num_converged = 3 ∧
    exampleSecondCycle.nKr = 20 ∧ exampleSecondCycle.mat_norm = 20 ∧
    exampleSecondCycle.tol = 1 / 10 ^ 10 ∧ exampleSecondCycle.converged = false := by
  obtain ⟨-, -, hnConv, -, hnKr, -, htol, -, hconv⟩ :=
    lockAndConverge_control exampleEnv (precisionEpsilon exampleEnv) exampleFirstCycle
  obtain ⟨-, -, -, -, hnc, -, hnl⟩ :=
    lockAndConverge_counters exampleEnv (precisionEpsilon exampleEnv) exampleFirstCycle
  have hc3 : (lockAndConverge exampleEnv (precisionEpsilon exampleEnv)
      exampleFirstCycle).num_converged = 3 := by
    rw [hnc, exampleFirstCycle_scans.2]; rfl
  refine ⟨?_, hc3, ?_, exampleFirstCycle_mat_norm, ?_, ?_⟩
  · show (lockAndConverge exampleEnv (precisionEpsilon exampleEnv) exampleFirstCycle).num_locked
      = 0
    rw [hnl, exampleFirstCycle_scans.1]; rfl
  · show (lockAndConverge exampleEnv (precisionEpsilon exampleEnv) exampleFirstCycle).nKr = 20
    rw [hnKr]; rfl
  · show (lockAndConverge exampleEnv (precisionEpsilon exampleEnv) exampleFirstCycle).tol = _
    rw [htol]; rfl
  · show (lockAndConverge exampleEnv (precisionEpsilon exampleEnv) exampleFirstCycle).converged
      = false
    cases hb : (lockAndConverge exampleEnv (precisionEpsilon exampleEnv)
      exampleFirstCycle).converged
    · rfl
    · rcases hconv.mp hb with h | h
      · cases h
      · rw [hc3] at h
        exact absurd h (by decide)

/-- The second cycle of the example finds the largest Ritz value, `20`. -/
theorem exampleSecondCycle_mat_norm :
    (lockAndConverge exampleEnv (precisionEpsilon exampleEnv) exampleSecondCycle).mat_norm
      = 20 := by
  obtain ⟨e1, -, e2, e3, -, -⟩ := exampleSecondCycle_entry
  have e4 : exampleSecondCycle.alpha = fun (i : Int) => (i : ℚ) + 1 := rfl
  rw [(lockAndConverge_counters exampleEnv _ exampleSecondCycle).1, e1, e2, e3, e4]
  have hr : List.range 20 = [0, 1, 2, 3, 4, 5, 6, 7, 8, 9, 10, 11, 12, 13, 14, 15, 16, 17, 18, 19] := by
    decide
  simp only [forLoop, sub_zero, Int.toNat_ofNat, hr, List.foldl]
  norm_num [abs_of_nonneg]

/-- C18, counterexample: with `nKr = 20`, `nConv = 5`, `tol = 1e-10` and the
Ritz values `1, .., 20`, a first cycle whose residual estimates are `1e-12`
in the slots 1, 2, 3 leaves `num_locked = 0` and `num_converged = 3` without
setting `converged`; a second cycle whose residual estimates are `1e-12` in
the slot 1 only leaves `num_converged = 1`, which is less than 3. -/
theorem num_converged_decreases :
    exampleSecondCycle.converged = false ∧
    exampleSecondCycle.num_locked = 0 ∧
    exampleSecondCycle.num_converged = 3 ∧
    (lockAndConverge exampleEnv (precisionEpsilon exampleEnv) exampleSecondCycle).num_converged
      = 1 ∧
    (lockAndConverge exampleEnv (precisionEpsilon exampleEnv) exampleSecondCycle).num_converged
      < exampleSecondCycle.num_converged := by
  obtain ⟨e1, e2, e3, -, e5, e6⟩ := exampleSecondCycle_entry
  obtain ⟨-, hlock, hcv, -, hnc, -, -⟩ :=
    lockAndConverge_counters exampleEnv (precisionEpsilon exampleEnv) exampleSecondCycle
  have e7 : exampleSecondCycle.residua = exampleResiduaSecond := rfl
  have heps : precisionEpsilon exampleEnv = 1 / 2 ^ 52 := by
    simp [precisionEpsilon, exampleEnv]
  have h1 : (lockAndConverge exampleEnv (precisionEpsilon exampleEnv)
      exampleSecondCycle).iter_locked = 0 := by
    rw [hlock, exampleSecondCycle_mat_norm, heps, e1, e3, e7]
    norm_num [thresholdScan, exampleResiduaSecond]
  have h2 : (lockAndConverge exampleEnv (precisionEpsilon exampleEnv)
      exampleSecondCycle).iter_converged = 1 := by
    rw [hcv, h1, exampleSecondCycle_mat_norm, e1, e3, e5, e7]
    norm_num [thresholdScan, exampleResiduaSecond]
  have h3 : (lockAndConverge exampleEnv (precisionEpsilon exampleEnv)
      exampleSecondCycle).num_converged = 1 := by
    rw [hnc, h2, e1]; rfl
  refine ⟨e6, e1, e2, h3, ?_⟩
  rw [h3, e2]
  decide

/-- C18, amended: over any number of restart cycles of a well configured
solver `num_locked` does not decrease, and after the last of them
`num_converged` is at least `num_locked`; `num_converged` itself is computed
anew in each cycle from the value of `num_locked` at the entry of the cycle
and is not monotone. -/
theorem restartCycles_num_locked_mono (E : Env R K V) (epsilon : R) (n : Nat)
    (s : TRLMState R K V)
    (hcfg : ¬ (s.eig_param.use_poly_acc = true ∧ s.eig_param.poly_deg = 0)) :
    ∃ s' : TRLMState R K V, restartCycles E epsilon n s = .ok s' ∧
      s.num_locked ≤ s'.num_locked ∧
      (1 ≤ n → s'.num_locked ≤ s'.num_converged ∧ s.num_locked ≤ s'.num_converged) := by
  induction n generalizing s with
  | zero => exact ⟨s, rfl, le_refl _, fun h => absurd h (by decide)⟩
  | succ n ih =>
    obtain ⟨s1, hc, -, -, -, hp, -, -, -, -, hl, -, -, -⟩ := restartCycle_ok E epsilon s hcfg
    obtain ⟨-, -, -, hp2, -⟩ := lockAndConverge_control E epsilon s1
    obtain ⟨hm1, hm2, -⟩ := lockAndConverge_order E epsilon s1
    obtain ⟨s', hs', h1, h2⟩ := ih (lockAndConverge E epsilon s1) (by rw [hp2, hp]; exact hcfg)
    have hrun : restartCycles E epsilon (n + 1) s = .ok s' := by
      simp only [restartCycles, hc]
      exact hs'
    refine ⟨s', hrun, by omega, fun _ => ?_⟩
    cases n with
    | zero =>
      have hs : lockAndConverge E epsilon s1 = s' := by
        simpa [restartCycles] using hs'
      subst hs
      exact ⟨hm2, by omega⟩
    | succ m =>
      obtain ⟨h3, h4⟩ := h2 (by omega)
      exact ⟨h3, by omega⟩

theorem restartCycles_num_locked_mono_witness :
    ¬ (exampleState.eig_param.use_poly_acc = true ∧ exampleState.eig_param.poly_deg = 0) ∧
    ∃ s' : TRLMState ℚ ℚ ℚ,
      restartCycles exampleEnv (precisionEpsilon exampleEnv) 2 exampleState = .ok s' ∧
      exampleState.num_locked ≤ s'.num_locked ∧
      (1 ≤ 2 → s'.num_locked ≤ s'.num_converged ∧ exampleState.num_locked ≤ s'.num_converged) :=
  ⟨by decide,
    restartCycles_num_locked_mono exampleEnv (precisionEpsilon exampleEnv) 2 exampleState
      (by decide)⟩

end monotonicity

section breakdown

variable {R K V : Type} [LinearOrderedField R] [Field K] [AddCommGroup V] [Module K V]

/-- The square root of the rational backend at `0`. -/
theorem ratBlas_sqrt_zero : ratBlas.sqrt 0 = 0 := by
  have h := Rat.sqrt_eq 0
  simp only [mul_zero, abs_zero] at h
  exact h

/-- C19, counterexample: in the example the first vector is an eigenvector of
the operator (`A v_0 = 2 v_0`), so the step `j = 0` leaves the residual
`r = 0` and `beta_0 = 0`; the step returns normally, with no error. -/
theorem lanczosStep_zero_beta_returns :
    ¬ isError (lanczosStep exampleEnv exampleState 0) ∧
    ∃ s' : TRLMState ℚ ℚ ℚ, lanczosStep exampleEnv exampleState 0 = .ok s' ∧
      s'.r = 0 ∧ s'.beta 0 = 0 := by
  have hc : chebyOp exampleEnv.B exampleState.eig_param exampleEnv.mat (exampleState.kSpace 0)
      = .ok { out := 2, matvecs := 1 } := by
    norm_num [chebyOp, exampleState, exampleParam, exampleEnv]
  have hstep : ∃ s' : TRLMState ℚ ℚ ℚ, lanczosStep exampleEnv exampleState 0 = .ok s' ∧
      s'.r = 0 ∧ s'.beta 0 = 0 := by
    unfold lanczosStep
    rw [hc]
    refine ⟨_, rfl, ?_, ?_⟩
    · norm_num [forLoop, blas.axpy, exampleEnv, exampleState, ratBlas]
    · have hr : (ratBlas.sqrt (ratBlas.norm2 (0 : ℚ))) = 0 := by
        have : ratBlas.norm2 (0 : ℚ) = 0 := by simp [ratBlas]
        rw [this, ratBlas_sqrt_zero]
      have hB : exampleEnv.B = ratBlas := rfl
      dsimp only
      rw [Function.update_same, hB]
      have h0 : forLoop (if (0 : Int) > exampleState.num_keep then 0 - 1 else 0) 0
          (fun i r => blas.axpy ratBlas (-(exampleState.beta i)) (exampleState.kSpace i) r)
          (blas.axpy ratBlas (-(Function.update exampleState.alpha 0
            (ratBlas.reDotProduct (exampleState.kSpace 0) (2 : ℚ)) 0)) (exampleState.kSpace 0) 2)
          = 0 := by
        norm_num [forLoop, blas.axpy, exampleState, ratBlas]
      rw [if_neg (by decide), h0]
      exact hr
  refine ⟨?_, hstep⟩
  obtain ⟨s', hs', -⟩ := hstep
  rw [hs']
  exact fun h => h

/-- C19, amended: a Lanczos step aborts exactly when polynomial acceleration
is on with a zero degree, whatever the norm of the residual.  When it returns,
`beta_j` is the square root of the squared norm of the residual and `v_{j+1}`
is the residual scaled by `1 / beta_j`, with no test on `beta_j` in
between. -/
theorem lanczosStep_error_iff (E : Env R K V) (s : TRLMState R K V) (j : Int) :
    (isError (lanczosStep E s j)
      ↔ (s.eig_param.use_poly_acc = true ∧ s.eig_param.poly_deg = 0)) ∧
    ∀ s' : TRLMState R K V, lanczosStep E s j = .ok s' →
      s'.beta j = E.B.sqrt (E.B.norm2 s'.r) ∧
      s'.kSpace (j + 1) = blas.axpy E.B (1 / s'.beta j) s'.r (blas.zero (s.kSpace (j + 1))) := by
  by_cases h : s.eig_param.use_poly_acc = true ∧ s.eig_param.poly_deg = 0
  · have he : lanczosStep E s j
        = .error "Polynomial acceleration requested with zero polynomial degree" := by
      unfold lanczosStep
      rw [chebyOp_error E.B s.eig_param E.mat _ h]
    rw [he]
    refine ⟨⟨fun _ => h, fun _ => trivial⟩, ?_⟩
    intro s' hs'
    cases hs'
  · obtain ⟨c, hc⟩ := chebyOp_ok E.B s.eig_param E.mat (s.kSpace j) h
    constructor
    · obtain ⟨a, b, k, r, hstep⟩ := lanczosStep_frame E s j h
      rw [hstep]
      exact ⟨fun hf => absurd hf (fun x => x), fun hb => absurd hb h⟩
    · intro s' hs'
      unfold lanczosStep at hs'
      rw [hc] at hs'
      injection hs' with hs'
      subst hs'
      dsimp only
      refine ⟨?_, ?_⟩ <;> simp only [Function.update_same]

theorem lanczosStep_error_iff_witness :
    (isError (lanczosStep exampleEnv exampleState 0)
      ↔ (exampleState.eig_param.use_poly_acc = true ∧ exampleState.eig_param.poly_deg = 0)) ∧
    ∀ s' : TRLMState ℚ ℚ ℚ, lanczosStep exampleEnv exampleState 0 = .ok s' →
      s'.beta 0 = exampleEnv.B.sqrt (exampleEnv.B.norm2 s'.r) ∧
      s'.kSpace (0 + 1)
        = blas.axpy exampleEnv.B (1 / s'.beta 0) s'.r (blas.zero (exampleState.kSpace (0 + 1))) :=
  lanczosStep_error_iff exampleEnv exampleState 0

end breakdown

section lifecycle

variable {R K V : Type} [LinearOrderedField R] [Field K] [AddCommGroup V] [Module K V]

/-- A run of Lanczos steps of a well configured solver that returns has kept
the configuration and `nKr`. -/
theorem lanczosSteps_ok_frame (E : Env R K V) (lo hi : Int) (s s' : TRLMState R K V)
    (hcfg : ¬ (s.eig_param.use_poly_acc = true ∧ s.eig_param.poly_deg = 0))
    (h : lanczosSteps E lo hi s = .ok s') :
    s'.eig_param = s.eig_param ∧ s'.nKr = s.nKr := by
  obtain ⟨a, b, k, r, hsteps⟩ := lanczosSteps_frame E lo hi s hcfg
  rw [hsteps] at h
  injection h with h
  subst h
  exact ⟨rfl, rfl⟩

/-- A run of Lanczos steps of a well configured solver does not abort. -/
theorem lanczosSteps_not_error (E : Env R K V) (lo hi : Int) (s : TRLMState R K V)
    (hcfg : ¬ (s.eig_param.use_poly_acc = true ∧ s.eig_param.poly_deg = 0)) (e : String) :
    lanczosSteps E lo hi s ≠ .error e := by
  obtain ⟨a, b, k, r, hsteps⟩ := lanczosSteps_frame E lo hi s hcfg
  rw [hsteps]
  intro h
  cases h

/-- The restart loop of a well configured solver returns, whatever the fuel,
and keeps the configuration and `nKr`. -/
theorem restartLoop_ok (E : Env R K V) (epsilon : R) (f : Nat) (s : TRLMState R K V)
    (hcfg : ¬ (s.eig_param.use_poly_acc = true ∧ s.eig_param.poly_deg = 0)) :
    ∃ s' : TRLMState R K V, restartLoop E epsilon f s = .ok s' ∧
      s'.eig_param = s.eig_param ∧ s'.nKr = s.nKr := by
  induction f generalizing s with
  | zero => exact ⟨s, rfl, rfl, rfl⟩
  | succ f ih =>
    by_cases hg : s.restart_iter < s.max_restarts ∧ s.converged = false
    · obtain ⟨s1, hc, -, -, -, hp, -, hk, -⟩ := restartCycle_ok E epsilon s hcfg
      obtain ⟨-, -, -, hp2, hk2, -⟩ := lockAndConverge_control E epsilon s1
      obtain ⟨s', hs', h1, h2⟩ :=
        ih (lockAndConverge E epsilon s1) (by rw [hp2, hp]; exact hcfg)
      refine ⟨s', ?_, by rw [h1, hp2, hp], by rw [h2, hk2, hk]⟩
      simp only [restartLoop, if_pos hg, hc]
      exact hs'
    · refine ⟨s, ?_, rfl, rfl⟩
      simp only [restartLoop, if_neg hg]

/-- The pruning of the basis and the recomputation of the eigenvalues leave a
basis of `nKr` vectors and keep the configuration. -/
theorem postProcess_frame (E : Env R K V) (s : TRLMState R K V) :
    (postProcess E s).kSize = s.nKr ∧ (postProcess E s).eig_param = s.eig_param := by
  obtain ⟨-, hsize, hparam, -⟩ := computeEvals_spec E { s with kSize := s.nKr } s.nEv
  unfold postProcess
  dsimp only
  split_ifs
  · exact ⟨rfl, rfl⟩
  · unfold computeSVD; exact ⟨hsize, hparam⟩
  · exact ⟨hsize, hparam⟩

/-- The restart loop of a well configured solver does not abort. -/
theorem restartLoop_not_error (E : Env R K V) (epsilon : R) (f : Nat) (s : TRLMState R K V)
    (hcfg : ¬ (s.eig_param.use_poly_acc = true ∧ s.eig_param.poly_deg = 0)) (e : String) :
    restartLoop E epsilon f s ≠ .error e := by
  obtain ⟨s', hs', -⟩ := restartLoop_ok E epsilon f s hcfg
  rw [hs']
  intro h
  cases h

/-- What the restart loop of a well configured solver returns has the
configuration and the `nKr` it was entered with. -/
theorem restartLoop_ok_frame (E : Env R K V) (epsilon : R) (f : Nat) (s s' : TRLMState R K V)
    (hcfg : ¬ (s.eig_param.use_poly_acc = true ∧ s.eig_param.poly_deg = 0))
    (h : restartLoop E epsilon f s = .ok s') :
    s'.eig_param = s.eig_param ∧ s'.nKr = s.nKr := by
  obtain ⟨s2, hs2, h1, h2⟩ := restartLoop_ok E epsilon f s hcfg
  rw [hs2] at h
  injection h with h
  subst h
  exact ⟨h1, h2⟩

/-- C20: a solve that does not load from a file, on a basis of at least `nKr`
vectors, with a well configured polynomial and an output file (if any) that
can be written, returns, and the basis it returns has exactly `nKr` vectors:
its cells are those of the indices `[0, nKr)`, all of them indices of the
basis received, and the vectors appended during the solve, which have the
indices from the size of the basis received on, are not among them. -/
theorem operator_returns_nKr_vectors (E : Env R K V) (s : TRLMState R K V)
    (hin : s.eig_param.vec_infile = "") (hsize : s.nKr ≤ s.kSize)
    (hcfg : ¬ (s.eig_param.use_poly_acc = true ∧ s.eig_param.poly_deg = 0))
    (hw : s.eig_param.vec_outfile ≠ "" →
      ∀ k, E.write_spinor_field s.eig_param.vec_outfile k = .ok ()) :
    ∃ s' : TRLMState R K V, TRLM.operator E s = .ok s' ∧ s'.kSize = s.nKr ∧
      s'.kSize ≤ s.kSize := by
  unfold TRLM.operator
  rw [if_neg (by rw [hin]; exact fun h => h rfl)]
  dsimp only
  split
  · rename_i e heq
    exact absurd heq (lanczosSteps_not_error E _ _ _ (by exact hcfg) _)
  · rename_i s1 heq
    obtain ⟨hp1, hk1⟩ := lanczosSteps_ok_frame E _ _ _ s1 (by exact hcfg) heq
    have hcfg1 : ¬ (s1.eig_param.use_poly_acc = true ∧ s1.eig_param.poly_deg = 0) := by
      rw [hp1]; exact hcfg
    split
    · rename_i e heq2
      exact absurd heq2 (restartLoop_not_error E _ _ _ (by exact hcfg1) _)
    · rename_i s2 heq2
      obtain ⟨hp2, hk2⟩ := restartLoop_ok_frame E _ _ _ s2 (by exact hcfg1) heq2
      obtain ⟨hsz, hp3⟩ := postProcess_frame E s2
      have hparam : (postProcess E s2).eig_param = s.eig_param := by
        rw [hp3, hp2]; exact hp1
      have hnKr : s2.nKr = s.nKr := by
        rw [hk2]; exact hk1
      rw [hparam]
      by_cases hv : s.eig_param.vec_outfile ≠ ""
      · rw [if_pos hv, hw hv]
        exact ⟨_, rfl, by rw [hsz, hnKr], by rw [hsz, hnKr]; exact hsize⟩
      · rw [if_neg hv]
        exact ⟨_, rfl, by rw [hsz, hnKr], by rw [hsz, hnKr]; exact hsize⟩

theorem operator_returns_nKr_vectors_witness :
    exampleState.eig_param.vec_infile = "" ∧ exampleState.nKr ≤ exampleState.kSize ∧
    ¬ (exampleState.eig_param.use_poly_acc = true ∧ exampleState.eig_param.poly_deg = 0) ∧
    (exampleState.eig_param.vec_outfile ≠ "" →
      ∀ k, exampleEnv.write_spinor_field exampleState.eig_param.vec_outfile k = .ok ()) ∧
    ∃ s' : TRLMState ℚ ℚ ℚ, TRLM.operator exampleEnv exampleState = .ok s' ∧
      s'.kSize = exampleState.nKr ∧ s'.kSize ≤ exampleState.kSize :=
  ⟨rfl, by decide, by decide, fun _ _ => rfl,
    operator_returns_nKr_vectors exampleEnv exampleState rfl (by decide) (by decide)
      (fun _ _ => rfl)⟩

end lifecycle

section recurrenceWindow

variable {R K V : Type} [LinearOrderedField R] [Field K] [AddCommGroup V] [Module K V]

/-- A loop that adds a term to its variable in each iteration adds the sum of
the terms. -/
theorem forLoop_add_sum {α : Type} [AddCommMonoid α] (lo hi : Int) (f : Int → α) (r0 : α) :
    forLoop lo hi (fun i r => f i + r) r0
      = r0 + ((List.range (hi - lo).toNat).map fun (k : Nat) => f (lo + (k : Int))).sum := by
  unfold forLoop
  generalize List.range (hi - lo).toNat = l
  induction l generalizing r0 with
  | nil => simp
  | cons x xs ih =>
    rw [List.foldl_cons, ih, List.map_cons, List.sum_cons]
    show f (lo + (x : Int)) + r0 + _ = _
    rw [add_comm (f _) r0, add_assoc]

/-- The loop `for (k = 0; k < 1; k++)` runs its body once. -/
theorem forLoop_one {σ : Type} (body : Int → σ → σ) (s : σ) :
    forLoop 0 1 body s = body 0 s := by
  have h : List.range 1 = [0] := by decide
  simp [forLoop, h]

/-- A Lanczos step whose polynomial is computed returns, and the residual it
leaves is the residual of the recurrence, orthogonalised once by the block
routine called with the index `j` when `j > 0`. -/
theorem lanczosStep_residual (E : Env R K V) (s : TRLMState R K V) (j : Int) (c : ChebyOut V)
    (hc : chebyOp E.B s.eig_param E.mat (s.kSpace j) = .ok c) :
    ∃ s' : TRLMState R K V, lanczosStep E s j = .ok s' ∧
      s'.alpha j = E.B.reDotProduct (s.kSpace j) c.out ∧
      s'.r = if j > 0 then (blockOrthogonalize E.B s.kSpace (lanczosResidual E s j c.out) j).1
        else lanczosResidual E s j c.out := by
  unfold lanczosStep
  rw [hc]
  refine ⟨_, rfl, ?_, ?_⟩
  · dsimp only
    rw [Function.update_same]
  · dsimp only
    by_cases h : j > 0
    · rw [if_pos h, if_pos h, forLoop_one]
      rfl
    · rw [if_neg h, if_neg h]
      rfl

/-- The residual of the recurrence in closed form: the terms subtracted after
`alpha_j v_j` are those of the indices from `start` up to `j - 1`, where
`start` is `j - 1` when `j > num_keep` and `0` otherwise. -/
theorem lanczosResidual_eq (E : Env R K V) (s : TRLMState R K V) (j : Int) (out : V) :
    lanczosResidual E s j out
      = (E.B.ofReal (-(E.B.reDotProduct (s.kSpace j) out)) • s.kSpace j + out)
        + ((List.range (j - (if j > s.num_keep then j - 1 else 0)).toNat).map fun (k : Nat) =>
            E.B.ofReal (-(s.beta ((if j > s.num_keep then j - 1 else 0) + (k : Int))))
              • s.kSpace ((if j > s.num_keep then j - 1 else 0) + (k : Int))).sum := by
  unfold lanczosResidual
  simp only [blas.axpy, Function.update_same]
  exact forLoop_add_sum _ _ (fun i => E.B.ofReal (-(s.beta i)) • s.kSpace i) _

/-- C21, counterexample: at the entry of a restart cycle with `num_keep = 8`,
every basis vector equal to `1`, every `beta` equal to `1` and the operator
`x -> 2 x`, the step `j = 8 <= num_keep` leaves `r = 0` after subtracting
`alpha_8 v_8` and then subtracts the eight terms `beta_i v_i` of the indices
`0 .. 7`, which leaves `-8`; subtracting the one term of the window
`[max(j - 1, 0), j) = [7, 8)` would leave `-1`. -/
theorem lanczosResidual_subtracts_all_kept :
    exampleRestartEntry.num_keep = 8 ∧
    chebyOp exampleEnv.B exampleRestartEntry.eig_param exampleEnv.mat
      (exampleRestartEntry.kSpace 8) = .ok { out := 2, matvecs := 1 } ∧
    exampleEnv.B.ofReal (-(exampleEnv.B.reDotProduct (exampleRestartEntry.kSpace 8) 2))
      • exampleRestartEntry.kSpace 8 + 2 = 0 ∧
    lanczosResidual exampleEnv exampleRestartEntry 8 2 = -8 ∧
    (0 : ℚ) + exampleEnv.B.ofReal (-(exampleRestartEntry.beta 7)) • exampleRestartEntry.kSpace 7
      = -1 := by
  refine ⟨rfl, ?_, ?_, ?_, ?_⟩
  · norm_num [chebyOp, exampleRestartEntry, exampleState, exampleParam, exampleEnv]
  · norm_num [exampleRestartEntry, exampleState, exampleEnv, ratBlas]
  · rw [lanczosResidual_eq]
    have hk : exampleRestartEntry.num_keep = 8 := rfl
    have hr : List.range ((8 : Int) - 0).toNat = [0, 1, 2, 3, 4, 5, 6, 7] := by decide
    rw [hk, if_neg (by decide), hr]
    norm_num [exampleRestartEntry, exampleState, exampleEnv, ratBlas]
  · norm_num [exampleRestartEntry, exampleState, exampleEnv, ratBlas]

/-- C21, amended: a Lanczos step `j` whose polynomial is computed returns;
after `r <- r - alpha_j v_j` it subtracts from `r` the one term
`beta_{j-1} v_{j-1}` when `j > num_keep`, and the `j` terms `beta_i v_i` of
all the indices `i` in `[0, j)` when `j <= num_keep`; the residual so obtained
is what the orthogonalisation of the step receives. -/
theorem lanczosStep_recurrence_window (E : Env R K V) (s : TRLMState R K V) (j : Int)
    (c : ChebyOut V) (hc : chebyOp E.B s.eig_param E.mat (s.kSpace j) = .ok c) :
    ∃ s' : TRLMState R K V, lanczosStep E s j = .ok s' ∧
      (s'.r = if j > 0 then (blockOrthogonalize E.B s.kSpace (lanczosResidual E s j c.out) j).1
        else lanczosResidual E s j c.out) ∧
      (j > s.num_keep → lanczosResidual E s j c.out
        = (E.B.ofReal (-(E.B.reDotProduct (s.kSpace j) c.out)) • s.kSpace j + c.out)
          + E.B.ofReal (-(s.beta (j - 1))) • s.kSpace (j - 1)) ∧
      (j ≤ s.num_keep → lanczosResidual E s j c.out
        = (E.B.ofReal (-(E.B.reDotProduct (s.kSpace j) c.out)) • s.kSpace j + c.out)
          + ((List.range j.toNat).map fun (k : Nat) =>
              E.B.ofReal (-(s.beta (k : Int))) • s.kSpace (k : Int)).sum) := by
  obtain ⟨s', hs', -, hr⟩ := lanczosStep_residual E s j c hc
  refine ⟨s', hs', hr, ?_, ?_⟩
  · intro h
    rw [lanczosResidual_eq, if_pos h]
    have h1 : (j - (j - 1)).toNat = 1 := by omega
    have hr1 : List.range 1 = [0] := by decide
    rw [h1, hr1]
    simp
  · intro h
    rw [lanczosResidual_eq, if_neg (by omega)]
    simp

theorem lanczosStep_recurrence_window_witness :
    chebyOp exampleEnv.B exampleRestartEntry.eig_param exampleEnv.mat
      (exampleRestartEntry.kSpace 8) = .ok { out := 2, matvecs := 1 } ∧
    ∃ s' : TRLMState ℚ ℚ ℚ, lanczosStep exampleEnv exampleRestartEntry 8 = .ok s' ∧
      (s'.r = if (8 : Int) > 0 then
          (blockOrthogonalize exampleEnv.B exampleRestartEntry.kSpace
            (lanczosResidual exampleEnv exampleRestartEntry 8 2) 8).1
        else lanczosResidual exampleEnv exampleRestartEntry 8 2) ∧
      ((8 : Int) > exampleRestartEntry.num_keep → lanczosResidual exampleEnv exampleRestartEntry 8 2
        = (exampleEnv.B.ofReal (-(exampleEnv.B.reDotProduct (exampleRestartEntry.kSpace 8) 2))
            • exampleRestartEntry.kSpace 8 + 2)
          + exampleEnv.B.ofReal (-(exampleRestartEntry.beta (8 - 1)))
            • exampleRestartEntry.kSpace (8 - 1)) ∧
      ((8 : Int) ≤ exampleRestartEntry.num_keep → lanczosResidual exampleEnv exampleRestartEntry 8 2
        = (exampleEnv.B.ofReal (-(exampleEnv.B.reDotProduct (exampleRestartEntry.kSpace 8) 2))
            • exampleRestartEntry.kSpace 8 + 2)
          + ((List.range (8 : Int).toNat).map fun (k : Nat) =>
              exampleEnv.B.ofReal (-(exampleRestartEntry.beta (k : Int)))
                • exampleRestartEntry.kSpace (k : Int)).sum) :=
  have hc : chebyOp exampleEnv.B exampleRestartEntry.eig_param exampleEnv.mat
      (exampleRestartEntry.kSpace 8) = .ok { out := 2, matvecs := 1 } := by
    norm_num [chebyOp, exampleRestartEntry, exampleState, exampleParam, exampleEnv]
  ⟨hc, lanczosStep_recurrence_window exampleEnv exampleRestartEntry 8 { out := 2, matvecs := 1 } hc⟩

/-- The polynomial of the example state at the vector of index 1. -/
theorem exampleState_chebyOp_one :
    chebyOp exampleEnv.B exampleState.eig_param exampleEnv.mat (exampleState.kSpace 1)
      = .ok { out := 2, matvecs := 1 } := by
  norm_num [chebyOp, exampleState, exampleParam, exampleEnv]

/-- The residual of the recurrence of the example state in the step 1. -/
theorem exampleState_residual_one : lanczosResidual exampleEnv exampleState 1 2 = -1 := by
  rw [lanczosResidual_eq]
  have hk : exampleState.num_keep = 0 := rfl
  have hr : List.range ((1 : Int) - (1 - 1)).toNat = [0] := by decide
  rw [hk, if_pos (by decide), hr]
  norm_num [exampleState, exampleEnv, ratBlas]

/-- C22, counterexample: in the step `j = 1` of the example (every basis
vector equal to `1`, operator `x -> 2 x`) the residual of the recurrence is
`-1`; the step leaves `r = 1`, the result of removing from `-1` its
projections on the two vectors `v_0` and `v_1`, while removing the projection
on `v_0` alone leaves `0`: the vector `v_j` is among those the block routine
receives. -/
theorem lanczosStep_orthogonalizes_against_current :
    lanczosResidual exampleEnv exampleState 1 2 = -1 ∧
    (∃ s' : TRLMState ℚ ℚ ℚ, lanczosStep exampleEnv exampleState 1 = .ok s' ∧ s'.r = 1) ∧
    (-1 : ℚ) + (exampleEnv.B.cDotProduct (exampleState.kSpace 0) (-1) * (-1))
        • exampleState.kSpace 0
      + (exampleEnv.B.cDotProduct (exampleState.kSpace 1) (-1) * (-1)) • exampleState.kSpace 1
      = 1 ∧
    (-1 : ℚ) + (exampleEnv.B.cDotProduct (exampleState.kSpace 0) (-1) * (-1))
        • exampleState.kSpace 0
      = 0 := by
  refine ⟨exampleState_residual_one, ?_, ?_, ?_⟩
  · obtain ⟨s', hs', -, hr⟩ :=
      lanczosStep_residual exampleEnv exampleState 1 _ exampleState_chebyOp_one
    refine ⟨s', hs', ?_⟩
    rw [hr, if_pos (by decide), exampleState_residual_one, blockOrthogonalize_eq]
    have hl : List.range ((1 : Int) + 1).toNat = [0, 1] := by decide
    rw [hl]
    norm_num [exampleState, exampleEnv, ratBlas]
  · norm_num [exampleState, exampleEnv, ratBlas]
  · norm_num [exampleState, exampleEnv, ratBlas]

/-- C22, amended: a Lanczos step `j > 0` whose polynomial is computed removes
from the residual `r` of the recurrence, once, its projections on the `j + 1`
basis vectors `v_0 .. v_j`, the vector `v_j` included, every coefficient being
the inner product with the residual as it was before the correction; a step
`j <= 0` performs no orthogonalisation. -/
theorem lanczosStep_orthogonalizes_through_j (E : Env R K V) (s : TRLMState R K V) (j : Int)
    (c : ChebyOut V) (hc : chebyOp E.B s.eig_param E.mat (s.kSpace j) = .ok c) :
    ∃ s' : TRLMState R K V, lanczosStep E s j = .ok s' ∧
      (j > 0 → s'.r = lanczosResidual E s j c.out
        + ((List.range (j + 1).toNat).map fun (k : Nat) =>
            (E.B.cDotProduct (s.kSpace k) (lanczosResidual E s j c.out) * (-1)) • s.kSpace k).sum) ∧
      (j ≤ 0 → s'.r = lanczosResidual E s j c.out) := by
  obtain ⟨s', hs', -, hr⟩ := lanczosStep_residual E s j c hc
  refine ⟨s', hs', ?_, ?_⟩
  · intro h
    rw [hr, if_pos h, blockOrthogonalize_eq]
  · intro h
    rw [hr, if_neg (by omega)]

theorem lanczosStep_orthogonalizes_through_j_witness :
    chebyOp exampleEnv.B exampleState.eig_param exampleEnv.mat (exampleState.kSpace 1)
      = .ok { out := 2, matvecs := 1 } ∧
    ∃ s' : TRLMState ℚ ℚ ℚ, lanczosStep exampleEnv exampleState 1 = .ok s' ∧
      ((1 : Int) > 0 → s'.r = lanczosResidual exampleEnv exampleState 1 2
        + ((List.range ((1 : Int) + 1).toNat).map fun (k : Nat) =>
            (exampleEnv.B.cDotProduct (exampleState.kSpace k)
              (lanczosResidual exampleEnv exampleState 1 2) * (-1)) • exampleState.kSpace k).sum) ∧
      ((1 : Int) ≤ 0 → s'.r = lanczosResidual exampleEnv exampleState 1 2) :=
  ⟨exampleState_chebyOp_one,
    lanczosStep_orthogonalizes_through_j exampleEnv exampleState 1 { out := 2, matvecs := 1 }
      exampleState_chebyOp_one⟩

end recurrenceWindow

section direction

/-- The direction deduced from the stored code of the target: it is set for
every target when acceleration is on, and for the three large targets when it
is off. -/
theorem deduceReverse_spectrumCode (b : Bool) (sp : QudaEigSpectrumType) :
    deduceReverse b (spectrumCode b sp) = true
      ↔ (b = true ∨ sp = QUDA_SPECTRUM_LR_EIG ∨ sp = QUDA_SPECTRUM_LM_EIG
          ∨ sp = QUDA_SPECTRUM_LI_EIG) := by
  cases b <;> cases sp <;> simp [deduceReverse, spectrumCode, strncmp1]

/-- C23, counterexample: a configuration that asks for the large real end
with acceleration enabled is accepted by the constructor of `TRLM`, and the
flag `reverse` of the solver is set. -/
theorem reverse_set_for_large_accelerated :
    exampleLargeAccelerated.use_poly_acc = true ∧
    exampleLargeAccelerated.spectrum = QUDA_SPECTRUM_LR_EIG ∧
    ∃ t : TRLM ℚ,
      TRLM.TRLM exampleLargeAccelerated (fun _ => 0) (fun _ => 0) (fun _ => 0) = .ok t ∧
      t.reverse = true := by
  refine ⟨rfl, rfl, ?_⟩
  have hok : ∃ t, TRLM.TRLM exampleLargeAccelerated (fun _ => 0) (fun _ => 0) (fun _ => 0)
      = .ok t ∧ t.reverse = deduceReverse exampleLargeAccelerated.use_poly_acc
        (spectrumCode exampleLargeAccelerated.use_poly_acc exampleLargeAccelerated.spectrum) := by
    simp [TRLM.TRLM, EigenSolver.EigenSolver, exampleLargeAccelerated, exampleChebyParam,
      exampleParam]
  obtain ⟨t, ht, hr⟩ := hok
  refine ⟨t, ht, ?_⟩
  rw [hr, deduceReverse_spectrumCode]
  exact Or.inl rfl

/-- C23, amended: in a solver the constructor has accepted, the flag `reverse`
is set exactly when acceleration is enabled, whatever the target, or the
configured target is one of the large ends (`LR`, `LM`, `LI`) with
acceleration disabled; it is clear only for the other targets with
acceleration disabled. -/
theorem constructor_reverse_iff {R : Type} [Zero R] (p : QudaEigParam R) (fresh : Int → R)
    (es : EigenSolver R) (h : EigenSolver.EigenSolver p fresh = .ok es) :
    es.reverse = true
      ↔ (p.use_poly_acc = true ∨ p.spectrum = QUDA_SPECTRUM_LR_EIG
          ∨ p.spectrum = QUDA_SPECTRUM_LM_EIG ∨ p.spectrum = QUDA_SPECTRUM_LI_EIG) := by
  unfold EigenSolver.EigenSolver at h
  simp only at h
  split_ifs at h
  injection h with h
  subst h
  exact deduceReverse_spectrumCode p.use_poly_acc p.spectrum

theorem constructor_reverse_iff_witness :
    ∃ es : EigenSolver ℚ,
      EigenSolver.EigenSolver (exampleParam 10 20 5 QUDA_EIG_LANCZOS QUDA_SPECTRUM_SR_EIG)
        (fun _ => 0) = .ok es ∧
      (es.reverse = true
        ↔ ((exampleParam 10 20 5 QUDA_EIG_LANCZOS QUDA_SPECTRUM_SR_EIG).use_poly_acc = true
          ∨ (exampleParam 10 20 5 QUDA_EIG_LANCZOS QUDA_SPECTRUM_SR_EIG).spectrum
              = QUDA_SPECTRUM_LR_EIG
          ∨ (exampleParam 10 20 5 QUDA_EIG_LANCZOS QUDA_SPECTRUM_SR_EIG).spectrum
              = QUDA_SPECTRUM_LM_EIG
          ∨ (exampleParam 10 20 5 QUDA_EIG_LANCZOS QUDA_SPECTRUM_SR_EIG).spectrum
              = QUDA_SPECTRUM_LI_EIG)) := by
  have hok : ∃ es, EigenSolver.EigenSolver
      (exampleParam 10 20 5 QUDA_EIG_LANCZOS QUDA_SPECTRUM_SR_EIG) (fun _ => (0 : ℚ))
      = .ok es := by
    simp [EigenSolver.EigenSolver, exampleParam]
  obtain ⟨es, hes⟩ := hok
  exact ⟨es, hes, constructor_reverse_iff _ _ es hes⟩

end direction

section arrow

variable {R K V : Type} [LinearOrderedField R] [Field K]

/-- Induction over the iterations of a loop: a property of the index and of
the variables that holds at the entry and is carried by the body from `i` to
`i + 1` holds at the exit, where the index is `hi`, or `lo` when the range is
empty. -/
theorem forLoop_induction {σ : Type} (lo hi : Int) (body : Int → σ → σ) (s0 : σ)
    (P : Int → σ → Prop) (h0 : P lo s0)
    (hstep : ∀ i st, lo ≤ i → i < hi → P i st → P (i + 1) (body i st)) :
    P (max lo hi) (forLoop lo hi body s0) := by
  have key : ∀ m : Nat, m ≤ (hi - lo).toNat →
      P (lo + (m : Int)) ((List.range m).foldl (fun s (k : Nat) => body (lo + (k : Int)) s) s0) := by
    intro m
    induction m with
    | zero =>
      intro _
      simpa using h0
    | succ m ih =>
      intro hm
      rw [List.range_succ, List.foldl_append]
      simp only [List.foldl_cons, List.foldl_nil]
      have h := hstep (lo + (m : Int)) _ (by omega) (by omega) (ih (by omega))
      have e : lo + ((m + 1 : Nat) : Int) = lo + (m : Int) + 1 := by push_cast; ring
      rw [e]
      exact h
  have hfin := key _ le_rfl
  have e : max lo hi = lo + (((hi - lo).toNat : Nat) : Int) := by omega
  rw [e]
  exact hfin

/-- The function `eigensolveFromArrowMat` in terms of its parts: the arrays
after the inversion, the matrix built from them and the decomposition the
dense solver returns for it. -/
theorem eigensolveFromArrowMat_eq (E : Env R K V) (s : TRLMState R K V) (num_locked arrow_pos : Int) :
    eigensolveFromArrowMat E s num_locked arrow_pos =
      { s with
        alpha :=
          if s.reverse then
            forLoop num_locked s.nKr (fun i a => Function.update a i (a i * (-1)))
              (forLoop 0 (s.nKr - num_locked)
                (fun i (ra : (Int → R) × (Int → R)) =>
                  (Function.update ra.1 (i + num_locked)
                      |(invertSpectrum s num_locked).2 (s.nKr - 1)
                        * (denseSolve E s num_locked arrow_pos).eigenvectors i
                            (s.nKr - num_locked - 1)|,
                    Function.update ra.2 (i + num_locked)
                      ((denseSolve E s num_locked arrow_pos).eigenvalues i)))
                (s.residua, (invertSpectrum s num_locked).1)).2
          else
            (forLoop 0 (s.nKr - num_locked)
              (fun i (ra : (Int → R) × (Int → R)) =>
                (Function.update ra.1 (i + num_locked)
                    |(invertSpectrum s num_locked).2 (s.nKr - 1)
                      * (denseSolve E s num_locked arrow_pos).eigenvectors i
                          (s.nKr - num_locked - 1)|,
                  Function.update ra.2 (i + num_locked)
                    ((denseSolve E s num_locked arrow_pos).eigenvalues i)))
              (s.residua, (invertSpectrum s num_locked).1)).2
        beta := (invertSpectrum s num_locked).2
        residua :=
          (forLoop 0 (s.nKr - num_locked)
            (fun i (ra : (Int → R) × (Int → R)) =>
              (Function.update ra.1 (i + num_locked)
                  |(invertSpectrum s num_locked).2 (s.nKr - 1)
                    * (denseSolve E s num_locked arrow_pos).eigenvectors i
                        (s.nKr - num_locked - 1)|,
                Function.update ra.2 (i + num_locked)
                  ((denseSolve E s num_locked arrow_pos).eigenvalues i)))
            (s.residua, (invertSpectrum s num_locked).1)).1
        ritz_mat :=
          forLoop 0 (s.nKr - num_locked)
            (fun i rm =>
              forLoop 0 (s.nKr - num_locked)
                (fun j rm =>
                  Function.update rm ((s.nKr - num_locked) * i + j)
                    ((denseSolve E s num_locked arrow_pos).eigenvectors i j)) rm)
            (fun i =>
              if 0 ≤ i ∧ i < (s.nKr - num_locked) * (s.nKr - num_locked) then 0
              else s.ritz_mat i) } :=
  rfl

/-- The loop of lines 835-839 writes the diagonal. -/
theorem arrowMat_diagonal_loop {α : Type} (d : Int → α) (dim : Int) (A0 : Int → Int → α) :
    forLoop 0 dim (fun i A => setEntry A i i (d i)) A0
      = fun p q => if p = q ∧ 0 ≤ p ∧ p < dim then d p else A0 p q := by
  have h := forLoop_induction 0 dim (fun i A => setEntry A i i (d i)) A0
    (fun i A => A = fun p q => if p = q ∧ 0 ≤ p ∧ p < i then d p else A0 p q)
    (by funext p q; rw [if_neg (by omega)])
    (by
      intro i st hi1 hi2 hP
      rw [hP]
      funext p q
      simp only [setEntry]
      split_ifs <;> first | rfl | (exfalso; omega) | (congr 1; omega))
  rw [h]
  funext p q
  by_cases hc : p = q ∧ 0 ≤ p ∧ p < dim
  · rw [if_pos hc, if_pos (by omega)]
  · rw [if_neg hc, if_neg (by omega)]

/-- The loop of lines 841-846 writes the arrow: the column and the row of
index `c` up to the diagonal. -/
theorem arrowMat_arrow_loop {α : Type} (b : Int → α) (c : Int) (A0 : Int → Int → α) :
    forLoop 0 c (fun i A => setEntry (setEntry A i c (b i)) c i (b i)) A0
      = fun p q =>
          if q = c ∧ 0 ≤ p ∧ p < c then b p
          else if p = c ∧ 0 ≤ q ∧ q < c then b q
          else A0 p q := by
  have h := forLoop_induction 0 c (fun i A => setEntry (setEntry A i c (b i)) c i (b i)) A0
    (fun i A => A = fun p q =>
      if q = c ∧ 0 ≤ p ∧ p < i then b p
      else if p = c ∧ 0 ≤ q ∧ q < i then b q
      else A0 p q)
    (by funext p q; rw [if_neg (by omega), if_neg (by omega)])
    (by
      intro i st hi1 hi2 hP
      rw [hP]
      funext p q
      simp only [setEntry]
      split_ifs <;> first | rfl | (exfalso; omega) | (congr 1; omega))
  rw [h]
  funext p q
  by_cases hc : q = c ∧ 0 ≤ p ∧ p < c
  · rw [if_pos hc, if_pos (by omega)]
  · rw [if_neg hc, if_neg (by omega)]
    by_cases hd : p = c ∧ 0 ≤ q ∧ q < c
    · rw [if_pos hd, if_pos (by omega)]
    · rw [if_neg hd, if_neg (by omega)]

/-- The loop of lines 848-853 writes the entries next to the diagonal from
the row `lo` on. -/
theorem arrowMat_subdiagonal_loop {α : Type} (b : Int → α) (lo hi : Int) (A0 : Int → Int → α) :
    forLoop lo hi (fun i A => setEntry (setEntry A i (i + 1) (b i)) (i + 1) i (b i)) A0
      = fun p q =>
          if q = p + 1 ∧ lo ≤ p ∧ p < hi then b p
          else if p = q + 1 ∧ lo ≤ q ∧ q < hi then b q
          else A0 p q := by
  have h := forLoop_induction lo hi
    (fun i A => setEntry (setEntry A i (i + 1) (b i)) (i + 1) i (b i)) A0
    (fun i A => A = fun p q =>
      if q = p + 1 ∧ lo ≤ p ∧ p < i then b p
      else if p = q + 1 ∧ lo ≤ q ∧ q < i then b q
      else A0 p q)
    (by funext p q; rw [if_neg (by omega), if_neg (by omega)])
    (by
      intro i st hi1 hi2 hP
      rw [hP]
      funext p q
      simp only [setEntry]
      split_ifs <;> first | rfl | (exfalso; omega) | (congr 1; omega))
  rw [h]
  funext p q
  by_cases hc : q = p + 1 ∧ lo ≤ p ∧ p < hi
  · rw [if_pos hc, if_pos (by omega)]
  · rw [if_neg hc, if_neg (by omega)]
    by_cases hd : p = q + 1 ∧ lo ≤ q ∧ q < hi
    · rw [if_pos hd, if_pos (by omega)]
    · rw [if_neg hd, if_neg (by omega)]

/-- The matrix built by `eigensolveFromArrowMat` in closed form, the later
loops overwriting the earlier ones. -/
theorem arrowMat_eq (a b : Int → R) (dim num_locked arrow_pos : Int) :
    arrowMat a b dim num_locked arrow_pos = fun p q =>
      if q = p + 1 ∧ arrow_pos - 1 ≤ p ∧ p < dim - 1 then b (p + num_locked)
      else if p = q + 1 ∧ arrow_pos - 1 ≤ q ∧ q < dim - 1 then b (q + num_locked)
      else if q = arrow_pos - 1 ∧ 0 ≤ p ∧ p < arrow_pos - 1 then b (p + num_locked)
      else if p = arrow_pos - 1 ∧ 0 ≤ q ∧ q < arrow_pos - 1 then b (q + num_locked)
      else if p = q ∧ 0 ≤ p ∧ p < dim then a (p + num_locked)
      else 0 := by
  unfold arrowMat
  dsimp only
  rw [arrowMat_diagonal_loop (fun i => a (i + num_locked)),
    arrowMat_arrow_loop (fun i => b (i + num_locked)),
    arrowMat_subdiagonal_loop (fun i => b (i + num_locked))]

/-- A loop that replaces the cell `i` of an array by a function of its content
changes the cells of the range, each once. -/
theorem forLoop_map_cells {α : Type} (lo hi : Int) (h : α → α) (a0 : Int → α) :
    forLoop lo hi (fun i a => Function.update a i (h (a i))) a0
      = fun q => if lo ≤ q ∧ q < hi then h (a0 q) else a0 q := by
  have hind := forLoop_induction lo hi (fun i a => Function.update a i (h (a i))) a0
    (fun i a => a = fun q => if lo ≤ q ∧ q < i then h (a0 q) else a0 q)
    (by funext q; rw [if_neg (by omega)])
    (by
      intro i st hi1 hi2 hP
      rw [hP]
      funext q
      dsimp only
      by_cases hq : q = i
      · subst hq
        rw [Function.update_same, if_neg (by omega), if_pos (by omega)]
      · rw [Function.update_noteq hq]
        by_cases hc : lo ≤ q ∧ q < i
        · rw [if_pos hc, if_pos (by omega)]
        · rw [if_neg hc, if_neg (by omega)])
  dsimp only at hind
  rw [hind]
  funext q
  by_cases hc : lo ≤ q ∧ q < hi
  · rw [if_pos hc, if_pos (by omega)]
  · rw [if_neg hc, if_neg (by omega)]

/-- The loop of lines 826-830 on the two arrays at once. -/
theorem forLoop_map_cells_pair {α : Type} (lo hi : Int) (h : α → α) (a0 b0 : Int → α) :
    forLoop lo hi
        (fun i (ab : (Int → α) × (Int → α)) =>
          (Function.update ab.1 i (h (ab.1 i)), Function.update ab.2 i (h (ab.2 i))))
        (a0, b0)
      = (fun q => if lo ≤ q ∧ q < hi then h (a0 q) else a0 q,
         fun q => if lo ≤ q ∧ q < hi then h (b0 q) else b0 q) := by
  have hind := forLoop_induction lo hi
    (fun i (ab : (Int → α) × (Int → α)) =>
      (Function.update ab.1 i (h (ab.1 i)), Function.update ab.2 i (h (ab.2 i))))
    (a0, b0)
    (fun i ab => ab =
      (fun q => if lo ≤ q ∧ q < i then h (a0 q) else a0 q,
       fun q => if lo ≤ q ∧ q < i then h (b0 q) else b0 q))
    (by refine Prod.ext ?_ ?_ <;> funext q <;> dsimp only <;> rw [if_neg (by omega)])
    (by
      intro i st hi1 hi2 hP
      rw [hP]
      refine Prod.ext ?_ ?_ <;> funext q <;> dsimp only
      · by_cases hq : q = i
        · subst hq
          rw [Function.update_same, if_neg (by omega), if_pos (by omega)]
        · rw [Function.update_noteq hq]
          by_cases hc : lo ≤ q ∧ q < i
          · rw [if_pos hc, if_pos (by omega)]
          · rw [if_neg hc, if_neg (by omega)]
      · by_cases hq : q = i
        · subst hq
          rw [Function.update_same, if_neg (by omega), if_pos (by omega)]
        · rw [Function.update_noteq hq]
          by_cases hc : lo ≤ q ∧ q < i
          · rw [if_pos hc, if_pos (by omega)]
          · rw [if_neg hc, if_neg (by omega)])
  dsimp only at hind
  rw [hind]
  refine Prod.ext ?_ ?_ <;> funext q <;> dsimp only
  · by_cases hc : lo ≤ q ∧ q < hi
    · rw [if_pos hc, if_pos (by omega)]
    · rw [if_neg hc, if_neg (by omega)]
  · by_cases hc : lo ≤ q ∧ q < hi
    · rw [if_pos hc, if_pos (by omega)]
    · rw [if_neg hc, if_neg (by omega)]

/-- A loop that writes the cell `i + c` of each of two arrays in the iteration
`i` writes the cells `c .. c + n - 1`. -/
theorem forLoop_write_pair {α : Type} (c n : Int) (f g : Int → α) (r0 a0 : Int → α) :
    forLoop 0 n
        (fun i (ra : (Int → α) × (Int → α)) =>
          (Function.update ra.1 (i + c) (f i), Function.update ra.2 (i + c) (g i)))
        (r0, a0)
      = (fun q => if c ≤ q ∧ q < c + n then f (q - c) else r0 q,
         fun q => if c ≤ q ∧ q < c + n then g (q - c) else a0 q) := by
  have hind := forLoop_induction 0 n
    (fun i (ra : (Int → α) × (Int → α)) =>
      (Function.update ra.1 (i + c) (f i), Function.update ra.2 (i + c) (g i)))
    (r0, a0)
    (fun i ra => ra =
      (fun q => if c ≤ q ∧ q < c + i then f (q - c) else r0 q,
       fun q => if c ≤ q ∧ q < c + i then g (q - c) else a0 q))
    (by refine Prod.ext ?_ ?_ <;> funext q <;> dsimp only <;> rw [if_neg (by omega)])
    (by
      intro i st hi1 hi2 hP
      rw [hP]
      refine Prod.ext ?_ ?_ <;> funext q <;> dsimp only
      · by_cases hq : q = i + c
        · subst hq
          rw [Function.update_same, if_pos (by omega)]
          congr 1
          omega
        · rw [Function.update_noteq hq]
          by_cases hc : c ≤ q ∧ q < c + i
          · rw [if_pos hc, if_pos (by omega)]
          · rw [if_neg hc, if_neg (by omega)]
      · by_cases hq : q = i + c
        · subst hq
          rw [Function.update_same, if_pos (by omega)]
          congr 1
          omega
        · rw [Function.update_noteq hq]
          by_cases hc : c ≤ q ∧ q < c + i
          · rw [if_pos hc, if_pos (by omega)]
          · rw [if_neg hc, if_neg (by omega)])
  dsimp only at hind
  rw [hind]
  refine Prod.ext ?_ ?_ <;> funext q <;> dsimp only
  · by_cases hc : c ≤ q ∧ q < c + n
    · rw [if_pos hc, if_pos (by omega)]
    · rw [if_neg hc, if_neg (by omega)]
  · by_cases hc : c ≤ q ∧ q < c + n
    · rw [if_pos hc, if_pos (by omega)]
    · rw [if_neg hc, if_neg (by omega)]

/-- The arrays after the inversion of the spectrum in closed form: when
`reverse` is set, `alpha` is negated on `[num_locked, nKr - 1)` and at
`nKr - 1`, and `beta` is negated on `[num_locked, nKr - 1)`. -/
theorem invertSpectrum_eq {K V : Type} (s : TRLMState R K V) (num_locked : Int) :
    invertSpectrum s num_locked =
      if s.reverse then
        (fun q => if q = s.nKr - 1 ∨ (num_locked ≤ q ∧ q < s.nKr - 1) then s.alpha q * (-1)
            else s.alpha q,
          fun q => if num_locked ≤ q ∧ q < s.nKr - 1 then s.beta q * (-1) else s.beta q)
      else (s.alpha, s.beta) := by
  unfold invertSpectrum
  dsimp only
  by_cases hrev : s.reverse = true
  · rw [if_pos hrev, if_pos hrev, forLoop_map_cells_pair _ _ (fun x => x * (-1))]
    refine Prod.ext ?_ rfl
    funext q
    dsimp only
    by_cases hq : q = s.nKr - 1
    · subst hq
      rw [Function.update_same, if_neg (by omega), if_pos (Or.inl rfl)]
    · rw [Function.update_noteq hq]
      by_cases hc : num_locked ≤ q ∧ q < s.nKr - 1
      · rw [if_pos hc, if_pos (Or.inr hc)]
      · rw [if_neg hc, if_neg (by rintro (h | h); exact hq h; exact hc h)]
  · rw [if_neg hrev, if_neg hrev]

/-- What `eigensolveFromArrowMat` leaves in `beta`, `residua` and `alpha`, in
terms of the arrays after the inversion and of the decomposition returned by
the dense solver. -/
theorem eigensolveFromArrowMat_arrays (E : Env R K V) (s : TRLMState R K V)
    (num_locked arrow_pos : Int) :
    (eigensolveFromArrowMat E s num_locked arrow_pos).beta = (invertSpectrum s num_locked).2 ∧
    (eigensolveFromArrowMat E s num_locked arrow_pos).residua =
      (fun q => if num_locked ≤ q ∧ q < s.nKr then
          |(invertSpectrum s num_locked).2 (s.nKr - 1)
            * (denseSolve E s num_locked arrow_pos).eigenvectors (q - num_locked)
                (s.nKr - num_locked - 1)|
        else s.residua q) ∧
    (eigensolveFromArrowMat E s num_locked arrow_pos).alpha =
      (fun q => if num_locked ≤ q ∧ q < s.nKr then
          (if s.reverse then (denseSolve E s num_locked arrow_pos).eigenvalues (q - num_locked) * (-1)
            else (denseSolve E s num_locked arrow_pos).eigenvalues (q - num_locked))
        else (invertSpectrum s num_locked).1 q) := by
  rw [eigensolveFromArrowMat_eq]
  dsimp only
  rw [forLoop_write_pair num_locked (s.nKr - num_locked)
    (fun i => |(invertSpectrum s num_locked).2 (s.nKr - 1)
      * (denseSolve E s num_locked arrow_pos).eigenvectors i (s.nKr - num_locked - 1)|)
    (fun i => (denseSolve E s num_locked arrow_pos).eigenvalues i)]
  refine ⟨rfl, ?_, ?_⟩
  · funext q
    dsimp only
    by_cases hc : num_locked ≤ q ∧ q < s.nKr
    · rw [if_pos hc, if_pos (by omega)]
    · rw [if_neg hc, if_neg (by omega)]
  · by_cases hrev : s.reverse = true
    · rw [if_pos hrev, forLoop_map_cells _ _ (fun x => x * (-1))]
      funext q
      dsimp only
      by_cases hc : num_locked ≤ q ∧ q < s.nKr
      · rw [if_pos hc, if_pos hc, if_pos (by omega), if_pos hrev]
      · rw [if_neg hc, if_neg hc, if_neg (by omega)]
    · rw [if_neg hrev]
      funext q
      dsimp only
      by_cases hc : num_locked ≤ q ∧ q < s.nKr
      · rw [if_pos hc, if_pos (by omega), if_neg hrev]
      · rw [if_neg hc, if_neg (by omega)]

/-- The entries of the matrix built from the arrays `a` and `b` when the
arrow position lies within the matrix. -/
theorem arrowMat_entries (a b : Int → R) (dim num_locked arrow_pos : Int)
    (h1 : 1 ≤ arrow_pos) (h2 : arrow_pos ≤ dim) :
    (∀ p q, arrowMat a b dim num_locked arrow_pos p q
      = arrowMat a b dim num_locked arrow_pos q p) ∧
    (∀ i, 0 ≤ i → i < dim → arrowMat a b dim num_locked arrow_pos i i = a (num_locked + i)) ∧
    (∀ i, 0 ≤ i → i < arrow_pos - 1 →
      arrowMat a b dim num_locked arrow_pos i (arrow_pos - 1) = b (num_locked + i)) ∧
    (∀ i, arrow_pos - 1 ≤ i → i < dim - 1 →
      arrowMat a b dim num_locked arrow_pos i (i + 1) = b (num_locked + i)) ∧
    (∀ p q, ¬ (p = q ∧ 0 ≤ p ∧ p < dim) →
      ¬ (q = arrow_pos - 1 ∧ 0 ≤ p ∧ p < arrow_pos - 1) →
      ¬ (p = arrow_pos - 1 ∧ 0 ≤ q ∧ q < arrow_pos - 1) →
      ¬ (q = p + 1 ∧ arrow_pos - 1 ≤ p ∧ p < dim - 1) →
      ¬ (p = q + 1 ∧ arrow_pos - 1 ≤ q ∧ q < dim - 1) →
      arrowMat a b dim num_locked arrow_pos p q = 0) ∧
    (∀ p q, ¬ (0 ≤ p ∧ p < dim ∧ 0 ≤ q ∧ q < dim) →
      arrowMat a b dim num_locked arrow_pos p q = 0) := by
  rw [arrowMat_eq]
  refine ⟨?_, ?_, ?_, ?_, ?_, ?_⟩
  · intro p q
    dsimp only
    split_ifs <;> first | rfl | (exfalso; omega) | (congr 1; omega)
  · intro i hi1 hi2
    dsimp only
    rw [if_neg (by omega), if_neg (by omega), if_neg (by omega), if_neg (by omega),
      if_pos (by omega), add_comm]
  · intro i hi1 hi2
    dsimp only
    rw [if_neg (by omega), if_neg (by omega), if_pos (by omega), add_comm]
  · intro i hi1 hi2
    dsimp only
    rw [if_pos (by omega), add_comm]
  · intro p q n1 n2 n3 n4 n5
    dsimp only
    rw [if_neg n4, if_neg n5, if_neg n2, if_neg n3, if_neg n1]
  · intro p q hout
    dsimp only
    rw [if_neg (by omega), if_neg (by omega), if_neg (by omega), if_neg (by omega),
      if_neg (by omega)]

/-- C25: with `num_locked < nKr` and `1 <= arrow_pos <= dim`, when `reverse`
is set the matrix handed to the dense solver is the negation of the arrow
matrix built from the arrays `alpha` and `beta` of the call, and the value
written back to `alpha[num_locked + i]` is the negated eigenvalue of index
`i`; when `reverse` is clear the matrix is the arrow matrix itself and the
eigenvalue is written back as it is; in both modes the entries `alpha[i]` and
`residua[i]` with `i < num_locked` are left as they were. -/
theorem eigensolveFromArrowMat_reverse (E : Env R K V) (s : TRLMState R K V)
    (num_locked arrow_pos : Int) (hdim : num_locked < s.nKr)
    (h1 : 1 ≤ arrow_pos) (h2 : arrow_pos ≤ s.nKr - num_locked) :
    (s.reverse = true →
      arrowMat (invertSpectrum s num_locked).1 (invertSpectrum s num_locked).2
          (s.nKr - num_locked) num_locked arrow_pos
        = (fun p q => -(arrowMat s.alpha s.beta (s.nKr - num_locked) num_locked arrow_pos p q)) ∧
      ∀ i, 0 ≤ i → i < s.nKr - num_locked →
        (eigensolveFromArrowMat E s num_locked arrow_pos).alpha (num_locked + i)
          = -((denseSolve E s num_locked arrow_pos).eigenvalues i)) ∧
    (s.reverse = false →
      arrowMat (invertSpectrum s num_locked).1 (invertSpectrum s num_locked).2
          (s.nKr - num_locked) num_locked arrow_pos
        = arrowMat s.alpha s.beta (s.nKr - num_locked) num_locked arrow_pos ∧
      ∀ i, 0 ≤ i → i < s.nKr - num_locked →
        (eigensolveFromArrowMat E s num_locked arrow_pos).alpha (num_locked + i)
          = (denseSolve E s num_locked arrow_pos).eigenvalues i) ∧
    (∀ q, q < num_locked →
      (eigensolveFromArrowMat E s num_locked arrow_pos).alpha q = s.alpha q ∧
      (eigensolveFromArrowMat E s num_locked arrow_pos).residua q = s.residua q) := by
  obtain ⟨-, hres, halpha⟩ := eigensolveFromArrowMat_arrays E s num_locked arrow_pos
  refine ⟨?_, ?_, ?_⟩
  · intro hrev
    constructor
    · rw [arrowMat_eq, arrowMat_eq, invertSpectrum_eq, if_pos hrev]
      funext p q
      dsimp only
      split_ifs <;> first | (exfalso; omega) | simp
    · intro i hi1 hi2
      rw [halpha]
      dsimp only
      rw [if_pos (by omega), if_pos hrev, mul_neg_one]
      congr 2
      omega
  · intro hrev
    constructor
    · rw [invertSpectrum_eq, if_neg (by simp [hrev])]
    · intro i hi1 hi2
      rw [halpha]
      dsimp only
      rw [if_pos (by omega), if_neg (by simp [hrev])]
      congr 1
      omega
  · intro q hq
    rw [halpha, hres]
    dsimp only
    rw [if_neg (by omega), if_neg (by omega), invertSpectrum_eq]
    refine ⟨?_, rfl⟩
    by_cases hrev : s.reverse = true
    · rw [if_pos hrev]
      dsimp only
      rw [if_neg (by omega)]
    · rw [if_neg hrev]

theorem eigensolveFromArrowMat_reverse_witness :
    (0 : Int) < exampleReversed.nKr ∧ (1 : Int) ≤ 2 ∧ (2 : Int) ≤ exampleReversed.nKr - 0 ∧
    exampleReversed.reverse = true ∧
    arrowMat (invertSpectrum exampleReversed 0).1 (invertSpectrum exampleReversed 0).2
        (exampleReversed.nKr - 0) 0 2
      = (fun p q => -(arrowMat exampleReversed.alpha exampleReversed.beta
          (exampleReversed.nKr - 0) 0 2 p q)) ∧
    ∀ i, 0 ≤ i → i < exampleReversed.nKr - 0 →
      (eigensolveFromArrowMat exampleEnv exampleReversed 0 2).alpha (0 + i)
        = -((denseSolve exampleEnv exampleReversed 0 2).eigenvalues i) :=
  ⟨by decide, by decide, by decide, rfl,
    (eigensolveFromArrowMat_reverse exampleEnv exampleReversed 0 2 (by decide) (by decide)
      (by decide)).1 rfl⟩

/-- A loop that writes the cell `c + j` of an array in the iteration `j`
writes the cells `c .. c + n - 1`. -/
theorem forLoop_write {α : Type} (c n : Int) (g : Int → α) (a0 : Int → α) :
    forLoop 0 n (fun j a => Function.update a (c + j) (g j)) a0
      = fun q => if c ≤ q ∧ q < c + n then g (q - c) else a0 q := by
  have hind := forLoop_induction 0 n (fun j a => Function.update a (c + j) (g j)) a0
    (fun i a => a = fun q => if c ≤ q ∧ q < c + i then g (q - c) else a0 q)
    (by funext q; rw [if_neg (by omega)])
    (by
      intro i st hi1 hi2 hP
      rw [hP]
      funext q
      dsimp only
      by_cases hq : q = c + i
      · subst hq
        rw [Function.update_same, if_pos (by omega)]
        congr 1
        omega
      · rw [Function.update_noteq hq]
        by_cases hc : c ≤ q ∧ q < c + i
        · rw [if_pos hc, if_pos (by omega)]
        · rw [if_neg hc, if_neg (by omega)])
  dsimp only at hind
  rw [hind]
  funext q
  by_cases hc : c ≤ q ∧ q < c + n
  · rw [if_pos hc, if_pos (by omega)]
  · rw [if_neg hc, if_neg (by omega)]

/-- The two nested loops of lines 860-861 leave the entry `j` of the
eigenvector `i` in the cell `dim * i + j`. -/
theorem ritz_mat_loops {α : Type} (dim : Int) (e : Int → Int → α) (rm0 : Int → α)
    (i j : Int) (hi1 : 0 ≤ i) (hi2 : i < dim) (hj1 : 0 ≤ j) (hj2 : j < dim) :
    forLoop 0 dim
        (fun i rm => forLoop 0 dim (fun j rm => Function.update rm (dim * i + j) (e i j)) rm)
        rm0 (dim * i + j)
      = e i j := by
  have hind := forLoop_induction 0 dim
    (fun i rm => forLoop 0 dim (fun j rm => Function.update rm (dim * i + j) (e i j)) rm) rm0
    (fun n rm => ∀ i j : Int, 0 ≤ i → i < n → 0 ≤ j → j < dim → rm (dim * i + j) = e i j)
    (by intro i j h1 h2; omega)
    (by
      intro n st hn1 hn2 hP i j h1 h2 h3 h4
      dsimp only
      rw [forLoop_write (dim * n) dim (fun j => e n j)]
      dsimp only
      by_cases hin : i = n
      · subst hin
        rw [if_pos (by omega)]
        congr 1
        omega
      · have hmul : dim * (i + 1) ≤ dim * n :=
          mul_le_mul_of_nonneg_left (by omega) (by omega)
        rw [mul_add, mul_one] at hmul
        rw [if_neg (by omega)]
        exact hP i j h1 (by omega) h3 h4)
  exact hind i j hi1 (by omega) hj1 hj2

/-- C26: after `eigensolveFromArrowMat`, for every `i < dim`,
`dim = nKr - num_locked`, the residual estimate `residua[num_locked + i]` is
`|beta[nKr - 1] * e_i[dim - 1]|`, where `beta[nKr - 1]` is the value the array
held at the call (the inversion of the spectrum leaves it alone) and `e_i` is
the eigenvector of index `i` returned by the dense solver; the cells
`dim * i .. dim * i + dim - 1` of `ritz_mat` hold that same eigenvector. -/
theorem eigensolveFromArrowMat_residua (E : Env R K V) (s : TRLMState R K V)
    (num_locked arrow_pos : Int) (i : Int) (hi1 : 0 ≤ i) (hi2 : i < s.nKr - num_locked) :
    (eigensolveFromArrowMat E s num_locked arrow_pos).residua (num_locked + i)
      = |s.beta (s.nKr - 1)
          * (denseSolve E s num_locked arrow_pos).eigenvectors i (s.nKr - num_locked - 1)| ∧
    ∀ j, 0 ≤ j → j < s.nKr - num_locked →
      (eigensolveFromArrowMat E s num_locked arrow_pos).ritz_mat ((s.nKr - num_locked) * i + j)
        = (denseSolve E s num_locked arrow_pos).eigenvectors i j := by
  obtain ⟨-, hres, -⟩ := eigensolveFromArrowMat_arrays E s num_locked arrow_pos
  constructor
  · rw [hres]
    dsimp only
    have hb : (invertSpectrum s num_locked).2 (s.nKr - 1) = s.beta (s.nKr - 1) := by
      rw [invertSpectrum_eq]
      by_cases hrev : s.reverse = true
      · rw [if_pos hrev]
        dsimp only
        rw [if_neg (by omega)]
      · rw [if_neg hrev]
    rw [if_pos (by omega), hb]
    congr 3
    omega
  · intro j hj1 hj2
    rw [eigensolveFromArrowMat_eq]
    exact ritz_mat_loops (s.nKr - num_locked) _ _ i j hi1 hi2 hj1 hj2

theorem eigensolveFromArrowMat_residua_witness :
    (0 : Int) ≤ 3 ∧ (3 : Int) < exampleState.nKr - 0 ∧
    ((eigensolveFromArrowMat exampleEnv exampleState 0 2).residua (0 + 3)
      = |exampleState.beta (exampleState.nKr - 1)
          * (denseSolve exampleEnv exampleState 0 2).eigenvectors 3 (exampleState.nKr - 0 - 1)| ∧
    ∀ j, 0 ≤ j → j < exampleState.nKr - 0 →
      (eigensolveFromArrowMat exampleEnv exampleState 0 2).ritz_mat
          ((exampleState.nKr - 0) * 3 + j)
        = (denseSolve exampleEnv exampleState 0 2).eigenvectors 3 j) :=
  ⟨by decide, by decide,
    eigensolveFromArrowMat_residua exampleEnv exampleState 0 2 3 (by decide) (by decide)⟩

/-- What `eigensolveFromArrowMat` leaves in `alpha`, `residua` and `ritz_mat`
is read from the decomposition the dense solver returns for the matrix built
from the arrays after the inversion of the spectrum. -/
theorem eigensolveFromArrowMat_outputs (E : Env R K V) (s : TRLMState R K V)
    (num_locked arrow_pos : Int) (i : Int) (hi1 : 0 ≤ i) (hi2 : i < s.nKr - num_locked) :
    (eigensolveFromArrowMat E s num_locked arrow_pos).alpha (num_locked + i)
      = (if s.reverse then -1 else 1) *
        (E.eigensolver (s.nKr - num_locked)
          (arrowMat (invertSpectrum s num_locked).1 (invertSpectrum s num_locked).2
            (s.nKr - num_locked) num_locked arrow_pos)).eigenvalues i ∧
    (eigensolveFromArrowMat E s num_locked arrow_pos).residua (num_locked + i)
      = |s.beta (s.nKr - 1) *
        (E.eigensolver (s.nKr - num_locked)
          (arrowMat (invertSpectrum s num_locked).1 (invertSpectrum s num_locked).2
            (s.nKr - num_locked) num_locked arrow_pos)).eigenvectors i
              (s.nKr - num_locked - 1)| ∧
    ∀ j, 0 ≤ j → j < s.nKr - num_locked →
      (eigensolveFromArrowMat E s num_locked arrow_pos).ritz_mat ((s.nKr - num_locked) * i + j)
        = (E.eigensolver (s.nKr - num_locked)
          (arrowMat (invertSpectrum s num_locked).1 (invertSpectrum s num_locked).2
            (s.nKr - num_locked) num_locked arrow_pos)).eigenvectors i j := by
  obtain ⟨-, hres, halpha⟩ := eigensolveFromArrowMat_arrays E s num_locked arrow_pos
  have hidx : num_locked + i - num_locked = i := by omega
  refine ⟨?_, ?_, ?_⟩
  · rw [halpha]
    dsimp only
    rw [if_pos (by omega), hidx]
    by_cases hrev : s.reverse = true
    · rw [if_pos hrev, if_pos hrev, mul_neg_one, neg_one_mul]
      rfl
    · rw [if_neg hrev, if_neg hrev, one_mul]
      rfl
  · rw [hres]
    dsimp only
    have hb : (invertSpectrum s num_locked).2 (s.nKr - 1) = s.beta (s.nKr - 1) := by
      rw [invertSpectrum_eq]
      by_cases hrev : s.reverse = true
      · rw [if_pos hrev]
        dsimp only
        rw [if_neg (by omega)]
      · rw [if_neg hrev]
    rw [if_pos (by omega), hb, hidx]
    rfl
  · intro j hj1 hj2
    rw [eigensolveFromArrowMat_eq]
    exact ritz_mat_loops (s.nKr - num_locked) _ _ i j hi1 hi2 hj1 hj2

/-- The arrays the matrix is built from, in terms of the arrays of the call:
on the cells the matrix reads, they are the arrays of the call when `reverse`
is clear and their negation when it is set. -/
theorem invertSpectrum_cells {K V : Type} (s : TRLMState R K V) (num_locked : Int) (i : Int)
    (hi1 : 0 ≤ i) :
    (i < s.nKr - num_locked →
      (invertSpectrum s num_locked).1 (num_locked + i)
        = (if s.reverse then -1 else 1) * s.alpha (num_locked + i)) ∧
    (i < s.nKr - num_locked - 1 →
      (invertSpectrum s num_locked).2 (num_locked + i)
        = (if s.reverse then -1 else 1) * s.beta (num_locked + i)) := by
  rw [invertSpectrum_eq]
  by_cases hrev : s.reverse = true
  · rw [if_pos hrev, if_pos hrev]
    dsimp only
    constructor
    · intro hi2
      by_cases hl : num_locked + i = s.nKr - 1
      · rw [if_pos (Or.inl hl), mul_neg_one, neg_one_mul]
      · rw [if_pos (Or.inr (by omega)), mul_neg_one, neg_one_mul]
    · intro hi2
      rw [if_pos (by omega), mul_neg_one, neg_one_mul]
  · rw [if_neg hrev, if_neg hrev]
    exact ⟨fun _ => (one_mul _).symm, fun _ => (one_mul _).symm⟩

/-- C24, counterexample: in the example state that sorts in the reverse
direction, in its first cycle (`num_locked = 0`, `arrow_pos = 1`), the arrays
of the call hold `alpha[0] = 1` and `beta[0] = 1`, and the matrix handed to
the dense solver, whatever the solver, has `A(0, 0) = -1` and
`A(0, 1) = -1`. -/
theorem eigensolveFromArrowMat_matrix_negated :
    exampleReversed.reverse = true ∧
    exampleReversed.alpha (0 + 0) = 1 ∧ exampleReversed.beta (0 + 0) = 1 ∧
    ∃ A : Int → Int → ℚ,
      (∀ (E : Env ℚ ℚ ℚ) (i : Int), 0 ≤ i → i < exampleReversed.nKr - 0 →
        (eigensolveFromArrowMat E exampleReversed 0 1).alpha (0 + i)
          = -1 * (E.eigensolver (exampleReversed.nKr - 0) A).eigenvalues i ∧
        (eigensolveFromArrowMat E exampleReversed 0 1).residua (0 + i)
          = |exampleReversed.beta (exampleReversed.nKr - 1)
            * (E.eigensolver (exampleReversed.nKr - 0) A).eigenvectors i
                (exampleReversed.nKr - 0 - 1)| ∧
        ∀ j, 0 ≤ j → j < exampleReversed.nKr - 0 →
          (eigensolveFromArrowMat E exampleReversed 0 1).ritz_mat
              ((exampleReversed.nKr - 0) * i + j)
            = (E.eigensolver (exampleReversed.nKr - 0) A).eigenvectors i j) ∧
      A 0 0 = -1 ∧ A 0 (0 + 1) = -1 := by
  obtain ⟨-, e2, -, e4, -, -⟩ :=
    arrowMat_entries (invertSpectrum exampleReversed 0).1 (invertSpectrum exampleReversed 0).2
      (exampleReversed.nKr - 0) 0 1 (by decide) (by decide)
  have ha : exampleReversed.alpha (0 + 0) = 1 := by
    norm_num [exampleReversed, exampleState]
  have hb : exampleReversed.beta (0 + 0) = 1 := rfl
  have hs : (if exampleReversed.reverse = true then (-1 : ℚ) else 1) = -1 := rfl
  refine ⟨rfl, ha, hb,
    arrowMat (invertSpectrum exampleReversed 0).1 (invertSpectrum exampleReversed 0).2
      (exampleReversed.nKr - 0) 0 1, ?_, ?_, ?_⟩
  · intro E i hi1 hi2
    have h := eigensolveFromArrowMat_outputs E exampleReversed 0 1 i hi1 hi2
    rw [hs] at h
    exact h
  · rw [e2 0 (by decide) (by decide),
      (invertSpectrum_cells exampleReversed 0 0 (by decide)).1 (by decide), hs, ha]
    norm_num
  · rw [e4 0 (by decide) (by decide),
      (invertSpectrum_cells exampleReversed 0 0 (by decide)).2 (by decide), hs, hb]
    norm_num

/-- C24 (amended): for `1 <= arrow_pos <= dim`, `dim = nKr - num_locked`,
there is one matrix `A` that `eigensolveFromArrowMat` hands to the dense
solver, whatever the solver: the values it writes to `alpha`, `residua` and
`ritz_mat` are read from the decomposition of `A`.  `A` is symmetric; in terms
of the arrays `alpha` and `beta` of the call and of the sign `sigma`, which
is `1` when `reverse` is clear and `-1` when it is set, its diagonal is
`A(i, i) = sigma alpha[num_locked + i]` for `i < dim`, its arrow entries are
`A(i, arrow_pos - 1) = sigma beta[num_locked + i]` for `i < arrow_pos - 1`,
its entries next to the diagonal are `A(i, i + 1) = sigma beta[num_locked + i]`
for `arrow_pos - 1 <= i < dim - 1`, and every other entry, in particular every
entry outside the `dim` rows and columns, is zero. -/
theorem eigensolveFromArrowMat_hands_matrix (s : TRLMState R K V) (num_locked arrow_pos : Int)
    (h1 : 1 ≤ arrow_pos) (h2 : arrow_pos ≤ s.nKr - num_locked) :
    ∃ A : Int → Int → R,
      (∀ (E : Env R K V) (i : Int), 0 ≤ i → i < s.nKr - num_locked →
        (eigensolveFromArrowMat E s num_locked arrow_pos).alpha (num_locked + i)
          = (if s.reverse then -1 else 1)
            * (E.eigensolver (s.nKr - num_locked) A).eigenvalues i ∧
        (eigensolveFromArrowMat E s num_locked arrow_pos).residua (num_locked + i)
          = |s.beta (s.nKr - 1)
            * (E.eigensolver (s.nKr - num_locked) A).eigenvectors i (s.nKr - num_locked - 1)| ∧
        ∀ j, 0 ≤ j → j < s.nKr - num_locked →
          (eigensolveFromArrowMat E s num_locked arrow_pos).ritz_mat
              ((s.nKr - num_locked) * i + j)
            = (E.eigensolver (s.nKr - num_locked) A).eigenvectors i j) ∧
      (∀ p q, A p q = A q p) ∧
      (∀ i, 0 ≤ i → i < s.nKr - num_locked →
        A i i = (if s.reverse then -1 else 1) * s.alpha (num_locked + i)) ∧
      (∀ i, 0 ≤ i → i < arrow_pos - 1 →
        A i (arrow_pos - 1) = (if s.reverse then -1 else 1) * s.beta (num_locked + i)) ∧
      (∀ i, arrow_pos - 1 ≤ i → i < s.nKr - num_locked - 1 →
        A i (i + 1) = (if s.reverse then -1 else 1) * s.beta (num_locked + i)) ∧
      (∀ p q, ¬ (p = q ∧ 0 ≤ p ∧ p < s.nKr - num_locked) →
        ¬ (q = arrow_pos - 1 ∧ 0 ≤ p ∧ p < arrow_pos - 1) →
        ¬ (p = arrow_pos - 1 ∧ 0 ≤ q ∧ q < arrow_pos - 1) →
        ¬ (q = p + 1 ∧ arrow_pos - 1 ≤ p ∧ p < s.nKr - num_locked - 1) →
        ¬ (p = q + 1 ∧ arrow_pos - 1 ≤ q ∧ q < s.nKr - num_locked - 1) →
        A p q = 0) ∧
      (∀ p q, ¬ (0 ≤ p ∧ p < s.nKr - num_locked ∧ 0 ≤ q ∧ q < s.nKr - num_locked) →
        A p q = 0) := by
  obtain ⟨e1, e2, e3, e4, e5, e6⟩ :=
    arrowMat_entries (invertSpectrum s num_locked).1 (invertSpectrum s num_locked).2
      (s.nKr - num_locked) num_locked arrow_pos h1 h2
  refine ⟨arrowMat (invertSpectrum s num_locked).1 (invertSpectrum s num_locked).2
    (s.nKr - num_locked) num_locked arrow_pos, ?_, e1, ?_, ?_, ?_, e5, e6⟩
  · intro E i hi1 hi2
    exact eigensolveFromArrowMat_outputs E s num_locked arrow_pos i hi1 hi2
  · intro i hi1 hi2
    rw [e2 i hi1 hi2]
    exact (invertSpectrum_cells s num_locked i hi1).1 hi2
  · intro i hi1 hi2
    rw [e3 i hi1 hi2]
    exact (invertSpectrum_cells s num_locked i hi1).2 (by omega)
  · intro i hi1 hi2
    rw [e4 i hi1 hi2]
    exact (invertSpectrum_cells s num_locked i (by omega)).2 hi2

/-- C24 (the amended theorem at a concrete call): in the example state that
sorts in the reverse direction, with `num_locked = 0` and `arrow_pos = 1`,
the matrix handed to the dense solver is symmetric and its diagonal is the
negation of the array `alpha` of the call. -/
theorem eigensolveFromArrowMat_hands_matrix_witness :
    (1 : Int) ≤ 1 ∧ (1 : Int) ≤ exampleReversed.nKr - 0 ∧
    ∃ A : Int → Int → ℚ,
      (∀ (E : Env ℚ ℚ ℚ) (i : Int), 0 ≤ i → i < exampleReversed.nKr - 0 →
        (eigensolveFromArrowMat E exampleReversed 0 1).alpha (0 + i)
          = (if exampleReversed.reverse then -1 else 1)
            * (E.eigensolver (exampleReversed.nKr - 0) A).eigenvalues i) ∧
      (∀ p q, A p q = A q p) ∧
      (∀ i, 0 ≤ i → i < exampleReversed.nKr - 0 →
        A i i = (if exampleReversed.reverse then -1 else 1) * exampleReversed.alpha (0 + i)) := by
  obtain ⟨A, h1, h2, h3, -⟩ :=
    eigensolveFromArrowMat_hands_matrix exampleReversed 0 1 (by decide) (by decide)
  exact ⟨by decide, by decide, A, fun E i hi1 hi2 => (h1 E i hi1 hi2).1, h2, h3⟩

end arrow

section scans

variable {R K V : Type} [LinearOrderedField R] [Field K] [AddCommGroup V] [Module K V]

/-- A threshold scan entered just after the last offset that passed stops
either at the end of its range or just before an offset that fails. -/
theorem thresholdScan_stop (residua : Int → R) (off : Int) (thr : R) (n : Nat) :
    ∀ i last : Int, last = i - 1 →
      thresholdScan residua off thr n i last + 1 < i + n →
      ¬ residua (thresholdScan residua off thr n i last + 1 + off) < thr := by
  induction n with
  | zero =>
    intro i last h hlt
    simp only [thresholdScan] at hlt
    push_cast at hlt
    omega
  | succ n ih =>
    intro i last h
    by_cases hc : residua (i + off) < thr
    · simp only [thresholdScan, hc, if_true]
      intro hlt
      exact ih (i + 1) i (by omega) (by push_cast at hlt; omega)
    · simp only [thresholdScan, hc, if_false]
      intro _
      have e : last + 1 = i := by omega
      rw [e]
      exact hc

/-- The loop of lines 591-593 leaves the largest of the value `mat_norm` had
and of the moduli of the cells of `alpha` it visits. -/
theorem mat_norm_loop (alpha : Int → R) (lo hi : Int) (m0 : R) :
    m0 ≤ forLoop lo hi (fun i m => if |alpha i| > m then |alpha i| else m) m0 ∧
    (∀ i, lo ≤ i → i < hi →
      |alpha i| ≤ forLoop lo hi (fun i m => if |alpha i| > m then |alpha i| else m) m0) ∧
    (forLoop lo hi (fun i m => if |alpha i| > m then |alpha i| else m) m0 = m0 ∨
      ∃ i, lo ≤ i ∧ i < hi ∧
        forLoop lo hi (fun i m => if |alpha i| > m then |alpha i| else m) m0 = |alpha i|) := by
  have hind := forLoop_induction lo hi (fun i m => if |alpha i| > m then |alpha i| else m) m0
    (fun k m => m0 ≤ m ∧ (∀ i, lo ≤ i → i < k → |alpha i| ≤ m) ∧
      (m = m0 ∨ ∃ i, lo ≤ i ∧ i < k ∧ i < hi ∧ m = |alpha i|))
    ⟨le_refl _, fun i h1 h2 => by omega, Or.inl rfl⟩
    (by
      intro k m hk1 hk2 hP
      obtain ⟨p1, p2, p3⟩ := hP
      dsimp only
      by_cases hgt : |alpha k| > m
      · rw [if_pos hgt]
        refine ⟨le_trans p1 (le_of_lt hgt), ?_, Or.inr ⟨k, hk1, by omega, hk2, rfl⟩⟩
        intro i h1 h2
        by_cases hik : i = k
        · rw [hik]
        · exact le_trans (p2 i h1 (by omega)) (le_of_lt hgt)
      · rw [if_neg hgt]
        refine ⟨p1, ?_, ?_⟩
        · intro i h1 h2
          by_cases hik : i = k
          · rw [hik]; exact le_of_not_lt hgt
          · exact p2 i h1 (by omega)
        · rcases p3 with h | ⟨i, h1, h2, h3, h4⟩
          · exact Or.inl h
          · exact Or.inr ⟨i, h1, by omega, h3, h4⟩)
  obtain ⟨q1, q2, q3⟩ := hind
  refine ⟨q1, fun i h1 h2 => q2 i h1 (by omega), ?_⟩
  rcases q3 with h | ⟨i, h1, -, h3, h4⟩
  · exact Or.inl h
  · exact Or.inr ⟨i, h1, h3, h4⟩

/-- C27: in a restart cycle entered with `num_locked < nKr`, after the dense
eigensolve, `mat_norm` becomes the largest of its former value and of the
moduli `|alpha[i]|`, `num_locked <= i < nKr`, and `iter_locked` is the largest
`i` in `[0, dim - 1]`, `dim = nKr - num_locked`, such that
`residua[num_locked + k] < epsilon * mat_norm` for every `1 <= k <= i`: the
offset 0 is not tested and the scan stops at the first offset that fails. -/
theorem iter_locked_is_largest (E : Env R K V) (epsilon : R) (s : TRLMState R K V)
    (hdim : s.num_locked < s.nKr) :
    s.mat_norm ≤ (lockAndConverge E epsilon s).mat_norm ∧
    (∀ i, s.num_locked ≤ i → i < s.nKr → |s.alpha i| ≤ (lockAndConverge E epsilon s).mat_norm) ∧
    ((lockAndConverge E epsilon s).mat_norm = s.mat_norm ∨
      ∃ i, s.num_locked ≤ i ∧ i < s.nKr ∧ (lockAndConverge E epsilon s).mat_norm = |s.alpha i|) ∧
    0 ≤ (lockAndConverge E epsilon s).iter_locked ∧
    (lockAndConverge E epsilon s).iter_locked ≤ s.nKr - s.num_locked - 1 ∧
    (∀ k, 1 ≤ k → k ≤ (lockAndConverge E epsilon s).iter_locked →
      s.residua (s.num_locked + k) < epsilon * (lockAndConverge E epsilon s).mat_norm) ∧
    (∀ i, 0 ≤ i → i ≤ s.nKr - s.num_locked - 1 →
      (∀ k, 1 ≤ k → k ≤ i →
        s.residua (s.num_locked + k) < epsilon * (lockAndConverge E epsilon s).mat_norm) →
      i ≤ (lockAndConverge E epsilon s).iter_locked) := by
  obtain ⟨hmat, hlock, -⟩ := lockAndConverge_counters E epsilon s
  obtain ⟨m1, m2, m3⟩ := mat_norm_loop s.alpha s.num_locked s.nKr s.mat_norm
  rw [← hmat] at m1 m2 m3
  have hspec := thresholdScan_spec s.residua s.num_locked
    (epsilon * (lockAndConverge E epsilon s).mat_norm) (s.nKr - s.num_locked - 1).toNat 1 0
    Int.zero_lt_one
  have hstop := thresholdScan_stop s.residua s.num_locked
    (epsilon * (lockAndConverge E epsilon s).mat_norm) (s.nKr - s.num_locked - 1).toNat 1 0
    (by omega)
  rw [← hlock] at hspec hstop
  obtain ⟨s1, s2, s3⟩ := hspec
  refine ⟨m1, m2, m3, s1, by omega, ?_, ?_⟩
  · intro k hk1 hk2
    rw [add_comm]
    exact s3 k hk1 hk2
  · intro i hi1 hi2 hall
    by_contra hlt
    have hfail := hstop (by omega)
    have hpass := hall ((lockAndConverge E epsilon s).iter_locked + 1) (by omega) (by omega)
    rw [add_comm] at hpass
    exact hfail hpass

theorem iter_locked_is_largest_witness :
    exampleState.num_locked < exampleState.nKr ∧
    0 ≤ (lockAndConverge exampleEnv (precisionEpsilon exampleEnv) exampleState).iter_locked ∧
    (lockAndConverge exampleEnv (precisionEpsilon exampleEnv) exampleState).iter_locked
      ≤ exampleState.nKr - exampleState.num_locked - 1 :=
  ⟨by decide,
    (iter_locked_is_largest exampleEnv (precisionEpsilon exampleEnv) exampleState
      (by decide)).2.2.2.1,
    (iter_locked_is_largest exampleEnv (precisionEpsilon exampleEnv) exampleState
      (by decide)).2.2.2.2.1⟩

/-- C28: in a restart cycle entered with `num_locked < nKr`, `iter_converged`
is the largest `i` in `[iter_locked, dim - 1]`, `dim = nKr - num_locked`, such
that `residua[num_locked + k] < tol * mat_norm` for every
`iter_locked < k <= i`; so `iter_locked <= iter_converged <= dim - 1`, and
after the update of the counters `num_locked <= num_converged`. -/
theorem iter_converged_is_largest (E : Env R K V) (epsilon : R) (s : TRLMState R K V)
    (hdim : s.num_locked < s.nKr) :
    (lockAndConverge E epsilon s).iter_locked ≤ (lockAndConverge E epsilon s).iter_converged ∧
    (lockAndConverge E epsilon s).iter_converged ≤ s.nKr - s.num_locked - 1 ∧
    (∀ k, (lockAndConverge E epsilon s).iter_locked < k →
      k ≤ (lockAndConverge E epsilon s).iter_converged →
      s.residua (s.num_locked + k) < s.tol * (lockAndConverge E epsilon s).mat_norm) ∧
    (∀ i, (lockAndConverge E epsilon s).iter_locked ≤ i → i ≤ s.nKr - s.num_locked - 1 →
      (∀ k, (lockAndConverge E epsilon s).iter_locked < k → k ≤ i →
        s.residua (s.num_locked + k) < s.tol * (lockAndConverge E epsilon s).mat_norm) →
      i ≤ (lockAndConverge E epsilon s).iter_converged) ∧
    (lockAndConverge E epsilon s).num_locked ≤ (lockAndConverge E epsilon s).num_converged := by
  obtain ⟨-, hlock, hcv, -, hnc, -, hnl⟩ := lockAndConverge_counters E epsilon s
  have hl := thresholdScan_spec s.residua s.num_locked
    (epsilon * (lockAndConverge E epsilon s).mat_norm) (s.nKr - s.num_locked - 1).toNat 1 0
    Int.zero_lt_one
  rw [← hlock] at hl
  obtain ⟨l1, l2, -⟩ := hl
  have hspec := thresholdScan_spec s.residua s.num_locked
    (s.tol * (lockAndConverge E epsilon s).mat_norm)
    (s.nKr - s.num_locked - ((lockAndConverge E epsilon s).iter_locked + 1)).toNat
    ((lockAndConverge E epsilon s).iter_locked + 1) (lockAndConverge E epsilon s).iter_locked
    (by omega)
  have hstop := thresholdScan_stop s.residua s.num_locked
    (s.tol * (lockAndConverge E epsilon s).mat_norm)
    (s.nKr - s.num_locked - ((lockAndConverge E epsilon s).iter_locked + 1)).toNat
    ((lockAndConverge E epsilon s).iter_locked + 1) (lockAndConverge E epsilon s).iter_locked
    (by omega)
  rw [← hcv] at hspec hstop
  obtain ⟨s1, s2, s3⟩ := hspec
  clear hlock hcv
  refine ⟨s1, by omega, ?_, ?_, by omega⟩
  · intro k hk1 hk2
    rw [add_comm]
    exact s3 k (by omega) hk2
  · intro i hi1 hi2 hall
    by_contra hlt
    have hfail := hstop (by omega)
    have hpass := hall ((lockAndConverge E epsilon s).iter_converged + 1) (by omega) (by omega)
    rw [add_comm] at hpass
    exact hfail hpass

theorem iter_converged_is_largest_witness :
    exampleState.num_locked < exampleState.nKr ∧
    (lockAndConverge exampleEnv (precisionEpsilon exampleEnv) exampleState).iter_locked
      ≤ (lockAndConverge exampleEnv (precisionEpsilon exampleEnv) exampleState).iter_converged ∧
    (lockAndConverge exampleEnv (precisionEpsilon exampleEnv) exampleState).iter_converged
      ≤ exampleState.nKr - exampleState.num_locked - 1 :=
  ⟨by decide,
    (iter_converged_is_largest exampleEnv (precisionEpsilon exampleEnv) exampleState
      (by decide)).1,
    (iter_converged_is_largest exampleEnv (precisionEpsilon exampleEnv) exampleState
      (by decide)).2.1⟩

/-- C29: a restart cycle of a well configured solver returns with
`iter_keep = min(iter_converged + (nKr - num_converged) / 2, nKr - num_locked - 12)`,
the division truncating and `num_converged`, `num_locked` being the values at
the entry of the cycle; so `iter_keep <= nKr - num_locked - 12`, and
`num_keep = num_locked + iter_keep <= nKr - 12`, again with the `num_locked`
of the entry. -/
theorem iter_keep_formula (E : Env R K V) (epsilon : R) (s : TRLMState R K V)
    (hcfg : ¬ (s.eig_param.use_poly_acc = true ∧ s.eig_param.poly_deg = 0)) :
    ∃ s' : TRLMState R K V, restartCycle E epsilon s = .ok s' ∧
      s'.iter_keep
        = min (s'.iter_converged + Int.tdiv (s.nKr - s.num_converged) 2)
            (s.nKr - s.num_locked - 12) ∧
      s'.iter_keep ≤ s.nKr - s.num_locked - 12 ∧
      s'.num_keep = s.num_locked + s'.iter_keep ∧
      s'.num_keep ≤ s.nKr - 12 := by
  obtain ⟨s1, hc, -, -, -, -, -, hk, -, -, hl, hnc, -, -⟩ := restartCycle_ok E epsilon s hcfg
  obtain ⟨-, -, -, hkeep, -, hnk, -⟩ := lockAndConverge_counters E epsilon s1
  rw [hk, hl, hnc] at hkeep
  rw [hl] at hnk
  have hle : (lockAndConverge E epsilon s1).iter_keep ≤ s.nKr - s.num_locked - 12 := by
    rw [hkeep]
    exact min_le_right _ _
  refine ⟨lockAndConverge E epsilon s1, hc, hkeep, hle, hnk, ?_⟩
  rw [hnk]
  omega

theorem iter_keep_formula_witness :
    ¬ (exampleState.eig_param.use_poly_acc = true ∧ exampleState.eig_param.poly_deg = 0) ∧
    ∃ s' : TRLMState ℚ ℚ ℚ,
      restartCycle exampleEnv (precisionEpsilon exampleEnv) exampleState = .ok s' ∧
      s'.iter_keep
        = min (s'.iter_converged + Int.tdiv (exampleState.nKr - exampleState.num_converged) 2)
            (exampleState.nKr - exampleState.num_locked - 12) ∧
      s'.iter_keep ≤ exampleState.nKr - exampleState.num_locked - 12 ∧
      s'.num_keep = exampleState.num_locked + s'.iter_keep ∧
      s'.num_keep ≤ exampleState.nKr - 12 :=
  ⟨by decide,
    iter_keep_formula exampleEnv (precisionEpsilon exampleEnv) exampleState (by decide)⟩

end scans

section keptRitz

variable {R K V : Type} [LinearOrderedField R] [Field K] [AddCommGroup V] [Module K V]

/-- The loop of lines 884-889 appends vectors at the indices from the size of
the basis on: the cells below the size are left alone. -/
theorem keptRitz_grow_loop {α : Type} (lo hi : Int) (z : α) (k0 : Int → α) (sz : Int) :
    ∀ q, q < sz →
      (forLoop lo hi (fun _ (ks : (Int → α) × Int) => (Function.update ks.1 ks.2 z, ks.2 + 1))
        (k0, sz)).1 q = k0 q := by
  have hind := forLoop_induction lo hi
    (fun _ (ks : (Int → α) × Int) => (Function.update ks.1 ks.2 z, ks.2 + 1)) (k0, sz)
    (fun _ ks => sz ≤ ks.2 ∧ ∀ q, q < sz → ks.1 q = k0 q)
    ⟨le_refl _, fun q _ => rfl⟩
    (by
      intro i st _ _ hP
      obtain ⟨p1, p2⟩ := hP
      refine ⟨by dsimp only; omega, ?_⟩
      intro q hq
      dsimp only
      rw [Function.update_noteq (by omega)]
      exact p2 q hq)
  exact hind.2

/-- The inner loop of line 896 accumulates on the one cell `k`, which is none
of the cells it reads. -/
theorem keptRitz_inner_loop (B : Blas R K V) (c : Int → R) (nl dim k : Int) (kS : Int → V)
    (hk : ∀ j, 1 ≤ j → j < dim → nl + j ≠ k) :
    forLoop 1 dim
        (fun j kSpace => Function.update kSpace k (blas.axpy B (c j) (kSpace (nl + j)) (kSpace k)))
        kS
      = Function.update kS k
          (kS k + ((List.range (dim - 1).toNat).map fun (m : Nat) =>
            B.ofReal (c (1 + (m : Int))) • kS (nl + (1 + (m : Int)))).sum) := by
  have hind := forLoop_induction 1 dim
    (fun j kSpace => Function.update kSpace k (blas.axpy B (c j) (kSpace (nl + j)) (kSpace k)))
    kS
    (fun i kSpace => kSpace = Function.update kS k
      (forLoop 1 i (fun j v => B.ofReal (c j) • kS (nl + j) + v) (kS k)))
    (by
      dsimp only
      rw [forLoop_empty 1 1 le_rfl, Function.update_eq_self])
    (by
      intro i st hi1 hi2 hP
      rw [hP]
      dsimp only
      obtain ⟨n, hn⟩ : ∃ n : Nat, i = 1 + (n : Int) := ⟨(i - 1).toNat, by omega⟩
      have e : i + 1 = 1 + ((n + 1 : Nat) : Int) := by push_cast; omega
      rw [e, forLoop_succ, ← hn, Function.update_idem, Function.update_same,
        Function.update_noteq (hk i hi1 hi2)]
      rfl)
  dsimp only at hind
  by_cases hle : 1 ≤ dim
  · rw [max_eq_right hle] at hind
    rw [hind, forLoop_add_sum]
  · rw [forLoop_empty 1 dim (by omega)]
    have e : (dim - 1).toNat = 0 := by omega
    rw [e]
    simp

/-- The loop of lines 891-897 writes the combination of index `i` into the
scratch cell `offset + i`, and leaves the cells below `offset`, which are the
ones it reads, alone. -/
theorem keptRitz_scratch_loop (B : Blas R K V) (ritz : Int → R) (nl dim offset n : Int)
    (K0 : Int → V) (r0 : V) (h1 : nl < offset) (h2 : nl + dim ≤ offset) :
    (∀ q, q < offset →
      (forLoop 0 n
        (fun i (kr : (Int → V) × V) =>
          let k := offset + i
          let r := kr.1 nl
          let r := blas.ax B (ritz (dim * i)) r
          let kSpace := Function.update kr.1 k r
          let kSpace := forLoop 1 dim
            (fun j kSpace =>
              Function.update kSpace k
                (blas.axpy B (ritz (i * dim + j)) (kSpace (nl + j)) (kSpace k)))
            kSpace
          (kSpace, r))
        (K0, r0)).1 q = K0 q) ∧
    (∀ i, 0 ≤ i → i < n →
      (forLoop 0 n
        (fun i (kr : (Int → V) × V) =>
          let k := offset + i
          let r := kr.1 nl
          let r := blas.ax B (ritz (dim * i)) r
          let kSpace := Function.update kr.1 k r
          let kSpace := forLoop 1 dim
            (fun j kSpace =>
              Function.update kSpace k
                (blas.axpy B (ritz (i * dim + j)) (kSpace (nl + j)) (kSpace k)))
            kSpace
          (kSpace, r))
        (K0, r0)).1 (offset + i)
      = B.ofReal (ritz (dim * i)) • K0 nl
        + ((List.range (dim - 1).toNat).map fun (m : Nat) =>
            B.ofReal (ritz (i * dim + (1 + (m : Int)))) • K0 (nl + (1 + (m : Int)))).sum) := by
  have hind := forLoop_induction 0 n
    (fun i (kr : (Int → V) × V) =>
      let k := offset + i
      let r := kr.1 nl
      let r := blas.ax B (ritz (dim * i)) r
      let kSpace := Function.update kr.1 k r
      let kSpace := forLoop 1 dim
        (fun j kSpace =>
          Function.update kSpace k
            (blas.axpy B (ritz (i * dim + j)) (kSpace (nl + j)) (kSpace k)))
        kSpace
      (kSpace, r))
    (K0, r0)
    (fun m kr => (∀ q, q < offset → kr.1 q = K0 q) ∧
      (∀ i, 0 ≤ i → i < m → kr.1 (offset + i)
        = B.ofReal (ritz (dim * i)) • K0 nl
          + ((List.range (dim - 1).toNat).map fun (m : Nat) =>
              B.ofReal (ritz (i * dim + (1 + (m : Int)))) • K0 (nl + (1 + (m : Int)))).sum))
    ⟨fun q _ => rfl, fun i h3 h4 => by omega⟩
    (by
      intro m st hm1 hm2 hP
      obtain ⟨p1, p2⟩ := hP
      dsimp only
      rw [keptRitz_inner_loop B (fun j => ritz (m * dim + j)) nl dim (offset + m) _
        (fun j hj1 hj2 => by omega)]
      constructor
      · intro q hq
        rw [Function.update_noteq (by omega), Function.update_noteq (by omega)]
        exact p1 q hq
      · intro i hi1 hi2
        by_cases him : i = m
        · subst him
          rw [Function.update_same, Function.update_same, p1 nl h1]
          congr 1
          refine congrArg List.sum (List.map_congr_left ?_)
          intro a ha
          have ha' : a < (dim - 1).toNat := List.mem_range.mp ha
          rw [Function.update_noteq (by omega), p1 _ (by omega)]
        · rw [Function.update_noteq (by omega), Function.update_noteq (by omega)]
          exact p2 i hi1 (by omega))
  obtain ⟨q1, q2⟩ := hind
  exact ⟨q1, fun i hi1 hi2 => q2 i hi1 (by omega)⟩

/-- The loop of line 899 copies the scratch cells `offset + i` to the cells
`num_locked + i`, which lie below them. -/
theorem keptRitz_copy_loop {α : Type} (nl offset n : Int) (KR : Int → α)
    (h0 : 0 ≤ n) (h : nl + n ≤ offset) :
    (∀ q, ¬ (nl ≤ q ∧ q < nl + n) →
      forLoop 0 n (fun i kSpace => Function.update kSpace (i + nl) (kSpace (offset + i))) KR q
        = KR q) ∧
    (∀ i, 0 ≤ i → i < n →
      forLoop 0 n (fun i kSpace => Function.update kSpace (i + nl) (kSpace (offset + i))) KR
          (nl + i)
        = KR (offset + i)) := by
  have hind := forLoop_induction 0 n
    (fun i kSpace => Function.update kSpace (i + nl) (kSpace (offset + i))) KR
    (fun m kS => (∀ q, ¬ (nl ≤ q ∧ q < nl + m) → kS q = KR q) ∧
      (∀ i, 0 ≤ i → i < m → kS (nl + i) = KR (offset + i)))
    ⟨fun q _ => rfl, fun i h3 h4 => by omega⟩
    (by
      intro m st hm1 hm2 hP
      obtain ⟨p1, p2⟩ := hP
      dsimp only
      constructor
      · intro q hq
        rw [Function.update_noteq (by omega)]
        exact p1 q (by omega)
      · intro i hi1 hi2
        by_cases him : i = m
        · subst him
          rw [add_comm, Function.update_same]
          exact p1 _ (by omega)
        · rw [Function.update_noteq (by omega)]
          exact p2 i hi1 (by omega))
  rw [max_eq_right h0] at hind
  exact hind

/-- The loop of line 902 writes the cells `num_locked + i` of `beta` from the
cell `nKr - 1`, which it reads before it can overwrite it. -/
theorem keptRitz_beta_loop {α : Type} [Mul α] (ritz : Int → α) (nl dim nKr n : Int)
    (b0 : Int → α) (h0 : 0 ≤ n) (h : nl + n ≤ nKr) :
    (∀ q, ¬ (nl ≤ q ∧ q < nl + n) →
      forLoop 0 n
        (fun i beta => Function.update beta (i + nl) (beta (nKr - 1) * ritz (dim * (i + 1) - 1)))
        b0 q = b0 q) ∧
    (∀ i, 0 ≤ i → i < n →
      forLoop 0 n
        (fun i beta => Function.update beta (i + nl) (beta (nKr - 1) * ritz (dim * (i + 1) - 1)))
        b0 (nl + i) = b0 (nKr - 1) * ritz (dim * (i + 1) - 1)) := by
  have hind := forLoop_induction 0 n
    (fun i beta => Function.update beta (i + nl) (beta (nKr - 1) * ritz (dim * (i + 1) - 1))) b0
    (fun m b => (∀ q, ¬ (nl ≤ q ∧ q < nl + m) → b q = b0 q) ∧
      (∀ i, 0 ≤ i → i < m → b (nl + i) = b0 (nKr - 1) * ritz (dim * (i + 1) - 1)))
    ⟨fun q _ => rfl, fun i h3 h4 => by omega⟩
    (by
      intro m st hm1 hm2 hP
      obtain ⟨p1, p2⟩ := hP
      dsimp only
      constructor
      · intro q hq
        rw [Function.update_noteq (by omega)]
        exact p1 q (by omega)
      · intro i hi1 hi2
        by_cases him : i = m
        · subst him
          rw [add_comm, Function.update_same, p1 _ (by omega)]
        · rw [Function.update_noteq (by omega)]
          exact p2 i hi1 (by omega))
  rw [max_eq_right h0] at hind
  exact hind

/-- The combination of the loop of lines 891-897, its first term written with
the others. -/
theorem keptRitz_sum_split (B : Blas R K V) (c : Int → R) (v : Int → V) (nl dim : Int)
    (hdim : 1 ≤ dim) :
    B.ofReal (c 0) • v nl
      + ((List.range (dim - 1).toNat).map fun (m : Nat) =>
          B.ofReal (c (1 + (m : Int))) • v (nl + (1 + (m : Int)))).sum
      = ((List.range dim.toNat).map fun (j : Nat) =>
          B.ofReal (c (j : Int)) • v (nl + (j : Int))).sum := by
  have e : dim.toNat = (dim - 1).toNat + 1 := by omega
  rw [e, List.range_succ_eq_map, List.map_cons, List.sum_cons, List.map_map]
  simp only [Nat.cast_zero, add_zero]
  congr 1
  refine congrArg List.sum (List.map_congr_left ?_)
  intro m _
  simp only [Function.comp_apply, Nat.succ_eq_add_one, Nat.cast_add, Nat.cast_one]
  rw [add_comm ((m : Int)) 1]

/-- C30: for `0 <= iter_keep`, `num_locked + iter_keep <= nKr` and a basis
that holds the cell `nKr` (`nKr < size`), `computeKeptRitz` leaves in
`kSpace[num_locked + i]`, for each `i < iter_keep`, the sum over `j < dim`,
`dim = nKr - num_locked`, of `ritz_mat[i * dim + j]` times the vector
`kSpace[num_locked + j]` of the call; it leaves the vector `kSpace[nKr]` of
the call in `kSpace[num_locked + iter_keep]`; it sets
`beta[num_locked + i] = beta[nKr - 1] * ritz_mat[i * dim + dim - 1]` with the
`beta[nKr - 1]` of the call; and it leaves the cells `kSpace[0 .. num_locked)`
and the array `alpha` as they were. -/
theorem computeKeptRitz_spec (E : Env R K V) (s : TRLMState R K V)
    (h0 : 0 ≤ s.iter_keep) (h1 : s.num_locked + s.iter_keep ≤ s.nKr) (hsize : s.nKr < s.kSize) :
    (∀ i, 0 ≤ i → i < s.iter_keep →
      (computeKeptRitz E s).kSpace (s.num_locked + i)
        = ((List.range (s.nKr - s.num_locked).toNat).map fun (j : Nat) =>
            E.B.ofReal (s.ritz_mat (i * (s.nKr - s.num_locked) + (j : Int)))
              • s.kSpace (s.num_locked + (j : Int))).sum) ∧
    (computeKeptRitz E s).kSpace (s.num_locked + s.iter_keep) = s.kSpace s.nKr ∧
    (∀ i, 0 ≤ i → i < s.iter_keep →
      (computeKeptRitz E s).beta (s.num_locked + i)
        = s.beta (s.nKr - 1)
          * s.ritz_mat (i * (s.nKr - s.num_locked) + (s.nKr - s.num_locked) - 1)) ∧
    (∀ q, q < s.num_locked → (computeKeptRitz E s).kSpace q = s.kSpace q) ∧
    (computeKeptRitz E s).alpha = s.alpha := by
  unfold computeKeptRitz
  dsimp only
  generalize hks : (ite (s.kSize < s.nKr + 1 + s.iter_keep) _ _ : (Int → V) × Int) = ks
  have hK0 : ∀ q, q < s.kSize → ks.1 q = s.kSpace q := by
    rw [← hks]
    split_ifs
    · exact keptRitz_grow_loop _ _ _ _ _
    · intro q _; rfl
  obtain ⟨c1, c2⟩ := keptRitz_scratch_loop E.B s.ritz_mat s.num_locked (s.nKr - s.num_locked)
    (s.nKr + 1) s.iter_keep ks.1 s.r (by omega) (by omega)
  dsimp only at c1 c2
  generalize hkr : forLoop 0 s.iter_keep _ (ks.1, s.r) = kr at c1 c2 ⊢
  obtain ⟨d1, d2⟩ := keptRitz_copy_loop s.num_locked (s.nKr + 1) s.iter_keep kr.1 h0 (by omega)
  generalize hkc : forLoop 0 s.iter_keep _ kr.1 = kc at d1 d2 ⊢
  obtain ⟨b1, b2⟩ := keptRitz_beta_loop s.ritz_mat s.num_locked (s.nKr - s.num_locked) s.nKr
    s.iter_keep s.beta h0 h1
  refine ⟨?_, ?_, ?_, ?_, rfl⟩
  · intro i hi1 hi2
    rw [Function.update_noteq (by omega), d2 i hi1 hi2, c2 i hi1 hi2, hK0 _ (by omega)]
    have hmap : (List.range (s.nKr - s.num_locked - 1).toNat).map (fun (m : Nat) =>
          E.B.ofReal (s.ritz_mat (i * (s.nKr - s.num_locked) + (1 + (m : Int))))
            • ks.1 (s.num_locked + (1 + (m : Int))))
        = (List.range (s.nKr - s.num_locked - 1).toNat).map (fun (m : Nat) =>
          E.B.ofReal (s.ritz_mat (i * (s.nKr - s.num_locked) + (1 + (m : Int))))
            • s.kSpace (s.num_locked + (1 + (m : Int)))) := by
      refine List.map_congr_left ?_
      intro a ha
      have ha' : a < (s.nKr - s.num_locked - 1).toNat := List.mem_range.mp ha
      rw [hK0 _ (by omega)]
    have e0 : (s.nKr - s.num_locked) * i = i * (s.nKr - s.num_locked) + 0 := by ring
    rw [hmap, e0]
    exact keptRitz_sum_split E.B (fun j => s.ritz_mat (i * (s.nKr - s.num_locked) + j)) s.kSpace
      s.num_locked (s.nKr - s.num_locked) (by omega)
  · rw [Function.update_same, d1 _ (by omega), c1 _ (by omega), hK0 _ hsize]
  · intro i hi1 hi2
    rw [b2 i hi1 hi2]
    congr 2
    ring
  · intro q hq
    rw [Function.update_noteq (by omega), d1 _ (by omega), c1 _ (by omega), hK0 _ (by omega)]

theorem computeKeptRitz_spec_witness :
    0 ≤ exampleKeep.iter_keep ∧ exampleKeep.num_locked + exampleKeep.iter_keep ≤ exampleKeep.nKr ∧
    exampleKeep.nKr < exampleKeep.kSize ∧
    (∀ i, 0 ≤ i → i < exampleKeep.iter_keep →
      (computeKeptRitz exampleEnv exampleKeep).kSpace (exampleKeep.num_locked + i)
        = ((List.range (exampleKeep.nKr - exampleKeep.num_locked).toNat).map fun (j : Nat) =>
            exampleEnv.B.ofReal
                (exampleKeep.ritz_mat (i * (exampleKeep.nKr - exampleKeep.num_locked) + (j : Int)))
              • exampleKeep.kSpace (exampleKeep.num_locked + (j : Int))).sum) ∧
    (computeKeptRitz exampleEnv exampleKeep).kSpace (exampleKeep.num_locked + exampleKeep.iter_keep)
      = exampleKeep.kSpace exampleKeep.nKr :=
  ⟨by decide, by decide, by decide,
    (computeKeptRitz_spec exampleEnv exampleKeep (by decide) (by decide) (by decide)).1,
    (computeKeptRitz_spec exampleEnv exampleKeep (by decide) (by decide) (by decide)).2.1⟩

end keptRitz

section keepBounds

variable {R K V : Type} [LinearOrderedField R] [Field K] [AddCommGroup V] [Module K V]

/-- A restart cycle that does not reach `nConv` leaves the basis as
`computeKeptRitz` left it. -/
theorem lockAndConverge_kSpace (E : Env R K V) (epsilon : R) (s : TRLMState R K V)
    (h : (lockAndConverge E epsilon s).num_converged < s.nConv) :
    (lockAndConverge E epsilon s).kSpace
      = (computeKeptRitz E { s with iter_keep := (lockAndConverge E epsilon s).iter_keep }).kSpace := by
  unfold lockAndConverge computeKeptRitz at h ⊢
  dsimp only at h ⊢
  split_ifs at h ⊢ <;> first | rfl | exact absurd h (not_lt.mpr (by assumption))

/-- With nothing to keep, `computeKeptRitz` runs none of its loops and does
the one assignment of line 900. -/
theorem computeKeptRitz_nothing_kept (E : Env R K V) (s : TRLMState R K V)
    (h : s.iter_keep ≤ 0) (hsz : s.nKr + 1 + s.iter_keep ≤ s.kSize) :
    (computeKeptRitz E s).kSpace
      = Function.update s.kSpace (s.num_locked + s.iter_keep) (s.kSpace s.nKr) := by
  unfold computeKeptRitz
  dsimp only
  rw [if_neg (by omega), forLoop_empty 0 _ h, forLoop_empty 0 _ h]

/-- The largest Ritz value of the small example is `7`. -/
theorem exampleSmall_mat_norm :
    (lockAndConverge exampleEnv (precisionEpsilon exampleEnv) exampleSmall).mat_norm = 7 := by
  rw [(lockAndConverge_counters exampleEnv _ exampleSmall).1]
  have hr : List.range 7 = [0, 1, 2, 3, 4, 5, 6] := by decide
  simp only [forLoop, exampleSmall, exampleState, sub_zero, Int.toNat_ofNat, hr, List.foldl]
  norm_num [abs_of_nonneg]

/-- Both scans of the small example stop at once. -/
theorem exampleSmall_scans :
    (lockAndConverge exampleEnv (precisionEpsilon exampleEnv) exampleSmall).iter_locked = 0 ∧
    (lockAndConverge exampleEnv (precisionEpsilon exampleEnv) exampleSmall).iter_converged = 0 := by
  have h1 : (lockAndConverge exampleEnv (precisionEpsilon exampleEnv) exampleSmall).iter_locked
      = 0 := by
    have heps : precisionEpsilon exampleEnv = 1 / 2 ^ 52 := by
      simp [precisionEpsilon, exampleEnv]
    rw [(lockAndConverge_counters exampleEnv _ exampleSmall).2.1, exampleSmall_mat_norm, heps]
    norm_num [thresholdScan, exampleSmall, exampleState]
  refine ⟨h1, ?_⟩
  rw [(lockAndConverge_counters exampleEnv _ exampleSmall).2.2.1, h1, exampleSmall_mat_norm]
  norm_num [thresholdScan, exampleSmall, exampleState]

/-- C32 (the code at the failing input): the configuration `nEv = 1`,
`nKr = 7`, `nConv = 1` is accepted by the constructor of `TRLM`; in its first
restart cycle, with residual estimates that do not pass the tolerance, the
cycle leaves `iter_keep = min(0 + 7/2, 7 - 0 - 12) = -5` and `num_keep = -5`
without setting `converged`, so the loop goes on and its next cycle starts
the Lanczos steps at the index `-5`; `computeKeptRitz` itself has already
assigned the vector `kSpace[nKr]` to the cell `kSpace[num_locked + iter_keep]`
of index `-5`. -/
theorem iter_keep_negative :
    (∃ t : TRLM ℚ, TRLM.TRLM exampleSmall.eig_param (fun _ => 0) (fun _ => 0) (fun _ => 0)
      = .ok t) ∧
    exampleSmall.num_locked = 0 ∧
    (lockAndConverge exampleEnv (precisionEpsilon exampleEnv) exampleSmall).iter_keep = -5 ∧
    (lockAndConverge exampleEnv (precisionEpsilon exampleEnv) exampleSmall).num_keep = -5 ∧
    (lockAndConverge exampleEnv (precisionEpsilon exampleEnv) exampleSmall).converged = false ∧
    (lockAndConverge exampleEnv (precisionEpsilon exampleEnv) exampleSmall).restart_iter
      < (lockAndConverge exampleEnv (precisionEpsilon exampleEnv) exampleSmall).max_restarts ∧
    exampleSmall.kSpace (-5) = -5 ∧
    (lockAndConverge exampleEnv (precisionEpsilon exampleEnv) exampleSmall).kSpace (-5) = 7 := by
  obtain ⟨hri, hmr, -, -, -, -, -, -, hconv⟩ :=
    lockAndConverge_control exampleEnv (precisionEpsilon exampleEnv) exampleSmall
  obtain ⟨-, -, -, hkeep, hnc, hnk, -⟩ :=
    lockAndConverge_counters exampleEnv (precisionEpsilon exampleEnv) exampleSmall
  have hk : (lockAndConverge exampleEnv (precisionEpsilon exampleEnv) exampleSmall).iter_keep
      = -5 := by
    rw [hkeep, exampleSmall_scans.2]
    decide
  have hc0 : (lockAndConverge exampleEnv (precisionEpsilon exampleEnv) exampleSmall).num_converged
      = 0 := by
    rw [hnc, exampleSmall_scans.2]
    rfl
  refine ⟨?_, rfl, hk, ?_, ?_, ?_, rfl, ?_⟩
  · simp [TRLM.TRLM, EigenSolver.EigenSolver, exampleSmall, exampleParam]
  · rw [hnk, hk]
    rfl
  · cases hb : (lockAndConverge exampleEnv (precisionEpsilon exampleEnv) exampleSmall).converged
    · rfl
    · rcases hconv.mp hb with h | h
      · cases h
      · rw [hc0] at h
        exact absurd h (by decide)
  · rw [hri, hmr]
    decide
  · rw [lockAndConverge_kSpace exampleEnv _ exampleSmall (by rw [hc0]; decide), hk,
      computeKeptRitz_nothing_kept exampleEnv _ (by decide) (by decide)]
    have e : exampleSmall.kSpace exampleSmall.nKr = 7 := by
      norm_num [exampleSmall, exampleState, exampleBasis]
    dsimp only
    rw [e]
    exact Function.update_same (-5) 7 exampleSmall.kSpace

/-- C33, counterexample: from the example state (`nKr = 20`, `nConv = 5`,
residual estimates `1, 1e-20, .., 1e-20`) the cycle counts
`iter_converged = 19` pairs but keeps `iter_keep = min(19 + 10, 8) = 8`
vectors: `num_converged = 19` is above `num_keep = 8`. -/
theorem iter_keep_below_iter_converged :
    (lockAndConverge exampleEnv (precisionEpsilon exampleEnv) exampleState).iter_converged = 19 ∧
    (lockAndConverge exampleEnv (precisionEpsilon exampleEnv) exampleState).iter_keep = 8 ∧
    (lockAndConverge exampleEnv (precisionEpsilon exampleEnv) exampleState).num_converged = 19 ∧
    (lockAndConverge exampleEnv (precisionEpsilon exampleEnv) exampleState).num_keep = 8 := by
  obtain ⟨-, -, -, hkeep, hnc, hnk, -⟩ :=
    lockAndConverge_counters exampleEnv (precisionEpsilon exampleEnv) exampleState
  have hk : (lockAndConverge exampleEnv (precisionEpsilon exampleEnv) exampleState).iter_keep
      = 8 := by
    rw [hkeep, exampleState_scans.2]
    decide
  refine ⟨exampleState_scans.2, hk, ?_, ?_⟩
  · rw [hnc, exampleState_scans.2]
    rfl
  · rw [hnk, hk]
    rfl

/-- C33, amended: in a restart cycle entered with `num_converged <= nKr`,
`iter_keep >= iter_converged` holds exactly when
`iter_converged <= nKr - num_locked - 12` (the counters of the entry), and so
does `num_converged <= num_keep` after the update of the counters; otherwise
`iter_keep = nKr - num_locked - 12` is below `iter_converged`. -/
theorem iter_keep_ge_iter_converged_iff (E : Env R K V) (epsilon : R) (s : TRLMState R K V)
    (h : s.num_converged ≤ s.nKr) :
    ((lockAndConverge E epsilon s).iter_converged ≤ (lockAndConverge E epsilon s).iter_keep
      ↔ (lockAndConverge E epsilon s).iter_converged ≤ s.nKr - s.num_locked - 12) ∧
    ((lockAndConverge E epsilon s).num_converged ≤ (lockAndConverge E epsilon s).num_keep
      ↔ (lockAndConverge E epsilon s).iter_converged ≤ s.nKr - s.num_locked - 12) ∧
    (¬ ((lockAndConverge E epsilon s).iter_converged ≤ s.nKr - s.num_locked - 12) →
      (lockAndConverge E epsilon s).iter_keep = s.nKr - s.num_locked - 12) := by
  obtain ⟨-, -, -, hkeep, hnc, hnk, -⟩ := lockAndConverge_counters E epsilon s
  have hdiv : 0 ≤ Int.tdiv (s.nKr - s.num_converged) 2 :=
    Int.tdiv_nonneg (by omega) (by decide)
  have hiff : (lockAndConverge E epsilon s).iter_converged ≤ (lockAndConverge E epsilon s).iter_keep
      ↔ (lockAndConverge E epsilon s).iter_converged ≤ s.nKr - s.num_locked - 12 := by
    rw [hkeep, le_min_iff]
    constructor
    · intro hh; exact hh.2
    · intro hh; exact ⟨by omega, hh⟩
  refine ⟨hiff, ?_, ?_⟩
  · rw [hnc, hnk, ← hiff]
    constructor <;> intro hh <;> omega
  · intro hh
    rw [hkeep]
    exact min_eq_right (by omega)

theorem iter_keep_ge_iter_converged_iff_witness :
    exampleState.num_converged ≤ exampleState.nKr ∧
    ((lockAndConverge exampleEnv (precisionEpsilon exampleEnv) exampleState).iter_converged
        ≤ (lockAndConverge exampleEnv (precisionEpsilon exampleEnv) exampleState).iter_keep
      ↔ (lockAndConverge exampleEnv (precisionEpsilon exampleEnv) exampleState).iter_converged
        ≤ exampleState.nKr - exampleState.num_locked - 12) :=
  ⟨by decide,
    (iter_keep_ge_iter_converged_iff exampleEnv (precisionEpsilon exampleEnv) exampleState
      (by decide)).1⟩

/-- C35 (the code at the failing input): for the accepted configuration
`nEv = 10`, `nKr = 20`, `nConv = 5`, with the memory handed out for `residua`
holding `1` in every cell, the constructor leaves `residua[i] = 1` for every
`i` in `[0, nKr)` and has written `0` into the cell of index `nKr = 20`, one
past the end of the array. -/
theorem constructor_residua_unset :
    ∃ es : EigenSolver ℚ,
      EigenSolver.EigenSolver (exampleParam 10 20 5 QUDA_EIG_LANCZOS QUDA_SPECTRUM_SR_EIG)
        (fun _ => 1) = .ok es ∧
      es.nKr = 20 ∧
      (∀ i, 0 ≤ i → i < 20 → es.residua i = 1) ∧
      es.residua 20 = 0 ∧
      es.residua = Function.update (fun _ => 1) 20 0 := by
  have hok : ∃ es, EigenSolver.EigenSolver
      (exampleParam 10 20 5 QUDA_EIG_LANCZOS QUDA_SPECTRUM_SR_EIG) (fun _ => (1 : ℚ)) = .ok es ∧
      es.nKr = 20 ∧ es.residua = Function.update (fun _ => 1) 20 0 := by
    simp [EigenSolver.EigenSolver, exampleParam, initResidua]
  obtain ⟨es, hes, hn, hr⟩ := hok
  refine ⟨es, hes, hn, ?_, ?_, hr⟩
  · intro i hi1 hi2
    rw [hr, Function.update_noteq (by omega)]
  · rw [hr, Function.update_same]

end keepBounds

section unconverged

variable {R K V : Type} [LinearOrderedField R] [Field K] [AddCommGroup V] [Module K V]

end unconverged

section reorderBounds

/-- The first two iterations of `reorder` on the Ritz values `2, 1, 3, ..`:
one advance, and at `i = 1` one exchange, which decrements `i` to `0` and then
exchanges the cells `i = 0` and `i - 1 = -1` of the basis. -/
theorem reorder_head_steps :
    reorderVars 20 false exampleAlphaHead exampleBasis (0 : ℚ) =
      reorderLoop 20 false 398
        { alpha := Function.update (Function.update exampleAlphaHead 1 (exampleAlphaHead 0)) 0
            (exampleAlphaHead 1),
          kSpace := Function.update (Function.update exampleBasis 0 (exampleBasis (-1))) (-1)
            (exampleBasis 0),
          r := exampleBasis 0, i := 0 } := by
  have hfuel : ((20 : Int) * 20).toNat = 398 + 1 + 1 := by decide
  unfold reorderVars
  rw [hfuel, reorderLoop_succ _ _ _ _ (by decide), reorderStep_advance _ _ (Or.inl rfl),
    reorderLoop_succ _ _ _ _ (by decide)]
  congr 1

/-- C34 (the code at the failing input): on `alpha = [2, 1, 3, 4, .., 20]`
with `nKr = 20`, ascending direction, and the basis cell of index `i` holding
the rational `i`, `reorder` leaves its loop with `alpha` sorted, but its exchange
at `i = 1` reads and writes the basis cell of index `-1`: the content of
`kSpace[-1]` ends in `kSpace[0]`, and the content of `kSpace[0]` in
`kSpace[-1]`. -/
theorem reorder_touches_cell_before_first :
    ¬ (reorderVars 20 false exampleAlphaHead exampleBasis 0).i < 20 ∧
    sortedUpTo false (reorderVars 20 false exampleAlphaHead exampleBasis 0).alpha 20 ∧
    (reorderVars 20 false exampleAlphaHead exampleBasis 0).alpha 0 = 1 ∧
    (reorderVars 20 false exampleAlphaHead exampleBasis 0).alpha 1 = 2 ∧
    (reorderVars 20 false exampleAlphaHead exampleBasis 0).kSpace 0 = exampleBasis (-1) ∧
    (reorderVars 20 false exampleAlphaHead exampleBasis 0).kSpace (-1) = exampleBasis 0 ∧
    exampleBasis (-1) ≠ exampleBasis 0 := by
  have hval : ∀ p : Int,
      Function.update (Function.update exampleAlphaHead 1 (exampleAlphaHead 0)) 0
        (exampleAlphaHead 1) p = (p : ℚ) + 1 := by
    intro p
    by_cases h0 : p = 0
    · subst h0; norm_num [exampleAlphaHead]
    · by_cases h1 : p = 1
      · subst h1; norm_num [Function.update, exampleAlphaHead]
      · simp [Function.update, exampleAlphaHead, h0, h1]
  have hsorted : sortedUpTo false
      (Function.update (Function.update exampleAlphaHead 1 (exampleAlphaHead 0)) 0
        (exampleAlphaHead 1)) 20 := by
    intro p q _ hpq _
    rw [hval p, hval q]
    simp only [inOrder, Bool.false_eq_true, if_false]
    have : (p : ℚ) ≤ (q : ℚ) := by exact_mod_cast hpq
    linarith
  obtain ⟨ha, hk⟩ := reorderLoop_sorted 20 false 398
    ({ alpha := Function.update (Function.update exampleAlphaHead 1 (exampleAlphaHead 0)) 0
        (exampleAlphaHead 1),
       kSpace := Function.update (Function.update exampleBasis 0 (exampleBasis (-1))) (-1)
        (exampleBasis 0),
       r := exampleBasis 0, i := 0 } : ReorderVars ℚ ℚ) (by decide) hsorted
  have hexit := reorder_exit 20 false exampleAlphaHead exampleBasis (0 : ℚ)
  refine ⟨hexit.1, hexit.2, ?_, ?_, ?_, ?_, ?_⟩
  · rw [reorder_head_steps, ha]; dsimp only; rw [hval]; norm_num
  · rw [reorder_head_steps, ha]; dsimp only; rw [hval]; norm_num
  · rw [reorder_head_steps, hk]
    norm_num [Function.update, exampleBasis]
  · rw [reorder_head_steps, hk]
    norm_num [Function.update, exampleBasis]
  · norm_num [exampleBasis]

end reorderBounds

section gcr

variable {R K V : Type} [LinearOrderedField R] [Field K]

/-- An invariant of a descending loop: it holds on entry at `hi`, every
iteration carries it from `i` to `i - 1`, so it holds at the exit index. -/
theorem forLoopDown_induction {σ : Type} (hi lo : Int) (body : Int → σ → σ) (s0 : σ)
    (P : Int → σ → Prop) (h0 : P hi s0)
    (hstep : ∀ i st, lo ≤ i → i ≤ hi → P i st → P (i - 1) (body i st)) :
    P (min hi (lo - 1)) (forLoopDown hi lo body s0) := by
  have key : ∀ m : Nat, m ≤ (hi - lo + 1).toNat →
      P (hi - (m : Int)) ((List.range m).foldl (fun s (x : Nat) => body (hi - (x : Int)) s) s0) := by
    intro m
    induction m with
    | zero =>
      intro _
      simpa using h0
    | succ m ih =>
      intro hm
      rw [List.range_succ, List.foldl_append]
      simp only [List.foldl_cons, List.foldl_nil]
      have h := hstep (hi - (m : Int)) _ (by omega) (by omega) (ih (by omega))
      have e : hi - ((m + 1 : Nat) : Int) = hi - (m : Int) - 1 := by push_cast; ring
      rw [e]
      exact h
  have hfin := key _ le_rfl
  have e : min hi (lo - 1) = hi - (((hi - lo + 1).toNat : Nat) : Int) := by omega
  rw [e]
  exact hfin

/-- Two descending loops whose bodies agree at every index of the range
compute the same. -/
theorem forLoopDown_congr {σ : Type} (hi lo : Int) (f g : Int → σ → σ) (s0 : σ)
    (h : ∀ i st, lo ≤ i → i ≤ hi → f i st = g i st) :
    forLoopDown hi lo f s0 = forLoopDown hi lo g s0 := by
  unfold forLoopDown
  refine List.foldl_ext _ _ _ ?_
  intro st x hx
  rw [List.mem_range] at hx
  exact h _ _ (by omega) (by omega)

/-- The inner loop of `backSubs` subtracts from `delta[k]` the products
`beta[k][j] delta[j]` of the indices `k < j < n`. -/
theorem backSubs_inner (beta : Int → Int → K) (n k : Int) (d0 : Int → K) :
    forLoop (k + 1) n (fun j delta => Function.update delta k (delta k - beta k j * delta j)) d0
      = Function.update d0 k (d0 k - ∑ j ∈ Finset.Ioo k n, beta k j * d0 j) := by
  have hind := forLoop_induction (k + 1) n
    (fun j delta => Function.update delta k (delta k - beta k j * delta j)) d0
    (fun i d => d = Function.update d0 k (d0 k - ∑ j ∈ Finset.Ioo k i, beta k j * d0 j))
    (by
      have he : Finset.Ioo k (k + 1) = ∅ := by
        ext x
        simp only [Finset.mem_Ioo, Finset.not_mem_empty, iff_false]
        omega
      dsimp only
      rw [he, Finset.sum_empty, sub_zero, Function.update_eq_self])
    (by
      intro i st hi1 hi2 hP
      rw [hP]
      have hik : i ≠ k := by omega
      have hIoo : Finset.Ioo k (i + 1) = insert i (Finset.Ioo k i) := by
        ext x
        simp only [Finset.mem_Ioo, Finset.mem_insert]
        omega
      rw [hIoo, Finset.sum_insert (by simp)]
      dsimp only
      rw [Function.update_same, Function.update_noteq hik, Function.update_idem]
      refine congrArg (Function.update d0 k) ?_
      ring)
  dsimp only at hind
  rw [hind]
  have he : Finset.Ioo k (max (k + 1) n) = Finset.Ioo k n := by
    ext x
    simp only [Finset.mem_Ioo]
    omega
  rw [he]

/-- One iteration of the loop over `k` of `backSubs` stores in `delta[k]` the
quotient of `alpha[k]` minus the products `beta[k][j] delta[j]`, `k < j < n`,
by `gamma[k]`. -/
theorem backSubs_row (B : Blas R K V) (alpha : Int → K) (beta : Int → Int → K) (gamma : Int → R)
    (n k : Int) (d : Int → K) :
    Function.update
        (forLoop (k + 1) n (fun j delta => Function.update delta k (delta k - beta k j * delta j))
          (Function.update d k (alpha k))) k
        (forLoop (k + 1) n (fun j delta => Function.update delta k (delta k - beta k j * delta j))
          (Function.update d k (alpha k)) k / B.ofReal (gamma k))
      = Function.update d k
          ((alpha k - ∑ j ∈ Finset.Ioo k n, beta k j * d j) / B.ofReal (gamma k)) := by
  have hs : ∑ j ∈ Finset.Ioo k n, beta k j * Function.update d k (alpha k) j
      = ∑ j ∈ Finset.Ioo k n, beta k j * d j := by
    refine Finset.sum_congr rfl ?_
    intro j hj
    rw [Finset.mem_Ioo] at hj
    rw [Function.update_noteq (by omega)]
  rw [backSubs_inner, hs, Function.update_same, Function.update_same, Function.update_idem,
    Function.update_idem]

/-- C38: for coefficients `gamma[k]` that are not zero on `[0, n)`,
`backSubs(alpha, beta, gamma, delta, n)` leaves in `delta` a solution of the
upper-triangular system `gamma[k] delta[k] + sum over k < j < n of
beta[k][j] delta[j] = alpha[k]`, `0 <= k < n`; the result is the same for any
other `beta` with the same entries `beta[k][j]`, `0 <= k < j < n`, and the
cells of `delta` outside `[0, n)` keep their content.  (The function returns
`delta` alone: `alpha`, `beta` and `gamma` are read, never assigned.) -/
theorem backSubs_solves (B : Blas R K V) (alpha : Int → K) (beta : Int → Int → K)
    (gamma : Int → R) (delta : Int → K) (n : Int)
    (hg : ∀ k, 0 ≤ k → k < n → gamma k ≠ 0) :
    (∀ k, 0 ≤ k → k < n →
      B.ofReal (gamma k) * backSubs B alpha beta gamma delta n k
        + ∑ j ∈ Finset.Ioo k n, beta k j * backSubs B alpha beta gamma delta n j = alpha k) ∧
    (∀ beta2 : Int → Int → K, (∀ k j, 0 ≤ k → k < j → j < n → beta2 k j = beta k j) →
      backSubs B alpha beta2 gamma delta n = backSubs B alpha beta gamma delta n) ∧
    (∀ k, ¬ (0 ≤ k ∧ k < n) → backSubs B alpha beta gamma delta n k = delta k) := by
  have hind := forLoopDown_induction (n - 1) 0
    (fun k delta =>
      let delta := Function.update delta k (alpha k)
      let delta := forLoop (k + 1) n
        (fun j delta => Function.update delta k (delta k - beta k j * delta j)) delta
      Function.update delta k (delta k / B.ofReal (gamma k)))
    delta
    (fun i d =>
      (∀ q, i < q → q < n →
        B.ofReal (gamma q) * d q + ∑ j ∈ Finset.Ioo q n, beta q j * d j = alpha q) ∧
      (∀ q, ¬ (i < q ∧ q < n) → d q = delta q))
    ⟨by intro q h1 h2; omega, by intro q _; rfl⟩
    (by
      intro i st hi1 hi2 hP
      dsimp only
      rw [backSubs_row]
      have hne : B.ofReal (gamma i) ≠ 0 := (map_ne_zero B.ofReal).mpr (hg i hi1 (by omega))
      refine ⟨?_, ?_⟩
      · intro q hq1 hq2
        by_cases hqi : q = i
        · subst hqi
          have hs : ∑ j ∈ Finset.Ioo q n, beta q j *
              Function.update st q ((alpha q - ∑ j ∈ Finset.Ioo q n, beta q j * st j)
                / B.ofReal (gamma q)) j
              = ∑ j ∈ Finset.Ioo q n, beta q j * st j := by
            refine Finset.sum_congr rfl ?_
            intro j hj
            rw [Finset.mem_Ioo] at hj
            rw [Function.update_noteq (by omega)]
          rw [hs, Function.update_same, mul_div_cancel₀ _ hne]
          ring
        · have hs : ∑ j ∈ Finset.Ioo q n, beta q j *
              Function.update st i ((alpha i - ∑ j ∈ Finset.Ioo i n, beta i j * st j)
                / B.ofReal (gamma i)) j
              = ∑ j ∈ Finset.Ioo q n, beta q j * st j := by
            refine Finset.sum_congr rfl ?_
            intro j hj
            rw [Finset.mem_Ioo] at hj
            rw [Function.update_noteq (by omega)]
          rw [hs, Function.update_noteq hqi]
          exact hP.1 q (by omega) hq2
      · intro q hq
        rw [Function.update_noteq (by omega)]
        exact hP.2 q (by omega))
  refine ⟨?_, ?_, ?_⟩
  · intro k hk1 hk2
    exact hind.1 k (by omega) hk2
  · intro beta2 hb
    unfold backSubs
    refine forLoopDown_congr _ _ _ _ _ ?_
    intro i st hi1 hi2
    dsimp only
    have hs : ∑ j ∈ Finset.Ioo i n, beta2 i j * st j = ∑ j ∈ Finset.Ioo i n, beta i j * st j := by
      refine Finset.sum_congr rfl ?_
      intro j hj
      rw [Finset.mem_Ioo] at hj
      rw [hb i j hi1 hj.1 hj.2]
    rw [backSubs_row, backSubs_row, hs]
  · intro k hk
    exact hind.2 k (by omega)

/-- C38 (the theorem at a concrete system): with `n = 2`, `gamma = 2`,
`alpha = 1` and `beta = 1`, the row `k = 0` of the system holds for what
`backSubs` returns. -/
theorem backSubs_solves_witness :
    (∀ k : Int, 0 ≤ k → k < 2 → (fun _ => (2 : ℚ)) k ≠ 0) ∧
    ratBlas.ofReal ((fun _ => (2 : ℚ)) (0 : Int))
        * backSubs ratBlas (fun _ => 1) (fun _ _ => 1) (fun _ => (2 : ℚ)) (fun _ => 0) 2 0
      + ∑ j ∈ Finset.Ioo (0 : Int) 2, (fun _ _ => (1 : ℚ)) (0 : Int) j
          * backSubs ratBlas (fun _ => 1) (fun _ _ => 1) (fun _ => (2 : ℚ)) (fun _ => 0) 2 j
      = (fun _ => (1 : ℚ)) (0 : Int) :=
  ⟨fun _ _ _ => by norm_num,
   (backSubs_solves ratBlas (fun _ => 1) (fun _ _ => 1) (fun _ => (2 : ℚ)) (fun _ => 0) 2
      (fun _ _ _ => by norm_num)).1 0 (by decide) (by decide)⟩

/-- A loop of stride three whose body does the work of three successive
iterations of a loop of stride one computes what the latter computes. -/
theorem forLoopBy3_fold {σ : Type} (F G : Int → σ → σ)
    (h : ∀ i s, F i s = G (i + 2) (G (i + 1) (G i s))) (q : Nat) (s0 : σ) :
    (List.range q).foldl (fun s (x : Nat) => F (0 + 3 * (x : Int)) s) s0
      = (List.range (3 * q)).foldl (fun s (x : Nat) => G (0 + (x : Int)) s) s0 := by
  induction q with
  | zero => rfl
  | succ q ih =>
    have e : 3 * (q + 1) = 3 * q + 1 + 1 + 1 := by ring
    rw [List.range_succ, List.foldl_append, ih, e, List.range_succ, List.range_succ,
      List.range_succ]
    simp only [List.foldl_append, List.foldl_cons, List.foldl_nil]
    rw [h]
    push_cast
    have e1 : (0 : Int) + 3 * (q : Int) + 1 = 0 + (3 * (q : Int) + 1) := by ring
    have e2 : (0 : Int) + 3 * (q : Int) + 2 = 0 + (3 * (q : Int) + 2) := by ring
    rw [e1, e2]

/-- The sum of the list of the values of `f` at `0, .., m - 1` is the sum of
`f` over the integers of `[0, m)`. -/
theorem sum_range_eq_sum_Ico {α : Type} [AddCommMonoid α] (f : Int → α) (m : Nat) :
    ((List.range m).map fun (x : Nat) => f (0 + (x : Int))).sum
      = ∑ i ∈ Finset.Ico (0 : Int) (m : Int), f i := by
  induction m with
  | zero => simp
  | succ m ih =>
    have hI : Finset.Ico (0 : Int) ((m + 1 : Nat) : Int) = insert (m : Int) (Finset.Ico 0 (m : Int)) := by
      ext x
      simp only [Finset.mem_Ico, Finset.mem_insert]
      omega
    rw [List.range_succ, List.map_append, List.sum_append, ih, hI, Finset.sum_insert (by simp)]
    simp [add_comm]

/-- C39: for `k >= 0`, the fused update of `updateSolution` leaves in `x` what
the loop `for (i = 0; i < k; i++) caxpyCuda(delta[i], *p[i], x)` it replaces
leaves there, with `delta` as `backSubs(alpha, beta, gamma, delta, k)` fills
it: the initial `x` plus the sum over `0 <= i < k` of `delta[i] p[i]`, every
direction entering once. -/
theorem updateSolution_eq_naive {V : Type} [AddCommGroup V] [Module K V] (B : Blas R K V) (x : V)
    (alpha : Int → K) (beta : Int → Int → K) (gamma : Int → R) (k : Int) (p : Int → V)
    (fresh : Int → K) (hk : 0 ≤ k) :
    updateSolution B x alpha beta gamma k p fresh
      = updateSolutionNaive (backSubs B alpha beta gamma fresh k) p k x ∧
    updateSolution B x alpha beta gamma k p fresh
      = x + ∑ i ∈ Finset.Ico 0 k, backSubs B alpha beta gamma fresh k i • p i := by
  have hnaive : updateSolutionNaive (backSubs B alpha beta gamma fresh k) p k x
      = x + ∑ i ∈ Finset.Ico 0 k, backSubs B alpha beta gamma fresh k i • p i := by
    unfold updateSolutionNaive
    have hb : (fun i (x : V) => caxpyCuda (backSubs B alpha beta gamma fresh k i) (p i) x)
        = fun i x => backSubs B alpha beta gamma fresh k i • p i + x := rfl
    have hc : ((k - 0).toNat : Int) = k := by omega
    rw [hb, forLoop_add_sum,
      sum_range_eq_sum_Ico (fun i => backSubs B alpha beta gamma fresh k i • p i), hc]
  have hfused : updateSolution B x alpha beta gamma k p fresh
      = updateSolutionNaive (backSubs B alpha beta gamma fresh k) p k x := by
    have htmod : k.tmod 3 = k % 3 := Int.tmod_eq_emod hk (by decide)
    have htdiv : k.tdiv 3 = k / 3 := Int.tdiv_eq_ediv hk (by decide)
    have hrem : (k - 3 * (k / 3)).tmod 2 = (k - 3 * (k / 3)) % 2 :=
      Int.tmod_eq_emod (by omega) (by decide)
    have hcount : ((k - 2 - 0 + 2) / 3).toNat = (k / 3).toNat := by omega
    have hloop := forLoopBy3_fold
      (fun i (x : V) =>
        caxpbypczpwCuda (backSubs B alpha beta gamma fresh k i) (p i)
          (backSubs B alpha beta gamma fresh k (i + 1)) (p (i + 1))
          (backSubs B alpha beta gamma fresh k (i + 2)) (p (i + 2)) x)
      (fun i (x : V) => caxpyCuda (backSubs B alpha beta gamma fresh k i) (p i) x)
      (by
        intro i y
        simp only [caxpbypczpwCuda, caxpyCuda]
        abel)
      (k / 3).toNat x
    unfold updateSolution updateSolutionNaive forLoopBy3 forLoop
    dsimp only
    rw [htmod, htdiv, hrem, hcount, hloop]
    have h3 : k % 3 = 0 ∨ k % 3 = 1 ∨ k % 3 = 2 := by omega
    rcases h3 with h0 | h1 | h2
    · rw [if_neg (by omega)]
      have e : (k - 0).toNat = 3 * (k / 3).toNat := by omega
      rw [e]
    · rw [if_pos (by omega), if_neg (by omega)]
      have e : (k - 0).toNat = 3 * (k / 3).toNat + 1 := by omega
      have e1 : (0 : Int) + ((3 * (k / 3).toNat : Nat) : Int) = k - 1 := by omega
      rw [e, List.range_succ, List.foldl_append]
      simp only [List.foldl_cons, List.foldl_nil]
      rw [e1]
    · rw [if_pos (by omega), if_pos (by omega)]
      have e : (k - 0).toNat = 3 * (k / 3).toNat + 1 + 1 := by omega
      have e1 : (0 : Int) + ((3 * (k / 3).toNat : Nat) : Int) = k - 2 := by omega
      have e2 : (0 : Int) + ((3 * (k / 3).toNat + 1 : Nat) : Int) = k - 1 := by omega
      rw [e, List.range_succ, List.range_succ, List.foldl_append, List.foldl_append]
      simp only [List.foldl_cons, List.foldl_nil]
      rw [e1, e2]
      simp only [caxpbypzCuda, caxpyCuda]
      abel
  exact ⟨hfused, hfused.trans hnaive⟩

/-- C39 (the theorem at a concrete update): with `k = 4`, one group of three
and a remainder of one, the fused update and the loop it replaces agree. -/
theorem updateSolution_eq_naive_witness :
    (0 : Int) ≤ 4 ∧
    (updateSolution ratBlas (0 : ℚ) (fun _ => 1) (fun _ _ => 0) (fun _ => 1) 4 exampleBasis
        (fun _ => 0)
      = updateSolutionNaive
          (backSubs ratBlas (fun _ => 1) (fun _ _ => 0) (fun _ => 1) (fun _ => 0) 4)
          exampleBasis 4 (0 : ℚ) ∧
    updateSolution ratBlas (0 : ℚ) (fun _ => 1) (fun _ _ => 0) (fun _ => 1) 4 exampleBasis
        (fun _ => 0)
      = 0 + ∑ i ∈ Finset.Ico 0 4,
          backSubs ratBlas (fun _ => 1) (fun _ _ => 0) (fun _ => 1) (fun _ => 0) 4 i
            • exampleBasis i) :=
  ⟨by decide,
   updateSolution_eq_naive ratBlas (0 : ℚ) (fun _ => 1) (fun _ _ => 0) (fun _ => 1) 4
     exampleBasis (fun _ => 0) (by decide)⟩

end gcr

section jacobiDavidson

variable {R K F : Type} [LinearOrderedField R] [Field K] [AddCommGroup F] [Module K F]

/-- With a tolerance of at most one, the loop `while (norm < tol)` leaves
through its guard after at most one execution of its body, which sets
`norm = 1.0`. -/
theorem residualLoop_one_pass (tol norm : R) (fuel : Nat) (h : tol ≤ 1) :
    residualLoop tol (fuel + 2) norm = some (if norm < tol then 1 else norm) := by
  by_cases hn : norm < tol
  · rw [if_pos hn, residualLoop, if_pos hn, residualLoop, if_neg (not_lt.mpr h)]
  · rw [if_neg hn, residualLoop, if_neg hn]

/-- With a tolerance above one, the loop `while (norm < tol)` entered with a
norm below the tolerance never leaves through its guard: the body sets
`norm = 1.0`, which is below the tolerance again. -/
theorem residualLoop_never_exits (tol : R) (h1 : 1 < tol) (fuel : Nat) :
    ∀ norm : R, norm < tol → residualLoop tol fuel norm = none := by
  induction fuel with
  | zero => intro norm _; rfl
  | succ fuel ih =>
    intro norm hn
    rw [residualLoop, if_pos hn]
    exact ih 1 h1

/-- The first iteration of the example solve: the initial guess is an
eigenvector of the operator, and the residual of the extracted pair is zero. -/
theorem exampleJD_first_residual (tol : ℚ) :
    (jdExtract exampleJDEnv 0 (JD.entry exampleJDEnv (exampleJDState tol))).1.norm = 0 ∧
    (jdExtract exampleJDEnv 0 (JD.entry exampleJDEnv (exampleJDState tol))).1.tol = tol := by
  have h4 : Rat.sqrt (2 * 2) = 2 := by
    rw [Rat.sqrt_eq]
    norm_num
  have hq : Rat.sqrt (2⁻¹ * 2⁻¹) = 2⁻¹ := by
    rw [Rat.sqrt_eq]
    norm_num
  have h0 : Rat.sqrt 0 = 0 := ratBlas_sqrt_zero
  have h1 : Rat.sqrt 1 = 1 := ratBlas_sqrt_one
  have hr : List.range 1 = [0] := by decide
  refine ⟨?_, rfl⟩
  simp [jdExtract, JD.entry, exampleJDState, exampleJDEnv, exampleEnv, ratBlas, forLoop,
    blas.caxpy, blas.ax, blas.zero, jdEigenpairs, pairAt, setEntry, h4, hq, h0, h1, hr]

/-- The integers of `[0, j + 1)` are those of `[0, j)` and `j`. -/
theorem Ico_zero_succ (j : Int) (hj : 0 ≤ j) :
    Finset.Ico (0 : Int) (j + 1) = insert j (Finset.Ico 0 j) := by
  ext x
  simp only [Finset.mem_Ico, Finset.mem_insert]
  omega

/-- What the restart block of the Jacobi-Davidson loop leaves: `m_min` vectors
in `V` and in `W`, the vector `i` being the combination of the old vectors
with the coefficients of `eigenpairs[i]`, the diagonal matrix of the first
components of the pairs in `H`, and one restart more. -/
theorem jdRestart_spec (E : JDEnv R K F) (m_min : Int) (eigenpairs : List (R × (Int → K)))
    (s : JDState R K F) (hmin : 0 ≤ m_min) (hm : 0 < s.m) :
    (jdRestart E m_min eigenpairs s).Vsize = m_min ∧
    (jdRestart E m_min eigenpairs s).Wsize = m_min ∧
    (∀ q, 0 ≤ q → q < m_min →
      (jdRestart E m_min eigenpairs s).V q
        = ∑ j ∈ Finset.Ico 0 s.m, (pairAt eigenpairs q).2 j • s.V j ∧
      (jdRestart E m_min eigenpairs s).W q
        = ∑ j ∈ Finset.Ico 0 s.m, (pairAt eigenpairs q).2 j • s.W j) ∧
    (∀ a b, (jdRestart E m_min eigenpairs s).H a b
        = if a = b ∧ 0 ≤ a ∧ a < m_min then E.B.ofReal (pairAt eigenpairs a).1 else 0) := by
  have key := forLoop_induction 0 m_min
    (fun i (tmp : JDTmp K F) =>
      let tmp := { tmp with
        tmpV := Function.update tmp.tmpV tmp.tmpVsize 0, tmpVsize := tmp.tmpVsize + 1,
        tmpW := Function.update tmp.tmpW tmp.tmpWsize 0, tmpWsize := tmp.tmpWsize + 1 }
      forLoop 0 s.m
        (fun j (tmp : JDTmp K F) =>
          { tmp with
            tmpV := Function.update tmp.tmpV i
              (blas.caxpy ((pairAt eigenpairs i).2 j) (s.V j) (tmp.tmpV i)),
            tmpW := Function.update tmp.tmpW i
              (blas.caxpy ((pairAt eigenpairs i).2 j) (s.W j) (tmp.tmpW i)),
            tmpH := setEntry tmp.tmpH i i (E.B.ofReal (pairAt eigenpairs i).1) })
        tmp)
    ({ tmpV := fun _ => 0, tmpVsize := 0, tmpW := fun _ => 0, tmpWsize := 0,
       tmpH := fun _ _ => 0 } : JDTmp K F)
    (fun i tmp =>
      tmp.tmpVsize = i ∧ tmp.tmpWsize = i ∧
      (∀ q, 0 ≤ q → q < i →
        tmp.tmpV q = ∑ j ∈ Finset.Ico 0 s.m, (pairAt eigenpairs q).2 j • s.V j ∧
        tmp.tmpW q = ∑ j ∈ Finset.Ico 0 s.m, (pairAt eigenpairs q).2 j • s.W j) ∧
      (∀ a b, tmp.tmpH a b
        = if a = b ∧ 0 ≤ a ∧ a < i then E.B.ofReal (pairAt eigenpairs a).1 else 0))
    ⟨rfl, rfl, fun q h1 h2 => absurd h2 (not_lt.mpr h1), fun a b => by
      rw [if_neg (by omega)]⟩
    (by
      intro i st hi1 hi2 hP
      obtain ⟨p1, p2, p3, p4⟩ := hP
      have inner := forLoop_induction 0 s.m
        (fun j (tmp : JDTmp K F) =>
          { tmp with
            tmpV := Function.update tmp.tmpV i
              (blas.caxpy ((pairAt eigenpairs i).2 j) (s.V j) (tmp.tmpV i)),
            tmpW := Function.update tmp.tmpW i
              (blas.caxpy ((pairAt eigenpairs i).2 j) (s.W j) (tmp.tmpW i)),
            tmpH := setEntry tmp.tmpH i i (E.B.ofReal (pairAt eigenpairs i).1) })
        ({ st with
          tmpV := Function.update st.tmpV st.tmpVsize 0, tmpVsize := st.tmpVsize + 1,
          tmpW := Function.update st.tmpW st.tmpWsize 0, tmpWsize := st.tmpWsize + 1 } : JDTmp K F)
        (fun j tmp =>
          tmp.tmpVsize = i + 1 ∧ tmp.tmpWsize = i + 1 ∧
          (∀ q, q ≠ i → tmp.tmpV q = st.tmpV q ∧ tmp.tmpW q = st.tmpW q) ∧
          tmp.tmpV i = ∑ j2 ∈ Finset.Ico 0 j, (pairAt eigenpairs i).2 j2 • s.V j2 ∧
          tmp.tmpW i = ∑ j2 ∈ Finset.Ico 0 j, (pairAt eigenpairs i).2 j2 • s.W j2 ∧
          (∀ a b, tmp.tmpH a b
            = if a = i ∧ b = i ∧ 0 < j then E.B.ofReal (pairAt eigenpairs i).1 else st.tmpH a b))
        (by
          refine ⟨by dsimp only; rw [p1], by dsimp only; rw [p2], ?_, ?_, ?_, ?_⟩
          · intro q hq
            dsimp only
            rw [p1, p2, Function.update_noteq hq, Function.update_noteq hq]
            exact ⟨rfl, rfl⟩
          · dsimp only
            rw [p1, Function.update_same, Finset.Ico_self, Finset.sum_empty]
          · dsimp only
            rw [p2, Function.update_same, Finset.Ico_self, Finset.sum_empty]
          · intro a b
            rw [if_neg (by omega)])
        (by
          intro j tmp hj1 hj2 hQ
          obtain ⟨q1, q2, q3, q4, q5, q6⟩ := hQ
          refine ⟨q1, q2, ?_, ?_, ?_, ?_⟩
          · intro q hq
            dsimp only
            rw [Function.update_noteq hq, Function.update_noteq hq]
            exact q3 q hq
          · dsimp only
            rw [Function.update_same, Ico_zero_succ j hj1, Finset.sum_insert (by simp), q4]
            rfl
          · dsimp only
            rw [Function.update_same, Ico_zero_succ j hj1, Finset.sum_insert (by simp), q5]
            rfl
          · intro a b
            dsimp only [setEntry]
            by_cases hab : a = i ∧ b = i
            · rw [if_pos hab, if_pos ⟨hab.1, hab.2, by omega⟩]
            · rw [if_neg hab, q6 a b]
              by_cases h1 : a = i
              · by_cases h2 : b = i
                · exact absurd ⟨h1, h2⟩ hab
                · rw [if_neg (fun h => h2 h.2.1), if_neg (fun h => h2 h.2.1)]
              · rw [if_neg (fun h => h1 h.1), if_neg (fun h => h1 h.1)])
      rw [max_eq_right (le_of_lt hm)] at inner
      obtain ⟨q1, q2, q3, q4, q5, q6⟩ := inner
      refine ⟨q1, q2, ?_, ?_⟩
      · intro q hq1 hq2
        by_cases hqi : q = i
        · subst hqi
          exact ⟨q4, q5⟩
        · rw [(q3 q hqi).1, (q3 q hqi).2]
          exact p3 q hq1 (by omega)
      · intro a b
        rw [q6 a b]
        by_cases hab : a = i ∧ b = i
        · obtain ⟨ha, hb⟩ := hab
          subst ha
          subst hb
          rw [if_pos ⟨rfl, rfl, hm⟩, if_pos ⟨rfl, hi1, by omega⟩]
        · rw [if_neg (fun h => hab ⟨h.1, h.2.1⟩), p4 a b]
          by_cases h : a = b ∧ 0 ≤ a ∧ a < i
          · rw [if_pos h, if_pos ⟨h.1, h.2.1, by omega⟩]
          · rw [if_neg h, if_neg]
            rintro ⟨h1, h2, h3⟩
            by_cases hai : a = i
            · exact hab ⟨hai, by omega⟩
            · exact h ⟨h1, h2, by omega⟩)
  rw [max_eq_right hmin] at key
  exact key

/-- The list `eigenpairs` is in descending order of the eigenvalue, and a
rearrangement of the pairs the dense eigensolver returned. -/
theorem jdEigenpairs_sorted {K : Type} (eig : DenseEigenC R K) (m : Int) :
    List.Sorted (fun a b : R × (Int → K) => b.1 ≤ a.1) (jdEigenpairs eig m) ∧
    List.Perm (jdEigenpairs eig m)
      ((List.range m.toNat).map
        fun (i : Nat) => (eig.eigenvalues i, fun j => eig.eigenvectors i j)) := by
  haveI : IsTotal (R × (Int → K)) (fun a b => a.1 ≤ b.1) := ⟨fun a b => le_total a.1 b.1⟩
  haveI : IsTrans (R × (Int → K)) (fun a b => a.1 ≤ b.1) := ⟨fun _ _ _ h1 h2 => le_trans h1 h2⟩
  refine ⟨?_, ?_⟩
  · unfold jdEigenpairs List.Sorted
    rw [List.pairwise_reverse]
    exact List.sorted_insertionSort (fun a b : R × (Int → K) => a.1 ≤ b.1) _
  · unfold jdEigenpairs
    exact (List.reverse_perm _).trans (List.perm_insertionSort _ _)

/-- An iteration of the main loop that returns has left its inner loop with
some value of `norm`, then restarted if `m >= m_max`, then solved the
correction equation. -/
theorem jdIteration_some (E : JDEnv R K F) (tau : R) (m_max m_min : Int) (fuel : Nat)
    (s s2 : JDState R K F) (hit : jdIteration E tau m_max m_min fuel s = some s2) :
    ∃ norm : R,
      s2 = jdCorrect E tau
        (if (jdExtract E tau s).1.m ≥ m_max then
          jdRestart E m_min (jdExtract E tau s).2 { (jdExtract E tau s).1 with norm := norm }
        else { (jdExtract E tau s).1 with norm := norm }) := by
  unfold jdIteration at hit
  dsimp only at hit
  split at hit
  · cases hit
  · rename_i norm _
    exact ⟨norm, (Option.some.inj hit).symm⟩

/-- With a tolerance of at most one, an iteration of the main loop returns,
and what it returns does not depend on the fuel of its inner loop. -/
theorem jdIteration_one_pass (E : JDEnv R K F) (tau : R) (m_max m_min : Int)
    (s : JDState R K F) (htol : s.tol ≤ 1) :
    ∃ s2, ∀ inner : Nat, jdIteration E tau m_max m_min (inner + 2) s = some s2 := by
  refine ⟨jdCorrect E tau
    (if (jdExtract E tau s).1.m ≥ m_max then
      jdRestart E m_min (jdExtract E tau s).2
        { (jdExtract E tau s).1 with
          norm := if (jdExtract E tau s).1.norm < (jdExtract E tau s).1.tol then 1
            else (jdExtract E tau s).1.norm }
    else
      { (jdExtract E tau s).1 with
        norm := if (jdExtract E tau s).1.norm < (jdExtract E tau s).1.tol then 1
          else (jdExtract E tau s).1.norm }), ?_⟩
  intro inner
  unfold jdIteration
  dsimp only
  have h : (jdExtract E tau s).1.tol = s.tol := rfl
  rw [residualLoop_one_pass _ _ _ (by rw [h]; exact htol)]

/-- What an iteration of the main loop that returns leaves in the variables
of the control flow: `m` grows by one, or falls to `m_min` with one more
restart counted when it has reached `m_max`; `k`, `tol`, `max_restarts`,
`converged`, `evals` and the size of `eigSpace` are as before. -/
theorem jdIteration_control (E : JDEnv R K F) (tau : R) (m_max m_min : Int) (fuel : Nat)
    (s s2 : JDState R K F) (hit : jdIteration E tau m_max m_min fuel s = some s2) :
    s2.m = (if m_max ≤ s.m + 1 then m_min else s.m + 1) ∧
    s2.restart_iter = (if m_max ≤ s.m + 1 then s.restart_iter + 1 else s.restart_iter) ∧
    s2.k = s.k ∧ s2.tol = s.tol ∧ s2.max_restarts = s.max_restarts ∧
    s2.converged = s.converged ∧ s2.evals = s.evals ∧ s2.eigSize = s.eigSize ∧
    s2.eig_param = s.eig_param := by
  obtain ⟨norm, rfl⟩ := jdIteration_some E tau m_max m_min fuel s s2 hit
  have hm : (jdExtract E tau s).1.m = s.m + 1 := rfl
  have he : ∀ x : JDState R K F, (jdCorrect E tau x).eigSize = x.eigSize := by
    intro x
    show x.eigSize + 1 - 1 = x.eigSize
    omega
  by_cases h : m_max ≤ s.m + 1
  · rw [if_pos (show (jdExtract E tau s).1.m ≥ m_max from by rw [hm]; exact h), if_pos h, if_pos h]
    exact ⟨rfl, rfl, rfl, rfl, rfl, rfl, rfl, he _, rfl⟩
  · rw [if_neg (show ¬ (jdExtract E tau s).1.m ≥ m_max from by rw [hm]; exact h), if_neg h,
      if_neg h]
    exact ⟨rfl, rfl, rfl, rfl, rfl, rfl, rfl, he _, rfl⟩

/-- The loop `while (norm < tol)` entered with `norm = 1.0` can only leave
with `norm = 1.0`. -/
theorem residualLoop_one (tol : R) (fuel : Nat) (n2 : R)
    (h : residualLoop tol fuel 1 = some n2) : n2 = 1 := by
  induction fuel with
  | zero => cases h
  | succ fuel ih =>
    rw [residualLoop] at h
    by_cases h1 : (1 : R) < tol
    · rw [if_pos h1] at h
      exact ih h
    · rw [if_neg h1] at h
      exact (Option.some.inj h).symm

/-- When the loop `while (norm < tol)` leaves through its guard, it leaves
with the `norm` of its entry if that was not below the tolerance, and with
`norm = 1.0` otherwise. -/
theorem residualLoop_value (tol norm : R) (fuel : Nat) (n2 : R)
    (h : residualLoop tol fuel norm = some n2) : n2 = if norm < tol then 1 else norm := by
  cases fuel with
  | zero => cases h
  | succ fuel =>
    rw [residualLoop] at h
    by_cases hn : norm < tol
    · rw [if_pos hn] at h
      rw [if_pos hn]
      exact residualLoop_one tol fuel n2 h
    · rw [if_neg hn] at h
      rw [if_neg hn]
      exact (Option.some.inj h).symm

/-- The loop `while (norm < tol)` leaves through its guard, after at most one
execution of its body, when the tolerance is at most one or the norm of the
entry is not below the tolerance. -/
theorem residualLoop_exits (tol norm : R) (fuel : Nat) (h : tol ≤ 1 ∨ ¬ norm < tol) :
    residualLoop tol (fuel + 2) norm = some (if norm < tol then 1 else norm) := by
  rcases h with h | h
  · exact residualLoop_one_pass tol norm fuel h
  · rw [if_neg h, residualLoop, if_neg h]

/-- An iteration of the main loop whose inner loop leaves through its guard
returns, whatever the fuel above one, and every fuel with which it returns
gives the same state. -/
theorem jdIteration_exits (E : JDEnv R K F) (tau : R) (m_max m_min : Int)
    (s : JDState R K F) (hexit : s.tol ≤ 1 ∨ ¬ (jdExtract E tau s).1.norm < s.tol) :
    ∃ s2,
      (∀ inner : Nat, jdIteration E tau m_max m_min (inner + 2) s = some s2) ∧
      ∀ (fuel : Nat) (s3 : JDState R K F),
        jdIteration E tau m_max m_min fuel s = some s3 → s3 = s2 := by
  have htol : (jdExtract E tau s).1.tol = s.tol := rfl
  refine ⟨jdCorrect E tau
    (if (jdExtract E tau s).1.m ≥ m_max then
      jdRestart E m_min (jdExtract E tau s).2
        { (jdExtract E tau s).1 with
          norm := if (jdExtract E tau s).1.norm < (jdExtract E tau s).1.tol then 1
            else (jdExtract E tau s).1.norm }
    else
      { (jdExtract E tau s).1 with
        norm := if (jdExtract E tau s).1.norm < (jdExtract E tau s).1.tol then 1
          else (jdExtract E tau s).1.norm }), ?_, ?_⟩
  · intro inner
    unfold jdIteration
    dsimp only
    rw [residualLoop_exits _ _ _ (by rw [htol]; exact hexit)]
  · intro fuel s3 h3
    unfold jdIteration at h3
    dsimp only at h3
    split at h3
    · cases h3
    · rename_i n2 hres
      rw [residualLoop_value _ _ _ _ hres] at h3
      exact (Option.some.inj h3).symm

/-- What an iteration of the main loop that returns has done, when it was
entered with `|V| = |W| = m >= 0` and `0 <= m_min <= m_max`: a restart to
`m_min` combinations of the vectors of `V` and of `W` and a diagonal `H` when
`m` has reached `m_max`, one more vector in `V` and `W` otherwise, and
`m = |V| = |W| = dim(H)`, `0 <= m <= m_max` in both cases. -/
theorem jdIteration_returned (E : JDEnv R K F) (tau : R) (m_max m_min : Int) (fuel : Nat)
    (s s2 : JDState R K F) (hmin : 0 ≤ m_min) (hle : m_min ≤ m_max) (hm : 0 ≤ s.m)
    (hV : s.Vsize = s.m) (hW : s.Wsize = s.m)
    (hit : jdIteration E tau m_max m_min fuel s = some s2) :
    (∀ s0 : JDState R K F,
      (JD.entry E s0).m = 0 ∧ (JD.entry E s0).Vsize = 0 ∧ (JD.entry E s0).Wsize = 0 ∧
      (JD.entry E s0).Hdim = 0) ∧
    (0 ≤ s2.m ∧ s2.Vsize = s2.m ∧ s2.Wsize = s2.m ∧ s2.Hdim = s2.m ∧ s2.m ≤ m_max) ∧
    (s.m + 1 < m_max → s2.m = s.m + 1 ∧ s2.restart_iter = s.restart_iter) ∧
    (m_max ≤ s.m + 1 →
      s2.m = m_min ∧ s2.restart_iter = s.restart_iter + 1 ∧
      List.Sorted (fun a b : R × (Int → K) => b.1 ≤ a.1) (jdExtract E tau s).2 ∧
      List.Perm (jdExtract E tau s).2
        ((List.range (s.m + 1).toNat).map fun (i : Nat) =>
          ((E.eigensolverC (s.m + 1) (jdExtract E tau s).1.H).eigenvalues i,
            fun j => (E.eigensolverC (s.m + 1) (jdExtract E tau s).1.H).eigenvectors i j)) ∧
      ∀ i, 0 ≤ i → i < m_min →
        s2.V i = ∑ j ∈ Finset.Ico 0 (s.m + 1),
          (pairAt (jdExtract E tau s).2 i).2 j • (jdExtract E tau s).1.V j ∧
        s2.W i = ∑ j ∈ Finset.Ico 0 (s.m + 1),
          (pairAt (jdExtract E tau s).2 i).2 j • (jdExtract E tau s).1.W j ∧
        ∀ j, 0 ≤ j → j < m_min →
          s2.H i j = if i = j then E.B.ofReal (pairAt (jdExtract E tau s).2 i).1 else 0) := by
  obtain ⟨norm, rfl⟩ := jdIteration_some E tau m_max m_min fuel s s2 hit
  have hxm : (jdExtract E tau s).1.m = s.m + 1 := rfl
  by_cases h : m_max ≤ s.m + 1
  · rw [if_pos (show (jdExtract E tau s).1.m ≥ m_max from by rw [hxm]; exact h)]
    obtain ⟨r1, r2, r3, r4⟩ := jdRestart_spec E m_min (jdExtract E tau s).2
      { (jdExtract E tau s).1 with norm := norm } hmin
      (show 0 < (jdExtract E tau s).1.m from by rw [hxm]; omega)
    refine ⟨fun _ => ⟨rfl, rfl, rfl, rfl⟩, ⟨hmin, r1, r2, rfl, hle⟩,
      fun h2 => absurd h (not_le.mpr h2), fun _ => ?_⟩
    refine ⟨rfl, rfl, (jdEigenpairs_sorted _ _).1, (jdEigenpairs_sorted _ _).2, ?_⟩
    intro i hi1 hi2
    refine ⟨(r3 i hi1 hi2).1, (r3 i hi1 hi2).2, ?_⟩
    intro j hj1 hj2
    have e := r4 i j
    by_cases hij : i = j
    · rw [if_pos hij]
      rw [if_pos ⟨hij, hi1, hi2⟩] at e
      exact e
    · rw [if_neg hij]
      rw [if_neg (fun hh => hij hh.1)] at e
      exact e
  · rw [if_neg (show ¬ (jdExtract E tau s).1.m ≥ m_max from by rw [hxm]; exact h)]
    refine ⟨fun _ => ⟨rfl, rfl, rfl, rfl⟩, ⟨?_, ?_, ?_, rfl, ?_⟩, fun _ => ⟨rfl, rfl⟩,
      fun h2 => absurd h2 h⟩
    · show 0 ≤ s.m + 1
      omega
    · show s.Vsize + 1 = s.m + 1
      rw [hV]
    · show s.Wsize + 1 = s.m + 1
      rw [hW]
    · show s.m + 1 ≤ m_max
      omega

/-- C31: an iteration of the main loop of `JD::operator()` entered with
`|V| = |W| = m >= 0` and `0 <= m_min <= m_max`, whose inner loop leaves
through its guard (the tolerance is at most one, or the norm of the residual
is not below the tolerance), returns, with the same state for every fuel that
suffices.  When `m` reaches `m_max` the restart leaves exactly `m_min` vectors
in `V` and in `W`, the vector `i` being the combination of the vectors of `V`
(of `W`) with the coefficients of the eigenvector of the eigenvalue of rank
`i` of `H` in descending order, sets `m = m_min`, leaves in `H` the diagonal
matrix of dimension `m_min` of these eigenvalues, and counts one restart more;
when it does not, `m` has grown by one and no restart is counted.  In both
cases `m = |V| = |W| = dim(H)` and `0 <= m <= m_max` after the iteration; on
entry to the main loop `m = |V| = |W| = dim(H) = 0`. -/
theorem jdIteration_restart (E : JDEnv R K F) (tau : R) (m_max m_min : Int)
    (s : JDState R K F) (hmin : 0 ≤ m_min) (hle : m_min ≤ m_max) (hm : 0 ≤ s.m)
    (hV : s.Vsize = s.m) (hW : s.Wsize = s.m)
    (hexit : s.tol ≤ 1 ∨ ¬ (jdExtract E tau s).1.norm < s.tol) :
    (∀ s0 : JDState R K F,
      (JD.entry E s0).m = 0 ∧ (JD.entry E s0).Vsize = 0 ∧ (JD.entry E s0).Wsize = 0 ∧
      (JD.entry E s0).Hdim = 0) ∧
    ∃ s2 : JDState R K F,
      (∀ inner : Nat, jdIteration E tau m_max m_min (inner + 2) s = some s2) ∧
      (∀ (fuel : Nat) (s3 : JDState R K F),
        jdIteration E tau m_max m_min fuel s = some s3 → s3 = s2) ∧
      (0 ≤ s2.m ∧ s2.Vsize = s2.m ∧ s2.Wsize = s2.m ∧ s2.Hdim = s2.m ∧ s2.m ≤ m_max) ∧
      (s.m + 1 < m_max → s2.m = s.m + 1 ∧ s2.restart_iter = s.restart_iter) ∧
      (m_max ≤ s.m + 1 →
        s2.m = m_min ∧ s2.restart_iter = s.restart_iter + 1 ∧
        List.Sorted (fun a b : R × (Int → K) => b.1 ≤ a.1) (jdExtract E tau s).2 ∧
        List.Perm (jdExtract E tau s).2
          ((List.range (s.m + 1).toNat).map fun (i : Nat) =>
            ((E.eigensolverC (s.m + 1) (jdExtract E tau s).1.H).eigenvalues i,
              fun j => (E.eigensolverC (s.m + 1) (jdExtract E tau s).1.H).eigenvectors i j)) ∧
        ∀ i, 0 ≤ i → i < m_min →
          s2.V i = ∑ j ∈ Finset.Ico 0 (s.m + 1),
            (pairAt (jdExtract E tau s).2 i).2 j • (jdExtract E tau s).1.V j ∧
          s2.W i = ∑ j ∈ Finset.Ico 0 (s.m + 1),
            (pairAt (jdExtract E tau s).2 i).2 j • (jdExtract E tau s).1.W j ∧
          ∀ j, 0 ≤ j → j < m_min →
            s2.H i j = if i = j then E.B.ofReal (pairAt (jdExtract E tau s).2 i).1 else 0) := by
  obtain ⟨s2, hret, huniq⟩ := jdIteration_exits E tau m_max m_min s hexit
  obtain ⟨h0, h1, h2, h3⟩ :=
    jdIteration_returned E tau m_max m_min 2 s s2 hmin hle hm hV hW (hret 0)
  exact ⟨h0, s2, hret, huniq, h1, h2, h3⟩

/-- C31 (the theorem at a concrete iteration): in the example with the
tolerance `1/2`, `m_min = 1`, `m_max = 2` and `m = 1` on entry, the iteration
returns, restarts and leaves `m = |V| = |W| = dim(H) = 1` with one restart
counted. -/
theorem jdIteration_restart_witness :
    (0 : Int) ≤ 1 ∧ (1 : Int) ≤ 2 ∧ 0 ≤ exampleJDMid.m ∧
    exampleJDMid.Vsize = exampleJDMid.m ∧ exampleJDMid.Wsize = exampleJDMid.m ∧
    (exampleJDMid.tol ≤ 1 ∨
      ¬ (jdExtract exampleJDEnv 0 exampleJDMid).1.norm < exampleJDMid.tol) ∧
    ∃ s2 : JDState ℚ ℚ ℚ,
      (∀ inner : Nat, jdIteration exampleJDEnv 0 2 1 (inner + 2) exampleJDMid = some s2) ∧
      (0 ≤ s2.m ∧ s2.Vsize = s2.m ∧ s2.Wsize = s2.m ∧ s2.Hdim = s2.m ∧ s2.m ≤ 2) ∧
      s2.m = 1 ∧ s2.restart_iter = exampleJDMid.restart_iter + 1 := by
  have htol : exampleJDMid.tol ≤ 1 := show (1 / 2 : ℚ) ≤ 1 by norm_num
  obtain ⟨-, s2, hret, -, hinv, -, hres⟩ :=
    jdIteration_restart exampleJDEnv 0 2 1 exampleJDMid (by decide) (by decide) (by decide)
      rfl rfl (Or.inl htol)
  exact ⟨by decide, by decide, by decide, rfl, rfl, Or.inl htol, s2, hret, hinv,
    (hres (by decide)).1, (hres (by decide)).2.1⟩

/-- With a tolerance of at most one, the main loop entered with `k < k_max`
and `restart_iter < max_restarts` reaches its next restart: after `c + 1`
iterations, `c` being the distance of `m + 1` from `m_max`, it is in a state
with one restart more and the same `k`, `tol`, `max_restarts`, `converged`,
`evals` and size of `eigSpace`. -/
theorem jdLoop_next_restart (E : JDEnv R K F) (tau : R) (k_max m_max m_min : Int) (c : Nat) :
    ∀ s : JDState R K F, s.tol ≤ 1 → s.restart_iter < s.max_restarts → s.k < k_max →
      (m_max - (s.m + 1)).toNat = c →
      ∃ s1 : JDState R K F,
        (∀ inner fuel : Nat,
          jdLoop E tau k_max m_max m_min (inner + 2) (fuel + (c + 1)) s
            = jdLoop E tau k_max m_max m_min (inner + 2) fuel s1) ∧
        s1.restart_iter = s.restart_iter + 1 ∧ s1.k = s.k ∧ s1.tol = s.tol ∧
        s1.max_restarts = s.max_restarts ∧ s1.converged = s.converged ∧
        s1.evals = s.evals ∧ s1.eigSize = s.eigSize ∧ s1.eig_param = s.eig_param := by
  induction c with
  | zero =>
    intro s htol hr hk hc
    obtain ⟨s2, h2⟩ := jdIteration_one_pass E tau m_max m_min s htol
    obtain ⟨-, c2, c3, c4, c5, c6, c7, c8, c9⟩ :=
      jdIteration_control E tau m_max m_min 2 s s2 (h2 0)
    have hmm : m_max ≤ s.m + 1 := by omega
    rw [if_pos hmm] at c2
    refine ⟨s2, ?_, c2, c3, c4, c5, c6, c7, c8, c9⟩
    intro inner fuel
    show jdLoop E tau k_max m_max m_min (inner + 2) (fuel + 1) s = _
    rw [jdLoop, if_pos ⟨hr, hk⟩, h2 inner]
  | succ c ih =>
    intro s htol hr hk hc
    obtain ⟨s2, h2⟩ := jdIteration_one_pass E tau m_max m_min s htol
    obtain ⟨c1, c2, c3, c4, c5, c6, c7, c8, c9⟩ :=
      jdIteration_control E tau m_max m_min 2 s s2 (h2 0)
    have hmm : ¬ m_max ≤ s.m + 1 := by omega
    rw [if_neg hmm] at c1 c2
    obtain ⟨s1, l1, d2, d3, d4, d5, d6, d7, d8, d9⟩ := ih s2 (by rw [c4]; exact htol)
      (by rw [c2, c5]; exact hr) (by rw [c3]; exact hk) (by rw [c1]; omega)
    refine ⟨s1, ?_, by rw [d2, c2], by rw [d3, c3], by rw [d4, c4], by rw [d5, c5],
      by rw [d6, c6], by rw [d7, c7], by rw [d8, c8], by rw [d9, c9]⟩
    intro inner fuel
    show jdLoop E tau k_max m_max m_min (inner + 2) (fuel + (c + 1) + 1) s = _
    rw [jdLoop, if_pos ⟨hr, hk⟩, h2 inner]
    exact l1 inner fuel

/-- With a tolerance of at most one and `k < k_max`, the main loop leaves
through its guard, with `restart_iter = max_restarts` when it was entered
with `restart_iter <= max_restarts`, and with `k`, `converged`, `evals` and
the size of `eigSpace` as on entry. -/
theorem jdLoop_terminates (E : JDEnv R K F) (tau : R) (k_max m_max m_min : Int) (n : Nat) :
    ∀ s : JDState R K F, s.tol ≤ 1 → s.k < k_max →
      (s.max_restarts - s.restart_iter).toNat = n →
      ∃ (N : Nat) (s2 : JDState R K F),
        (∀ inner fuel : Nat,
          jdLoop E tau k_max m_max m_min (inner + 2) (fuel + N) s = some s2) ∧
        (s.restart_iter ≤ s.max_restarts → s2.restart_iter = s.max_restarts) ∧
        s2.converged = s.converged ∧ s2.evals = s.evals ∧ s2.eigSize = s.eigSize ∧
        s2.eig_param = s.eig_param := by
  induction n with
  | zero =>
    intro s _ _ hn
    refine ⟨1, s, ?_, fun h => by omega, rfl, rfl, rfl, rfl⟩
    intro inner fuel
    rw [jdLoop, if_neg (fun h => by omega)]
  | succ n ih =>
    intro s htol hk hn
    obtain ⟨s1, l1, d2, d3, d4, d5, d6, d7, d8, d9⟩ :=
      jdLoop_next_restart E tau k_max m_max m_min (m_max - (s.m + 1)).toNat s htol (by omega) hk
        rfl
    obtain ⟨N, s2, l2, e1, e2, e3, e4, e5⟩ := ih s1 (by rw [d4]; exact htol)
      (by rw [d3]; exact hk) (by rw [d2, d5]; omega)
    refine ⟨N + ((m_max - (s.m + 1)).toNat + 1), s2, ?_, ?_, by rw [e2, d6], by rw [e3, d7],
      by rw [e4, d8], by rw [e5, d9]⟩
    · intro inner fuel
      rw [← Nat.add_assoc, l1 inner (fuel + N)]
      exact l2 inner fuel
    · intro _
      rw [e1 (by rw [d2, d5]; omega), d5]

/-- With a tolerance of at most one, `JD::operator()` called without a file to
load, with `nConv > 0`, `restart_iter = 0` and `max_restarts >= 0`, returns:
the main loop has counted exactly `max_restarts` restarts, `converged` and
`evals` are as on entry. -/
theorem JD_operator_terminates (E : JDEnv R K F) (s : JDState R K F) (htol : s.tol ≤ 1)
    (hin : s.eig_param.vec_infile = "") (hk : 0 < s.eig_param.nConv)
    (hr : s.restart_iter = 0) (hmr : 0 ≤ s.eig_param.max_restarts) :
    ∃ (N : Nat) (s2 : JDState R K F), ∀ fuel : Nat, N ≤ fuel →
      JD.operator E fuel s = some (.ok s2) ∧
      s2.restart_iter = s.eig_param.max_restarts ∧
      s2.converged = s.converged ∧ s2.evals = s.evals := by
  obtain ⟨N, s2, l, e1, e2, e3, e4, e5⟩ :=
    jdLoop_terminates E (0 : R) s.eig_param.nConv s.eig_param.nKr s.eig_param.nEv
      ((JD.entry E s).max_restarts - (JD.entry E s).restart_iter).toNat (JD.entry E s)
      htol hk rfl
  have hz : s2.eigSize = 0 := e4
  have hri : s2.restart_iter = s.eig_param.max_restarts :=
    e1 (show s.restart_iter ≤ s.eig_param.max_restarts by rw [hr]; exact hmr)
  refine ⟨N + 2, { s2 with
    eigSpace := Function.update s2.eigSpace s2.eigSize 0, eigSize := s2.eigSize + 1 }, ?_⟩
  intro fuel hfuel
  refine ⟨?_, hri, e2, e3⟩
  obtain ⟨a, rfl⟩ : ∃ a, fuel = a + 2 := ⟨fuel - 2, by omega⟩
  have hl := l a (a + 2 - N)
  rw [show a + 2 - N + N = a + 2 by omega] at hl
  unfold JD.operator
  dsimp only
  rw [if_neg (by rw [hin]; exact fun h => h rfl), hl]
  dsimp only
  rw [if_neg (fun h => by omega), if_pos hz]

/-- C37 (the code at the failing input): the configuration `nEv = 1`,
`nKr = 2`, `nConv = 1`, `max_restarts = 1` with the tolerance `tol = 2` is
accepted by the constructor of `JD`.  With the operator `x -> 2 x` and the
initial guess `1`, an eigenvector, the first iteration of the main loop finds
a residual of norm `0`, enters `while (norm < tol)`, and the body sets
`norm = 1.0`, which is still below `tol = 2`: the inner loop never leaves
through its guard, whatever the fuel, and neither the main loop nor
`JD::operator()` returns. -/
theorem jd_residual_loop_never_exits :
    (∃ solver : JD ℚ, JD.JD (exampleJDParam 2) (fun _ => 0) = .ok solver ∧
      (exampleJDState 2).toJD = solver) ∧
    (jdExtract exampleJDEnv 0 (JD.entry exampleJDEnv (exampleJDState 2))).1.norm = 0 ∧
    (jdExtract exampleJDEnv 0 (JD.entry exampleJDEnv (exampleJDState 2))).1.tol = 2 ∧
    (∀ fuel : Nat, residualLoop (2 : ℚ) fuel 0 = none) ∧
    (∀ inner fuel : Nat,
      jdLoop exampleJDEnv 0 1 2 1 inner fuel (JD.entry exampleJDEnv (exampleJDState 2)) = none) ∧
    (∀ fuel : Nat, JD.operator exampleJDEnv fuel (exampleJDState 2) = none) := by
  have hdiv : ∀ fuel : Nat, residualLoop (2 : ℚ) fuel 0 = none :=
    fun fuel => residualLoop_never_exits 2 (by norm_num) fuel 0 (by norm_num)
  have hloop : ∀ inner fuel : Nat,
      jdLoop exampleJDEnv 0 1 2 1 inner fuel (JD.entry exampleJDEnv (exampleJDState 2))
        = none := by
    intro inner fuel
    cases fuel with
    | zero => rfl
    | succ fuel =>
      have hit : jdIteration exampleJDEnv 0 2 1 inner (JD.entry exampleJDEnv (exampleJDState 2))
          = none := by
        unfold jdIteration
        dsimp only
        rw [(exampleJD_first_residual 2).1, (exampleJD_first_residual 2).2, hdiv inner]
      have hg : (JD.entry exampleJDEnv (exampleJDState 2)).restart_iter
            < (JD.entry exampleJDEnv (exampleJDState 2)).max_restarts ∧
          (JD.entry exampleJDEnv (exampleJDState 2)).k < 1 :=
        (show (0 : Int) < 1 ∧ (0 : Int) < 1 from ⟨by decide, by decide⟩)
      rw [jdLoop, if_pos hg, hit]
  refine ⟨⟨_, rfl, rfl⟩, (exampleJD_first_residual 2).1, (exampleJD_first_residual 2).2,
    hdiv, hloop, ?_⟩
  intro fuel
  unfold JD.operator
  dsimp only
  rw [if_neg (fun h => h rfl)]
  have h := hloop fuel fuel
  have e1 : (exampleJDState 2).eig_param.nConv = 1 := rfl
  have e2 : (exampleJDState 2).eig_param.nKr = 2 := rfl
  have e3 : (exampleJDState 2).eig_param.nEv = 1 := rfl
  rw [e1, e2, e3, h]

end jacobiDavidson

end quda
